import Mathlib

/-!
# Route transposition cipher and Gronsfeld cipher

A shallow embedding of `Module/module.cpp` (class `RouteCipher`) and of
`modAlphaCipher/modAlphaCipher.cpp` (class `modAlphaCipher`), together with the self-test
`check` of `modAlphaCipher/main.cpp`.

Conventions of the embedding.

* `std::wstring` is `List Char`; `std::vector<int>` is `List Int`; `std::size_t` and
  `unsigned` values are `Nat`.  Where the source mixes `int` and `std::size_t` operands the
  conversion to `std::size_t` and the wrap-around of unsigned subtraction are written out
  (`toSizeT`, `subSizeT`).
* A function that can throw returns `Except Err _`; a member function also returns the object
  after the call, so that its effect on the object is visible.
* The functions of `<cwctype>` that depend on the process locale (`iswalpha`, `iswlower`,
  `iswupper`, `towupper`, `towlower`) are not part of the repository.  They are the fields of
  a parameter `L : WCType`.  `iswdigit` does not depend on the locale and is `Char.isDigit`.
* Strings are taken to be shorter than `2 ^ 32` characters.  Then the `unsigned` loop
  counters of `modAlphaCipher` do not wrap, and neither do the `std::size_t` expressions
  `text_length + columns - 1` and `row * columns + col` of `RouteCipher` (`columns` is at
  most `INT_MAX`); they are computed on natural numbers.  Every `for` loop is a recursion
  over its exact trip count.
-/

/-- Exceptions raised by the two classes.  `cipher_error` carries the text of `what()`;
`invalid_argument` and `out_of_range` are the two exceptions of `std::stoi`. -/
inductive Err where
  | cipher_error (what : String)
  | invalid_argument (what : String)
  | out_of_range (what : String)
  deriving DecidableEq

deriving instance DecidableEq for Except

/-- A `std::wstring`. -/
abbrev wstring := List Char

/-- The locale-dependent wide-character functions of `<cwctype>`. -/
structure WCType where
  iswalpha : Char → Bool
  iswlower : Char → Bool
  iswupper : Char → Bool
  towupper : Char → Char
  towlower : Char → Char

/-- `std::iswdigit`: the ten decimal digits, whatever the locale. -/
def iswdigit (c : Char) : Bool := c.isDigit

/-- Largest value of `int`. -/
def INT_MAX : Nat := 2147483647

/-- Value of a decimal digit. -/
def digitValue (c : Char) : Nat := c.toNat - 48

/-- `std::stoi` on a wide string, for the strings the callers pass (they have already
checked that every character is a digit, so neither white space nor a sign occurs): the
leading run of digits is read in base ten; no digit at all is `std::invalid_argument`, a value
that does not fit in `int` is `std::out_of_range`. -/
def stoi (s : wstring) : Except Err Nat :=
  let ds := s.takeWhile iswdigit
  if ds.isEmpty then
    .error (Err.invalid_argument "stoi")
  else
    let v := ds.foldl (fun acc c => 10 * acc + digitValue c) 0
    if v > INT_MAX then .error (Err.out_of_range "stoi") else .ok v

/-- `std::to_wstring` on a non-negative `int`: its decimal digits, most significant first. -/
def to_wstring (n : Nat) : wstring := Nat.toDigits 10 n

/-- Class `RouteCipher`: the only data member is `int columns`.  It is only ever assigned a
value returned by `std::stoi`, which is never negative on an all-digit string, so it is held
as a natural number. -/
structure RouteCipher where
  columns : Nat
  deriving DecidableEq

namespace RouteCipher

/-- `RouteCipher::getValidKey`. -/
def getValidKey (s : wstring) : Except Err wstring :=
  if s.isEmpty then
    .error (Err.cipher_error "Empty key")
  else if s.any (fun c => !iswdigit c) then
    .error (Err.cipher_error "Invalid key - must contain only digits")
  else
    match stoi s with
    | .error e => .error e
    | .ok key_value =>
      if key_value ≤ 0 then
        .error (Err.cipher_error "Key must be greater than 0")
      else
        .ok s

/-- Constructor `RouteCipher::RouteCipher(const std::wstring& key)`. -/
def new (key : wstring) : Except Err RouteCipher :=
  match getValidKey key with
  | .error e => .error e
  | .ok valid_key =>
    match stoi valid_key with
    | .error e => .error e
    | .ok n => .ok ⟨n⟩

/-- `RouteCipher::setKey`: on an exception the object is left as it was. -/
def setKey (self : RouteCipher) (key : wstring) : Except Err Unit × RouteCipher :=
  match getValidKey key with
  | .error e => (.error e, self)
  | .ok valid_key =>
    match stoi valid_key with
    | .error e => (.error e, self)
    | .ok n => (.ok (), ⟨n⟩)

/-- `RouteCipher::getKey`, a `const` member function. -/
def getKey (self : RouteCipher) : wstring := to_wstring self.columns

/-- Loop of `RouteCipher::getValidOpenText`, `tmp` being the string built so far. -/
def openTextLoop (L : WCType) : wstring → wstring → wstring
  | [], tmp => tmp
  | c :: s, tmp =>
    if L.iswalpha c then
      if L.iswlower c then openTextLoop L s (tmp ++ [L.towupper c])
      else openTextLoop L s (tmp ++ [c])
    else openTextLoop L s tmp

/-- `RouteCipher::getValidOpenText`. -/
def getValidOpenText (L : WCType) (s : wstring) : Except Err wstring :=
  let tmp := openTextLoop L s []
  if tmp.isEmpty then .error (Err.cipher_error "Empty open text") else .ok tmp

/-- `RouteCipher::getValidCipherText`. -/
def getValidCipherText (L : WCType) (s : wstring) : Except Err wstring :=
  if s.isEmpty then
    .error (Err.cipher_error "Empty cipher text")
  else if s.any (fun c => !L.iswupper c) then
    .error (Err.cipher_error "Invalid cipher text - must contain only uppercase letters")
  else
    .ok s

/-- Inner loop of `encrypt` for one column `col`: `fuel` iterations are left, the next one
has loop counter `row`. -/
def encryptRows (clean_text : wstring) (columns col : Nat) : Nat → Nat → wstring → wstring
  | 0, _, result => result
  | fuel + 1, row, result =>
    let pos := row * columns + col
    if pos < clean_text.length then
      encryptRows clean_text columns col fuel (row + 1) (result ++ [clean_text.getD pos ' '])
    else
      encryptRows clean_text columns col fuel (row + 1) result

/-- Outer loop of `encrypt`: `encryptCols _ _ rows k result` runs `col = k - 1, ..., 0`. -/
def encryptCols (clean_text : wstring) (columns rows : Nat) : Nat → wstring → wstring
  | 0, result => result
  | col + 1, result =>
    encryptCols clean_text columns rows col (encryptRows clean_text columns col rows 0 result)

/-- `RouteCipher::encrypt`. -/
def encrypt (L : WCType) (self : RouteCipher) (text : wstring) :
    Except Err wstring × RouteCipher :=
  match getValidOpenText L text with
  | .error e => (.error e, self)
  | .ok clean_text =>
    let text_length := clean_text.length
    let rows := (text_length + self.columns - 1) / self.columns
    (.ok (encryptCols clean_text self.columns rows self.columns []), self)

/-- Inner loop of `decrypt` for one column; the state is the pair `(result, index)`. -/
def decryptRows (clean_text : wstring) (columns col : Nat) :
    Nat → Nat → wstring × Nat → wstring × Nat
  | 0, _, st => st
  | fuel + 1, row, (result, index) =>
    let pos := row * columns + col
    if pos < clean_text.length ∧ index < clean_text.length then
      decryptRows clean_text columns col fuel (row + 1)
        (result.set pos (clean_text.getD index ' '), index + 1)
    else
      decryptRows clean_text columns col fuel (row + 1) (result, index)

/-- Outer loop of `decrypt`: `decryptCols _ _ rows k st` runs `col = k - 1, ..., 0`. -/
def decryptCols (clean_text : wstring) (columns rows : Nat) :
    Nat → wstring × Nat → wstring × Nat
  | 0, st => st
  | col + 1, st =>
    decryptCols clean_text columns rows col (decryptRows clean_text columns col rows 0 st)

/-- `RouteCipher::decrypt`. -/
def decrypt (L : WCType) (self : RouteCipher) (text : wstring) :
    Except Err wstring × RouteCipher :=
  match getValidCipherText L text with
  | .error e => (.error e, self)
  | .ok clean_text =>
    let text_length := clean_text.length
    let rows := (text_length + self.columns - 1) / self.columns
    let result := List.replicate text_length ' '
    ((.ok (decryptCols clean_text self.columns rows self.columns (result, 0)).1), self)

end RouteCipher

/-- Conversion of an `int` operand to `std::size_t` (64 bits). -/
def toSizeT (x : Int) : Nat := (x % 2 ^ 64).toNat

/-- Subtraction of two `std::size_t` values: it wraps around modulo `2 ^ 64`. -/
def subSizeT (a b : Nat) : Nat := (a % 2 ^ 64 + 2 ^ 64 - b % 2 ^ 64) % 2 ^ 64

/-- Addition of two `std::size_t` values: it wraps around modulo `2 ^ 64`. -/
def addSizeT (a b : Nat) : Nat := (a + b) % 2 ^ 64

/-- Conversion of a `std::size_t` value to `int` (32 bits, two's complement). -/
def toInt (x : Nat) : Int :=
  if x % 2 ^ 32 < 2 ^ 31 then ((x % 2 ^ 32 : Nat) : Int) else ((x % 2 ^ 32 : Nat) : Int) - 2 ^ 32

/-- A `std::map<wchar_t, int>`, held as the list of its entries, one entry per key.  The
order of the entries is not observable through the operations used by the class. -/
abbrev WMap := List (Char × Int)

namespace WMap

/-- `m[c]` used as a value: a key that is absent is inserted with the value `0`. -/
def subscript (m : WMap) (c : Char) : Int × WMap :=
  match m.lookup c with
  | some v => (v, m)
  | none => (0, m ++ [(c, 0)])

/-- `m[c] = v`. -/
def assign (m : WMap) (c : Char) (v : Int) : WMap :=
  match m.lookup c with
  | some _ => m.map (fun e => if e.1 = c then (c, v) else e)
  | none => m ++ [(c, v)]

end WMap

/-- Class `modAlphaCipher` with its three data members. -/
structure modAlphaCipher where
  numAlpha : wstring
  alphaNum : WMap
  key : List Int
  deriving DecidableEq

namespace modAlphaCipher

/-- Default member initializer of `numAlpha`: the Russian alphabet in order. -/
def numAlphaInit : wstring := "АБВГДЕЁЖЗИЙКЛМНОПРСТУФХЦЧШЩЪЫЬЭЮЯ".toList

/-- Loop of the constructor, `alphaNum[numAlpha[i]] = i`; `fuel` iterations are left. -/
def fillAlphaNum (numAlpha : wstring) : Nat → Nat → WMap → WMap
  | 0, _, alphaNum => alphaNum
  | fuel + 1, i, alphaNum =>
    fillAlphaNum numAlpha fuel (i + 1) (alphaNum.assign (numAlpha.getD i ' ') (toInt i))

/-- `modAlphaCipher::convert(const std::wstring&)`: `result` is the vector built so far; the
map is returned too, because `alphaNum[c]` inserts a key that is absent. -/
def convert_wstring : wstring → WMap → List Int → List Int × WMap
  | [], alphaNum, result => (result, alphaNum)
  | c :: s, alphaNum, result =>
    convert_wstring s (alphaNum.subscript c).2 (result ++ [(alphaNum.subscript c).1])

/-- `modAlphaCipher::convert(const std::vector<int>&)`.  An index outside `numAlpha` is
undefined behaviour in the source and yields a blank here. -/
def convert_vector (numAlpha : wstring) : List Int → wstring → wstring
  | [], result => result
  | i :: v, result => convert_vector numAlpha v (result ++ [numAlpha.getD (toSizeT i) ' '])

/-- Loop of `modAlphaCipher::getValidKey` over the copy `tmp` of the key. -/
def validKeyLoop (L : WCType) : wstring → Except Err wstring
  | [] => .ok []
  | c :: tmp =>
    if !L.iswalpha c then
      .error (Err.cipher_error "Invalid key")
    else
      match validKeyLoop L tmp with
      | .error e => .error e
      | .ok rest => .ok ((if L.iswlower c then L.towupper c else c) :: rest)

/-- `modAlphaCipher::getValidKey`. -/
def getValidKey (L : WCType) (s : wstring) : Except Err wstring :=
  if s.isEmpty then .error (Err.cipher_error "Empty key") else validKeyLoop L s

/-- Loop of `modAlphaCipher::getValidOpenText`, `tmp` being the string built so far. -/
def openTextLoop (L : WCType) : wstring → wstring → wstring
  | [], tmp => tmp
  | c :: s, tmp =>
    if L.iswalpha c then
      if L.iswlower c then openTextLoop L s (tmp ++ [L.towupper c])
      else openTextLoop L s (tmp ++ [c])
    else openTextLoop L s tmp

/-- `modAlphaCipher::getValidOpenText`. -/
def getValidOpenText (L : WCType) (s : wstring) : Except Err wstring :=
  let tmp := openTextLoop L s []
  if tmp.isEmpty then .error (Err.cipher_error "Empty open text") else .ok tmp

/-- `modAlphaCipher::getValidCipherText`. -/
def getValidCipherText (L : WCType) (s : wstring) : Except Err wstring :=
  if s.isEmpty then
    .error (Err.cipher_error "Empty cipher text")
  else if s.any (fun c => !L.iswupper c) then
    .error (Err.cipher_error "Invalid cipher text")
  else
    .ok s

/-- Constructor `modAlphaCipher::modAlphaCipher(const std::wstring& skey)`. -/
def new (L : WCType) (skey : wstring) : Except Err modAlphaCipher :=
  let alphaNum := fillAlphaNum numAlphaInit numAlphaInit.length 0 []
  match getValidKey L skey with
  | .error e => .error e
  | .ok valid_key =>
    .ok { numAlpha := numAlphaInit,
          alphaNum := (convert_wstring valid_key alphaNum []).2,
          key := (convert_wstring valid_key alphaNum []).1 }

/-- The value stored in `work[i]` by the loop of `encrypt`:
`(work[i] + key[i % key.size()]) % numAlpha.size()`.  The sum is an `int`, converted to
`std::size_t` for the remainder, and the remainder is converted back to `int`.  The key of a
constructed object is never empty, so `i % key.size()` is a position of the key. -/
def encryptAt (key : List Int) (size i : Nat) (w : Int) : Int :=
  toInt (toSizeT (w + key.getD (i % key.length) 0) % size)

/-- Loop of `encrypt`: iteration `i` rewrites `work[i]` and nothing else. -/
def encryptLoop (key : List Int) (size : Nat) : Nat → List Int → List Int
  | _, [] => []
  | i, w :: work => encryptAt key size i w :: encryptLoop key size (i + 1) work

/-- The value stored in `work[i]` by the loop of `decrypt`:
`(work[i] + numAlpha.size() - key[i % key.size()]) % numAlpha.size()`, computed in
`std::size_t`. -/
def decryptAt (key : List Int) (size i : Nat) (w : Int) : Int :=
  toInt (subSizeT (addSizeT (toSizeT w) size) (toSizeT (key.getD (i % key.length) 0)) % size)

/-- Loop of `decrypt`: iteration `i` rewrites `work[i]` and nothing else. -/
def decryptLoop (key : List Int) (size : Nat) : Nat → List Int → List Int
  | _, [] => []
  | i, w :: work => decryptAt key size i w :: decryptLoop key size (i + 1) work

/-- `modAlphaCipher::encrypt`. -/
def encrypt (L : WCType) (self : modAlphaCipher) (open_text : wstring) :
    Except Err wstring × modAlphaCipher :=
  match getValidOpenText L open_text with
  | .error e => (.error e, self)
  | .ok s =>
    let work := (convert_wstring s self.alphaNum []).1
    let alphaNum := (convert_wstring s self.alphaNum []).2
    (.ok (convert_vector self.numAlpha
            (encryptLoop self.key self.numAlpha.length 0 work) []),
     { self with alphaNum := alphaNum })

/-- `modAlphaCipher::decrypt`. -/
def decrypt (L : WCType) (self : modAlphaCipher) (cipher_text : wstring) :
    Except Err wstring × modAlphaCipher :=
  match getValidCipherText L cipher_text with
  | .error e => (.error e, self)
  | .ok s =>
    let work := (convert_wstring s self.alphaNum []).1
    let alphaNum := (convert_wstring s self.alphaNum []).2
    (.ok (convert_vector self.numAlpha
            (decryptLoop self.key self.numAlpha.length 0 work) []),
     { self with alphaNum := alphaNum })

/-- What `check` of `modAlphaCipher/main.cpp` prints after the four echo lines: `"Ok"` or
`"Err"`, or the line `"Error: " ++ what()` when a `cipher_error` is caught. -/
def check (L : WCType) (Text key : wstring) (destructCipherText : Bool) : String :=
  match new L key with
  | .error (Err.cipher_error what) => "Error: " ++ what
  | .error _ => "terminate"
  | .ok cipher =>
    match encrypt L cipher Text with
    | (.error (Err.cipher_error what), _) => "Error: " ++ what
    | (.error _, _) => "terminate"
    | (.ok cipherText, cipher1) =>
      let cipherText1 :=
        if destructCipherText then cipherText.set 0 (L.towlower (cipherText.getD 0 ' '))
        else cipherText
      match decrypt L cipher1 cipherText1 with
      | (.error (Err.cipher_error what), _) => "Error: " ++ what
      | (.error _, _) => "terminate"
      | (.ok decryptedText, _) => if Text = decryptedText then "Ok" else "Err"

end modAlphaCipher

/-- A sample classification, used to evaluate the model on concrete texts: the letters it
knows are the Basic Latin letters and the 66 Russian letters, classified and mapped as in a
UTF-8 locale; every other character is neither alphabetic, upper case nor lower case and is
left alone by the two case mappings. -/
def ruLocale : WCType where
  iswalpha c :=
    (65 ≤ c.toNat && c.toNat ≤ 90) || (97 ≤ c.toNat && c.toNat ≤ 122) ||
      (0x410 ≤ c.toNat && c.toNat ≤ 0x44F) || c.toNat == 0x401 || c.toNat == 0x451
  iswlower c :=
    (97 ≤ c.toNat && c.toNat ≤ 122) || (0x430 ≤ c.toNat && c.toNat ≤ 0x44F) ||
      c.toNat == 0x451
  iswupper c :=
    (65 ≤ c.toNat && c.toNat ≤ 90) || (0x410 ≤ c.toNat && c.toNat ≤ 0x42F) ||
      c.toNat == 0x401
  towupper c :=
    if (97 ≤ c.toNat && c.toNat ≤ 122) || (0x430 ≤ c.toNat && c.toNat ≤ 0x44F) then
      Char.ofNat (c.toNat - 32)
    else if c.toNat == 0x451 then Char.ofNat 0x401
    else c
  towlower c :=
    if (65 ≤ c.toNat && c.toNat ≤ 90) || (0x410 ≤ c.toNat && c.toNat ≤ 0x42F) then
      Char.ofNat (c.toNat + 32)
    else if c.toNat == 0x401 then Char.ofNat 0x451
    else c

/-! ## Auxiliary definitions used in the statements and proofs -/

/-- An uppercase letter under the classification `L`: alphabetic, upper case, and not at the
same time classified lower case. -/
def WCType.isUpperLetter (L : WCType) (c : Char) : Bool :=
  L.iswalpha c && L.iswupper c && !L.iswlower c

/-- What `modAlphaCipher::getValidKey` does with one letter of the keyword: a lowercase
letter is replaced by its uppercase form. -/
def WCType.keyUpper (L : WCType) (c : Char) : Char :=
  if L.iswlower c then L.towupper c else c

/-- What the open-text normalizers do with one character: a letter is kept, in upper case;
any other character is dropped. -/
def WCType.normChar (L : WCType) (c : Char) : Option Char :=
  if L.iswalpha c then some (if L.iswlower c then L.towupper c else c) else none

namespace RouteCipher

/-- Positions of column `col` that the inner loops act on, in the order of the visit. -/
def visitedInCol (columns rows n col : Nat) : List Nat :=
  ((List.range rows).map (fun row => row * columns + col)).filter (fun pos => decide (pos < n))

/-- Positions the double loop acts on when the outer loop runs `col = k - 1, ..., 0`. -/
def visited (columns rows n k : Nat) : List Nat :=
  (List.range k).reverse.flatMap (visitedInCol columns rows n)

/-- The reading order of the specification: for `col = columns - 1` down to `0`, all
positions `p < n` with `p mod columns = col`, in increasing order. -/
def order (columns n : Nat) : List Nat :=
  (List.range columns).reverse.flatMap
    (fun col => (List.range n).filter (fun p => decide (p % columns = col)))

/-- Reference definition of `encrypt` on a normalized text `s`: the characters of `s` read
in the order `order columns |s|`. -/
def encryptSpec (columns : Nat) (s : wstring) : wstring :=
  (order columns s.length).map (fun p => s.getD p ' ')

/-- Reference definition of `decrypt` on a valid cipher text `x`: position `q` of the result
holds the character of `x` whose rank in the reading order is that of `q`. -/
def decryptSpec (columns : Nat) (x : wstring) : wstring :=
  (List.range x.length).map (fun q => x.getD ((order columns x.length).indexOf q) ' ')

/-- One step of `decrypt` at a position inside the text: the next unread character of `x`,
if there is one, is stored at `pos`. -/
def place (x : wstring) (st : wstring × Nat) (pos : Nat) : wstring × Nat :=
  if st.2 < x.length then (st.1.set pos (x.getD st.2 ' '), st.2 + 1) else st

end RouteCipher

namespace modAlphaCipher

/-- The map `alphaNum` as the constructor has filled it before it converts the key. -/
def alphaNumInit : WMap := fillAlphaNum numAlphaInit numAlphaInit.length 0 []

/-- The number `alphaNum[c]` that `convert` stores for the character `c`. -/
def alphaIndex (alphaNum : WMap) (c : Char) : Int := (alphaNum.subscript c).1

/-- The state of an object built by the constructor, as far as the cipher depends on it:
the alphabet is the 33-letter one, the map answers as the freshly filled one and has an
entry for each of the 33 letters, and the key is a sequence of alphabet positions. -/
def WellFormed (self : modAlphaCipher) : Prop :=
  self.numAlpha = numAlphaInit ∧
    (∀ c, alphaIndex self.alphaNum c = alphaIndex alphaNumInit c) ∧
    (∀ c ∈ numAlphaInit, (self.alphaNum.lookup c).isSome = true) ∧
    (∀ v ∈ self.key, 0 ≤ v ∧ v < 33)

end modAlphaCipher

/-- The natural number a string of decimal digits denotes. -/
def decimalValue (s : wstring) : Nat := s.foldl (fun acc c => 10 * acc + digitValue c) 0

/-! ## The route cipher: the double loop and the reading order -/

namespace RouteCipher

theorem encryptRows_eq (s : wstring) (c col : Nat) (fuel row : Nat) (result : wstring) :
    encryptRows s c col fuel row result =
      result ++ ((((List.range' row fuel).map (fun r => r * c + col)).filter
        (fun pos => decide (pos < s.length))).map (fun p => s.getD p ' ')) := by
  induction fuel generalizing row result with
  | zero => simp [encryptRows]
  | succ fuel ih =>
    simp only [encryptRows, List.range'_succ, List.map_cons, List.filter_cons]
    by_cases h : row * c + col < s.length <;> simp [h, ih]

theorem encryptCols_eq (s : wstring) (c rows k : Nat) (result : wstring) :
    encryptCols s c rows k result =
      result ++ (visited c rows s.length k).map (fun p => s.getD p ' ') := by
  induction k generalizing result with
  | zero => simp [encryptCols, visited]
  | succ k ih =>
    simp only [encryptCols, ih, encryptRows_eq, visited, List.range_succ, List.reverse_append,
      List.reverse_cons, List.reverse_nil, List.nil_append, List.singleton_append,
      List.flatMap_cons, List.map_append, List.append_assoc, visitedInCol,
      List.range_eq_range']

theorem decryptRows_eq (x : wstring) (c col : Nat) (fuel row : Nat) (st : wstring × Nat) :
    decryptRows x c col fuel row st =
      (((List.range' row fuel).map (fun r => r * c + col)).filter
        (fun pos => decide (pos < x.length))).foldl (place x) st := by
  induction fuel generalizing row st with
  | zero => simp [decryptRows]
  | succ fuel ih =>
    obtain ⟨result, index⟩ := st
    simp only [decryptRows, List.range'_succ, List.map_cons, List.filter_cons]
    by_cases h : row * c + col < x.length
    · by_cases h2 : index < x.length <;> simp [h, h2, ih, place]
    · simp [h, ih]

theorem decryptCols_eq (x : wstring) (c rows k : Nat) (st : wstring × Nat) :
    decryptCols x c rows k st = (visited c rows x.length k).foldl (place x) st := by
  induction k generalizing st with
  | zero => simp [decryptCols, visited]
  | succ k ih =>
    simp only [decryptCols, ih, decryptRows_eq, visited, List.range_succ, List.reverse_append,
      List.reverse_cons, List.reverse_nil, List.nil_append, List.singleton_append,
      List.flatMap_cons, List.foldl_append, visitedInCol, List.range_eq_range']

theorem visitedInCol_eq (c n col : Nat) (hcol : col < c) :
    visitedInCol c ((n + c - 1) / c) n col =
      (List.range n).filter (fun p => decide (p % c = col)) := by
  have hc : 0 < c := by omega
  have hmono : ∀ a b : Nat, a < b → a * c + col < b * c + col := by
    intro a b hab
    have := Nat.mul_lt_mul_of_pos_right hab hc
    omega
  generalize hrows : (n + c - 1) / c = rows
  apply List.eq_of_perm_of_sorted (r := (· < ·))
  · rw [List.perm_ext_iff_of_nodup]
    · intro p
      simp only [visitedInCol, List.mem_filter, List.mem_map, List.mem_range, decide_eq_true_eq]
      constructor
      · rintro ⟨⟨row, hrow, rfl⟩, hlt⟩
        refine ⟨hlt, ?_⟩
        rw [Nat.mul_comm, Nat.mul_add_mod, Nat.mod_eq_of_lt hcol]
      · rintro ⟨hlt, hmod⟩
        refine ⟨⟨p / c, ?_, ?_⟩, hlt⟩
        · rw [Nat.div_lt_iff_lt_mul hc]
          have h2 := Nat.div_add_mod (n + c - 1) c
          have h3 := Nat.mod_lt (n + c - 1) hc
          rw [Nat.mul_comm, ← hrows]
          generalize c * ((n + c - 1) / c) = X at h2 ⊢
          omega
        · rw [← hmod]; have := Nat.div_add_mod p c; rw [Nat.mul_comm] at this; exact this
    · exact ((List.pairwise_lt_range rows).map _ hmono).filter _ |>.nodup
    · exact (List.nodup_range n).filter _
  · exact ((List.pairwise_lt_range _).map _ hmono).filter _
  · exact (List.pairwise_lt_range n).filter _

theorem visited_eq_order (c n : Nat) : visited c ((n + c - 1) / c) n c = order c n := by
  unfold visited order
  apply List.flatMap_congr
  intro col hcol
  exact visitedInCol_eq c n col (by simpa using hcol)

theorem mem_order (c n p : Nat) (hc : 0 < c) : p ∈ order c n ↔ p < n := by
  simp only [order, List.mem_flatMap, List.mem_reverse, List.mem_range, List.mem_filter,
    decide_eq_true_eq]
  constructor
  · rintro ⟨_, _, h, _⟩; exact h
  · intro h; exact ⟨p % c, Nat.mod_lt p hc, h, rfl⟩

theorem nodup_order (c n : Nat) : (order c n).Nodup := by
  unfold order
  rw [List.nodup_flatMap]
  refine ⟨fun col _ => (List.nodup_range n).filter _, ?_⟩
  have hnd : (List.range c).reverse.Nodup := List.nodup_reverse.mpr (List.nodup_range c)
  refine hnd.imp ?_
  intro a b hab
  simp only [Function.onFun, List.Disjoint, List.mem_filter, decide_eq_true_eq]
  rintro p ⟨_, h1⟩ ⟨_, h2⟩
  exact hab (h1.symm.trans h2)

theorem order_perm_range (c n : Nat) (hc : 0 < c) : (order c n).Perm (List.range n) := by
  rw [List.perm_ext_iff_of_nodup (nodup_order c n) (List.nodup_range n)]
  intro p
  rw [mem_order c n p hc, List.mem_range]

theorem length_order (c n : Nat) (hc : 0 < c) : (order c n).length = n := by
  simpa using (order_perm_range c n hc).length_eq

/-- The loops of `encrypt` compute the reference reading. -/
theorem encryptCols_eq_spec (s : wstring) (c : Nat) :
    encryptCols s c ((s.length + c - 1) / c) c [] = encryptSpec c s := by
  rw [encryptCols_eq, visited_eq_order]; simp [encryptSpec]

theorem place_foldl (x : wstring) (ps : List Nat) (r : wstring) (i : Nat)
    (hnd : ps.Nodup) (hlt : ∀ p ∈ ps, p < r.length) (hi : i + ps.length ≤ x.length) :
    (ps.foldl (place x) (r, i)).2 = i + ps.length ∧
      ∀ q, (ps.foldl (place x) (r, i)).1[q]? =
        if q ∈ ps then x[i + ps.indexOf q]? else r[q]? := by
  induction ps generalizing r i with
  | nil => simp
  | cons p ps ih =>
    have hix : i < x.length := by simp at hi; omega
    have hp : p < r.length := hlt p (by simp)
    obtain ⟨hpn, hnd'⟩ := List.nodup_cons.mp hnd
    have hstep : place x (r, i) p = (r.set p (x.getD i ' '), i + 1) := by simp [place, hix]
    rw [List.foldl_cons, hstep]
    obtain ⟨ih1, ih2⟩ := ih (r.set p (x.getD i ' ')) (i + 1) hnd'
      (by intro q hq; simpa using hlt q (by simp [hq])) (by simp at hi ⊢; omega)
    refine ⟨by rw [ih1]; simp; omega, ?_⟩
    intro q
    rw [ih2 q]
    by_cases hqp : q = p
    · subst hqp
      simp [hpn, hp, hix, List.getD_eq_getElem]
    · by_cases hq : q ∈ ps
      · have hne : ¬ p = q := fun h => hqp h.symm
        simp [hq, List.indexOf_cons_ne _ hne, Nat.add_assoc, Nat.add_comm 1]
      · have hne : ¬ p = q := fun h => hqp h.symm
        simp [hq, hqp, List.getElem?_set_ne hne]

/-- What the loops of `decrypt` leave in the buffer. -/
theorem decryptCols_getElem? (x : wstring) (c : Nat) (hc : 0 < c) (q : Nat) :
    (decryptCols x c ((x.length + c - 1) / c) c (List.replicate x.length ' ', 0)).1[q]? =
      if q < x.length then x[(order c x.length).indexOf q]? else none := by
  rw [decryptCols_eq, visited_eq_order]
  obtain ⟨_, h⟩ := place_foldl x (order c x.length) (List.replicate x.length ' ') 0
    (nodup_order c _) (by intro p hp; simpa using (mem_order c _ p hc).mp hp)
    (by rw [length_order c _ hc]; omega)
  rw [h q]
  by_cases hq : q < x.length
  · simp [hq, (mem_order c _ q hc).mpr hq]
  · have : q ∉ order c x.length := fun hm => hq ((mem_order c _ q hc).mp hm)
    simp [hq, this]
    omega

end RouteCipher

/-! ## The route cipher: validators and round trip -/

namespace RouteCipher

theorem openTextLoop_eq (L : WCType) (s tmp : wstring) :
    openTextLoop L s tmp = tmp ++ s.filterMap L.normChar := by
  induction s generalizing tmp with
  | nil => simp [openTextLoop]
  | cons c s ih =>
    by_cases ha : L.iswalpha c = true
    · by_cases hl : L.iswlower c = true <;>
        simp [openTextLoop, WCType.normChar, ha, hl, ih, List.filterMap_cons]
    · simp [openTextLoop, WCType.normChar, ha, ih, List.filterMap_cons]

theorem filterMap_normChar_of_upper (L : WCType) (t : wstring)
    (hup : ∀ ch ∈ t, L.isUpperLetter ch = true) : t.filterMap L.normChar = t := by
  induction t with
  | nil => rfl
  | cons c t ih =>
    have hc := hup c (by simp)
    simp only [WCType.isUpperLetter, Bool.and_eq_true, Bool.not_eq_true'] at hc
    rw [List.filterMap_cons]
    simp [WCType.normChar, hc.1.1, hc.2, ih (fun ch h => hup ch (by simp [h]))]

theorem getValidOpenText_of_upper (L : WCType) (t : wstring) (ht : t ≠ [])
    (hup : ∀ ch ∈ t, L.isUpperLetter ch = true) : getValidOpenText L t = .ok t := by
  simp [getValidOpenText, openTextLoop_eq, filterMap_normChar_of_upper L t hup, ht]

theorem getValidCipherText_of_upper (L : WCType) (t : wstring) (ht : t ≠ [])
    (hup : ∀ ch ∈ t, L.iswupper ch = true) : getValidCipherText L t = .ok t := by
  have h : (t.any fun c => !L.iswupper c) = false := by
    rw [List.any_eq_false]; intro c hc; simp [hup c hc]
  simp [getValidCipherText, ht, h]

theorem length_encryptSpec (c : Nat) (hc : 0 < c) (s : wstring) :
    (encryptSpec c s).length = s.length := by
  simp [encryptSpec, length_order c _ hc]

theorem mem_encryptSpec (c : Nat) (hc : 0 < c) (s : wstring) (ch : Char)
    (h : ch ∈ encryptSpec c s) : ch ∈ s := by
  simp only [encryptSpec, List.mem_map] at h
  obtain ⟨p, hp, rfl⟩ := h
  have hlt := (mem_order c _ p hc).mp hp
  rw [List.getD_eq_getElem _ _ hlt]
  exact List.getElem_mem hlt

/-- The loops of `decrypt`, run on the reference reading of `s`, rebuild `s`. -/
theorem decryptCols_encryptSpec (c : Nat) (hc : 0 < c) (s : wstring) :
    (decryptCols (encryptSpec c s) c (((encryptSpec c s).length + c - 1) / c) c
      (List.replicate (encryptSpec c s).length ' ', 0)).1 = s := by
  apply List.ext_getElem?
  intro q
  rw [decryptCols_getElem? _ c hc q, length_encryptSpec c hc]
  by_cases hq : q < s.length
  · have hmem : q ∈ order c s.length := (mem_order c _ q hc).mpr hq
    have hidx : (order c s.length).indexOf q < (order c s.length).length :=
      List.indexOf_lt_length.mpr hmem
    simp only [hq, if_true, encryptSpec]
    rw [List.getElem?_map, List.getElem?_eq_getElem hidx, List.getElem_indexOf hidx]
    simp [List.getD_eq_getElem _ _ hq, List.getElem?_eq_getElem hq]
  · simp [hq]; omega

end RouteCipher

namespace RouteCipher

theorem stoi_of_digits (s : wstring) (hne : s ≠ []) (hd : ∀ c ∈ s, iswdigit c = true) :
    stoi s = if decimalValue s > INT_MAX then .error (Err.out_of_range "stoi")
      else .ok (decimalValue s) := by
  have htw : s.takeWhile iswdigit = s := List.takeWhile_eq_self_iff.mpr hd
  simp [stoi, htw, hne, decimalValue]

theorem any_not_digit_false (s : wstring) (hd : ∀ c ∈ s, iswdigit c = true) :
    (s.any fun c => !iswdigit c) = false := by
  rw [List.any_eq_false]; intro c hc; simp [hd c hc]

theorem any_not_digit_true (s : wstring) (hd : ¬ ∀ c ∈ s, iswdigit c = true) :
    (s.any fun c => !iswdigit c) = true := by
  rw [List.any_eq_true]
  push_neg at hd
  obtain ⟨c, hc, hc'⟩ := hd
  exact ⟨c, hc, by simp [hc']⟩

/-- The constructor, case by case. -/
theorem new_eq (s : wstring) :
    new s =
      if s = [] then .error (Err.cipher_error "Empty key")
      else if ∃ c ∈ s, iswdigit c = false then
        .error (Err.cipher_error "Invalid key - must contain only digits")
      else if decimalValue s > INT_MAX then .error (Err.out_of_range "stoi")
      else if decimalValue s = 0 then .error (Err.cipher_error "Key must be greater than 0")
      else .ok ⟨decimalValue s⟩ := by
  by_cases hne : s = []
  · subst hne; rfl
  by_cases hd : ∀ c ∈ s, iswdigit c = true
  · have hst := stoi_of_digits s hne hd
    have hany := any_not_digit_false s hd
    have hex : ¬ ∃ c ∈ s, iswdigit c = false := by
      rintro ⟨c, hc, hc'⟩; simp [hd c hc] at hc'
    by_cases hbig : decimalValue s > INT_MAX
    · simp [new, getValidKey, hne, hany, hst, hbig, hex]
    · by_cases hz : decimalValue s = 0
      · simp [new, getValidKey, hne, hany, hst, hex, hz, INT_MAX]
      · simp [new, getValidKey, hne, hany, hst, hbig, hex, hz]
  · have hany := any_not_digit_true s hd
    have hex : ∃ c ∈ s, iswdigit c = false := by
      push_neg at hd
      obtain ⟨c, hc, hc'⟩ := hd
      exact ⟨c, hc, by simpa using hc'⟩
    simp [new, getValidKey, hne, hany, hex]

/-- `setKey` accepts and rejects exactly as the constructor does. -/
theorem setKey_eq (self : RouteCipher) (s : wstring) :
    setKey self s =
      match new s with
      | .error e => (.error e, self)
      | .ok c => (.ok (), c) := by
  unfold setKey new
  cases h : getValidKey s with
  | error e => rfl
  | ok v =>
    simp only []
    cases h2 : stoi v <;> rfl

end RouteCipher

/-! ## The route cipher: permutations, one column, one row -/

theorem map_getD_range (s : wstring) :
    (List.range s.length).map (fun p => s.getD p ' ') = s := by
  apply List.ext_getElem?
  intro i
  by_cases hi : i < s.length
  · rw [List.getElem?_map, List.getElem?_range hi]
    simp [List.getD_eq_getElem _ _ hi, List.getElem?_eq_getElem hi]
  · rw [List.getElem?_eq_none (by simpa using hi), List.getElem?_eq_none (by simpa using hi)]

namespace RouteCipher

theorem encryptSpec_perm (c : Nat) (hc : 0 < c) (s : wstring) : (encryptSpec c s).Perm s := by
  have h := (order_perm_range c s.length hc).map (fun p => s.getD p ' ')
  rw [map_getD_range] at h
  exact h

theorem order_one (n : Nat) : order 1 n = List.range n := by
  simp [order, Nat.mod_one, List.range_succ]

theorem encryptSpec_one (s : wstring) : encryptSpec 1 s = s := by
  rw [encryptSpec, order_one, map_getD_range]

theorem order_of_le (c n : Nat) (h : n ≤ c) : order c n = (List.range n).reverse := by
  by_cases hc : c = 0
  · subst hc
    have hn : n = 0 := by omega
    subst hn
    rfl
  have hc' : 0 < c := Nat.pos_of_ne_zero hc
  apply List.eq_of_perm_of_sorted (r := (· > ·))
  · exact (order_perm_range c n hc').trans (List.reverse_perm _).symm
  · unfold order
    rw [List.Sorted, List.pairwise_flatMap]
    constructor
    · intro col _
      refine List.Pairwise.imp_of_mem ?_ ((List.pairwise_lt_range n).filter _)
      intro a b ha hb hab
      simp only [List.mem_filter, List.mem_range, decide_eq_true_eq] at ha hb
      have h1 := Nat.mod_eq_of_lt (Nat.lt_of_lt_of_le ha.1 h)
      have h2 := Nat.mod_eq_of_lt (Nat.lt_of_lt_of_le hb.1 h)
      omega
    · rw [List.pairwise_reverse]
      refine (List.pairwise_lt_range c).imp ?_
      intro a b hab x hx y hy
      simp only [List.mem_filter, List.mem_range, decide_eq_true_eq] at hx hy
      have h1 := Nat.mod_eq_of_lt (Nat.lt_of_lt_of_le hx.1 h)
      have h2 := Nat.mod_eq_of_lt (Nat.lt_of_lt_of_le hy.1 h)
      omega
  · rw [List.Sorted, List.pairwise_reverse]
    exact List.pairwise_lt_range n

theorem encryptSpec_of_le (c : Nat) (s : wstring) (h : s.length ≤ c) :
    encryptSpec c s = s.reverse := by
  rw [encryptSpec, order_of_le c _ h, List.map_reverse, map_getD_range]

theorem rows_of_le (c n : Nat) (hn : 1 ≤ n) (h : n ≤ c) : (n + c - 1) / c = 1 := by
  exact Nat.div_eq_of_lt_le (by omega) (by omega)

/-- The loops of `decrypt` compute the reference definition. -/
theorem decryptCols_eq_spec (x : wstring) (c : Nat) (hc : 0 < c) :
    decryptCols x c ((x.length + c - 1) / c) c (List.replicate x.length ' ', 0) =
      (decryptSpec c x, x.length) := by
  have hfst : (decryptCols x c ((x.length + c - 1) / c) c
      (List.replicate x.length ' ', 0)).1 = decryptSpec c x := by
    apply List.ext_getElem?
    intro q
    rw [decryptCols_getElem? x c hc q]
    by_cases hq : q < x.length
    · have hmem : q ∈ order c x.length := (mem_order c _ q hc).mpr hq
      have hidx : (order c x.length).indexOf q < x.length := by
        have := List.indexOf_lt_length.mpr hmem
        rwa [length_order c _ hc] at this
      simp only [hq, if_true, decryptSpec]
      rw [List.getElem?_map, List.getElem?_range hq]
      simp [List.getD_eq_getElem _ _ hidx, List.getElem?_eq_getElem hidx]
    · simp only [hq, if_false, decryptSpec]
      rw [List.getElem?_eq_none (by simpa using hq)]
  have hsnd : (decryptCols x c ((x.length + c - 1) / c) c
      (List.replicate x.length ' ', 0)).2 = x.length := by
    rw [decryptCols_eq, visited_eq_order]
    obtain ⟨h, _⟩ := place_foldl x (order c x.length) (List.replicate x.length ' ') 0
      (nodup_order c _) (by intro p hp; simpa using (mem_order c _ p hc).mp hp)
      (by rw [length_order c _ hc]; omega)
    rw [h, length_order c _ hc]; omega
  exact Prod.ext hfst hsnd

theorem length_decryptSpec (c : Nat) (x : wstring) : (decryptSpec c x).length = x.length := by
  simp [decryptSpec]

/-- Reading the result of `decrypt` in the order of `encrypt` gives the cipher text back. -/
theorem encryptSpec_decryptSpec (c : Nat) (hc : 0 < c) (x : wstring) :
    encryptSpec c (decryptSpec c x) = x := by
  apply List.ext_getElem?
  intro j
  rw [encryptSpec, length_decryptSpec, List.getElem?_map]
  by_cases hj : j < x.length
  · have hj' : j < (order c x.length).length := by rw [length_order c _ hc]; exact hj
    have hp : (order c x.length)[j] < x.length :=
      (mem_order c _ _ hc).mp (List.getElem_mem hj')
    rw [List.getElem?_eq_getElem hj', List.getElem?_eq_getElem hj]
    simp only [Option.map_some', Option.some.injEq]
    have hp' : (order c x.length)[j] < (decryptSpec c x).length := by
      rw [length_decryptSpec]; exact hp
    rw [List.getD_eq_getElem _ _ hp']
    simp only [decryptSpec, List.getElem_map, List.getElem_range]
    rw [List.indexOf_getElem (nodup_order c _) j hj', List.getD_eq_getElem _ _ hj]
  · have hj' : (order c x.length).length ≤ j := by rw [length_order c _ hc]; omega
    rw [List.getElem?_eq_none hj', List.getElem?_eq_none (by omega)]
    rfl

theorem decryptSpec_perm (c : Nat) (hc : 0 < c) (x : wstring) : (decryptSpec c x).Perm x := by
  have h := encryptSpec_perm c hc (decryptSpec c x)
  rw [encryptSpec_decryptSpec c hc x] at h
  exact h.symm

theorem decryptSpec_one (x : wstring) : decryptSpec 1 x = x := by
  have h := encryptSpec_decryptSpec 1 (by decide) x
  rwa [encryptSpec_one] at h

/-- `decrypt`, case by case. -/
theorem decrypt_eq (L : WCType) (self : RouteCipher) (hkey : 0 < self.columns)
    (text : wstring) :
    decrypt L self text =
      ((getValidCipherText L text).map (decryptSpec self.columns), self) := by
  unfold decrypt
  cases h : getValidCipherText L text with
  | error e => rfl
  | ok s => simp [Except.map, decryptCols_eq_spec s self.columns hkey]

end RouteCipher

namespace RouteCipher

theorem decryptSpec_encryptSpec (c : Nat) (hc : 0 < c) (s : wstring) :
    decryptSpec c (encryptSpec c s) = s := by
  have h1 := decryptCols_encryptSpec c hc s
  rw [decryptCols_eq_spec (encryptSpec c s) c hc] at h1
  exact h1

end RouteCipher

/-! ## Decimal strings: `std::to_wstring` against `std::stoi` -/

theorem toDigitsCore_append (fuel n : Nat) (ds : List Char) :
    Nat.toDigitsCore 10 fuel n ds = Nat.toDigitsCore 10 fuel n [] ++ ds := by
  induction fuel generalizing n ds with
  | zero => simp [Nat.toDigitsCore]
  | succ fuel ih =>
    simp only [Nat.toDigitsCore]
    split
    · simp
    · rw [ih (n / 10) (Nat.digitChar (n % 10) :: ds), ih (n / 10) [Nat.digitChar (n % 10)]]
      simp

theorem toDigitsCore_fuel (f1 f2 n : Nat) (ds : List Char) (h1 : n < f1) (h2 : n < f2) :
    Nat.toDigitsCore 10 f1 n ds = Nat.toDigitsCore 10 f2 n ds := by
  induction f1 generalizing f2 n ds with
  | zero => omega
  | succ f1 ih =>
    cases f2 with
    | zero => omega
    | succ f2 =>
      simp only [Nat.toDigitsCore]
      split
      · rfl
      · rename_i hne
        have hlt : n / 10 < n := Nat.div_lt_self (by omega) (by decide)
        exact ih f2 (n / 10) _ (by omega) (by omega)

theorem to_wstring_lt_ten (d : Nat) (h : d < 10) : to_wstring d = [Nat.digitChar d] := by
  have h0 : d / 10 = 0 := Nat.div_eq_of_lt h
  simp [to_wstring, Nat.toDigits, Nat.toDigitsCore, h0, Nat.mod_eq_of_lt h]

theorem to_wstring_step (m d : Nat) (hm : 0 < m) (hd : d < 10) :
    to_wstring (10 * m + d) = to_wstring m ++ [Nat.digitChar d] := by
  have hdiv : (10 * m + d) / 10 = m := by omega
  have hmod : (10 * m + d) % 10 = d := by omega
  have hne : ¬ m = 0 := by omega
  unfold to_wstring Nat.toDigits
  rw [Nat.toDigitsCore]
  simp only [hdiv, hmod, hne, if_false]
  rw [toDigitsCore_append, toDigitsCore_fuel (10 * m + d) (m + 1) m [] (by omega) (by omega)]

theorem digitChar_facts : ∀ d < 10,
    iswdigit (Nat.digitChar d) = true ∧ digitValue (Nat.digitChar d) = d ∧
      (Nat.digitChar d = '0' ↔ d = 0) := by decide

theorem digitChar_digitValue (c : Char) (h : iswdigit c = true) :
    Nat.digitChar (digitValue c) = c ∧ digitValue c < 10 ∧ (digitValue c = 0 ↔ c = '0') := by
  have hmem : c ∈ "0123456789".toList := by
    simp only [iswdigit, Char.isDigit, Bool.and_eq_true, decide_eq_true_eq] at h
    obtain ⟨h1, h2⟩ := h
    have h1' : 48 ≤ c.toNat := h1
    have h2' : c.toNat ≤ 57 := h2
    have hc : c = Char.ofNat c.toNat := (Char.ofNat_toNat c).symm
    rw [hc]
    generalize c.toNat = k at h1' h2'
    interval_cases k <;> decide
  have hall : ∀ c ∈ "0123456789".toList,
      Nat.digitChar (digitValue c) = c ∧ digitValue c < 10 ∧ (digitValue c = 0 ↔ c = '0') := by
    decide
  exact hall c hmem

theorem decimalValue_append (s : wstring) (c : Char) :
    decimalValue (s ++ [c]) = 10 * decimalValue s + digitValue c := by
  simp [decimalValue, List.foldl_append]

theorem to_wstring_spec (n : Nat) :
    decimalValue (to_wstring n) = n ∧ (∀ c ∈ to_wstring n, iswdigit c = true) ∧
      to_wstring n ≠ [] ∧ (0 < n → (to_wstring n).head? ≠ some '0') := by
  induction n using Nat.strong_induction_on with
  | _ n ih =>
    by_cases hlt : n < 10
    · obtain ⟨f1, f2, f3⟩ := digitChar_facts n hlt
      rw [to_wstring_lt_ten n hlt]
      refine ⟨by simp [decimalValue, f2], by simpa using f1, by simp, ?_⟩
      intro hpos
      simp only [List.head?_cons, ne_eq, Option.some.injEq]
      rw [f3]; omega
    · have hm : 0 < n / 10 := by omega
      have hd : n % 10 < 10 := Nat.mod_lt _ (by decide)
      have hn : n = 10 * (n / 10) + n % 10 := by omega
      obtain ⟨i1, i2, i3, i4⟩ := ih (n / 10) (by omega)
      obtain ⟨f1, f2, f3⟩ := digitChar_facts (n % 10) hd
      have hstep := to_wstring_step (n / 10) (n % 10) hm hd
      rw [← hn] at hstep
      rw [hstep]
      refine ⟨?_, ?_, by simp, ?_⟩
      · rw [decimalValue_append, i1, f2]; omega
      · intro c hc
        rcases List.mem_append.mp hc with hc | hc
        · exact i2 c hc
        · simp only [List.mem_singleton] at hc
          rw [hc]; exact f1
      · intro _
        rw [List.head?_append_of_ne_nil _ i3]
        exact i4 hm

theorem to_wstring_decimalValue (s : wstring) :
    s ≠ [] → (∀ c ∈ s, iswdigit c = true) → s.head? ≠ some '0' →
      to_wstring (decimalValue s) = s ∧ 0 < decimalValue s := by
  induction s using List.reverseRecOn with
  | nil => intro h; exact absurd rfl h
  | append_singleton t c ih =>
    intro _ hd hh
    have hc := hd c (by simp)
    obtain ⟨g1, g2, g3⟩ := digitChar_digitValue c hc
    rw [decimalValue_append]
    by_cases ht : t = []
    · subst ht
      have hc0 : c ≠ '0' := by simpa using hh
      have hv : digitValue c ≠ 0 := fun h0 => hc0 (g3.mp h0)
      have hdv : decimalValue [] = 0 := rfl
      rw [hdv, Nat.mul_zero, Nat.zero_add, to_wstring_lt_ten _ g2, g1]
      exact ⟨rfl, Nat.pos_of_ne_zero hv⟩
    · have hh' : t.head? ≠ some '0' := by
        rwa [List.head?_append_of_ne_nil _ ht] at hh
      obtain ⟨i1, i2⟩ := ih ht (fun c' hc' => hd c' (by simp [hc'])) hh'
      rw [to_wstring_step _ _ i2 g2, i1, g1]
      exact ⟨rfl, by omega⟩

namespace RouteCipher

/-- When the constructor succeeds, and with what column count. -/
theorem new_ok_iff (s : wstring) (c : RouteCipher) :
    new s = .ok c ↔
      s ≠ [] ∧ (∀ ch ∈ s, iswdigit ch = true) ∧ 0 < decimalValue s ∧
        decimalValue s ≤ INT_MAX ∧ c = ⟨decimalValue s⟩ := by
  rw [new_eq]
  constructor
  · intro h
    split_ifs at h with h1 h2 h3 h4
    simp only [Except.ok.injEq] at h
    refine ⟨h1, ?_, Nat.pos_of_ne_zero h4, Nat.le_of_not_gt h3, h.symm⟩
    intro ch hch
    by_contra hcd
    exact h2 ⟨ch, hch, by simpa using hcd⟩
  · rintro ⟨h1, h2, h3, h4, h5⟩
    have hex : ¬ ∃ ch ∈ s, iswdigit ch = false := by
      rintro ⟨ch, hch, hch'⟩; simp [h2 ch hch] at hch'
    rw [if_neg h1, if_neg hex, if_neg (Nat.not_lt.mpr h4), if_neg (Nat.pos_iff_ne_zero.mp h3),
      h5]

theorem setKey_ok_iff (self : RouteCipher) (s : wstring) (self1 : RouteCipher) :
    setKey self s = (.ok (), self1) ↔ new s = .ok self1 := by
  rw [setKey_eq]
  cases new s with
  | error e => simp
  | ok c => simp

theorem setKey_error (self : RouteCipher) (s : wstring) (e : Err) (self1 : RouteCipher)
    (h : setKey self s = (.error e, self1)) : self1 = self ∧ new s = .error e := by
  rw [setKey_eq] at h
  cases hn : new s with
  | error e' =>
    rw [hn] at h
    simp only [Prod.mk.injEq, Except.error.injEq] at h
    exact ⟨h.2.symm, by rw [h.1]⟩
  | ok c => rw [hn] at h; simp at h

/-- `getKey` of an object built from the key string `s`. -/
theorem getKey_of_new (s : wstring) (c : RouteCipher) (h : new s = .ok c) :
    getKey c = to_wstring (decimalValue s) ∧
      (∀ ch ∈ getKey c, iswdigit ch = true) ∧ getKey c ≠ [] ∧
      (getKey c).head? ≠ some '0' ∧ decimalValue (getKey c) = decimalValue s ∧
      (getKey c = s ↔ s.head? ≠ some '0') ∧ new (getKey c) = .ok c := by
  obtain ⟨h1, h2, h3, h4, h5⟩ := (new_ok_iff s c).mp h
  have hk : getKey c = to_wstring (decimalValue s) := by rw [h5]; rfl
  obtain ⟨t1, t2, t3, t4⟩ := to_wstring_spec (decimalValue s)
  rw [hk]
  refine ⟨rfl, t2, t3, t4 h3, t1, ?_, ?_⟩
  · constructor
    · intro heq
      have := t4 h3
      rwa [heq] at this
    · intro hh
      exact (to_wstring_decimalValue s h1 h2 hh).1
  · rw [new_ok_iff]
    refine ⟨t3, t2, by rw [t1]; exact h3, by rw [t1]; exact h4, by rw [t1]; exact h5⟩

end RouteCipher

/-! ## The Gronsfeld cipher: conversions and the two loops -/

namespace modAlphaCipher

theorem alphaIndex_eq (m : WMap) (c : Char) : alphaIndex m c = (m.lookup c).getD 0 := by
  unfold alphaIndex WMap.subscript
  cases m.lookup c <;> rfl

theorem alphaIndex_subscript (m : WMap) (c c' : Char) :
    alphaIndex (m.subscript c).2 c' = alphaIndex m c' := by
  rw [alphaIndex_eq, alphaIndex_eq]
  unfold WMap.subscript
  cases h : m.lookup c with
  | some v => rfl
  | none =>
    simp only [List.lookup_append]
    cases h' : m.lookup c' with
    | some w => simp
    | none =>
      rw [List.lookup_cons]
      cases (c' == c) <;> simp

theorem convert_wstring_fst (s : wstring) (m : WMap) (r : List Int) :
    (convert_wstring s m r).1 = r ++ s.map (alphaIndex m) := by
  induction s generalizing m r with
  | nil => simp [convert_wstring]
  | cons c s ih =>
    simp only [convert_wstring, ih, List.map_cons, List.append_assoc, List.singleton_append]
    congr 2
    · apply List.map_congr_left
      intro c' _
      exact alphaIndex_subscript m c c'

theorem convert_wstring_fst_nil (s : wstring) (m : WMap) :
    (convert_wstring s m []).1 = s.map (alphaIndex m) := by
  simp [convert_wstring_fst]

theorem convert_wstring_snd (s : wstring) (m : WMap) (r : List Int) (c' : Char) :
    alphaIndex (convert_wstring s m r).2 c' = alphaIndex m c' := by
  induction s generalizing m r with
  | nil => simp [convert_wstring]
  | cons c s ih => simp only [convert_wstring, ih, alphaIndex_subscript]

theorem convert_vector_eq (numAlpha : wstring) (v : List Int) (r : wstring) :
    convert_vector numAlpha v r = r ++ v.map (fun i => numAlpha.getD (toSizeT i) ' ') := by
  induction v generalizing r with
  | nil => simp [convert_vector]
  | cons i v ih => simp [convert_vector, ih]

theorem alphaNumInit_eq :
    alphaNumInit = numAlphaInit.zip ((List.range 33).map Int.ofNat) := by decide

theorem alphaIndex_range_of (m : WMap) (hm : ∀ e ∈ m, 0 ≤ e.2 ∧ e.2 < 33) (c : Char) :
    0 ≤ alphaIndex m c ∧ alphaIndex m c < 33 := by
  rw [alphaIndex_eq]
  induction m with
  | nil => simp
  | cons e m ih =>
    obtain ⟨k, v⟩ := e
    rw [List.lookup_cons]
    by_cases hk : (c == k) = true
    · simpa [hk] using hm (k, v) (by simp)
    · simp only [hk]
      exact ih (fun e he => hm e (by simp [he]))

theorem alphaIndex_init_range (c : Char) :
    0 ≤ alphaIndex alphaNumInit c ∧ alphaIndex alphaNumInit c < 33 :=
  alphaIndex_range_of alphaNumInit (by decide) c

theorem numAlpha_alphaIndex : ∀ c ∈ numAlphaInit,
    numAlphaInit.getD (toSizeT (alphaIndex alphaNumInit c)) ' ' = c := by decide

theorem alphaIndex_numAlpha_nat : ∀ j < 33,
    alphaIndex alphaNumInit (numAlphaInit.getD j ' ') = (j : Int) := by decide

theorem alphaIndex_numAlpha (v : Int) (h0 : 0 ≤ v) (h1 : v < 33) :
    alphaIndex alphaNumInit (numAlphaInit.getD (toSizeT v) ' ') = v := by
  have hv : toSizeT v = v.toNat := by unfold toSizeT; omega
  rw [hv, alphaIndex_numAlpha_nat v.toNat (by omega)]
  omega

theorem numAlpha_getD_mem : ∀ j < 33, numAlphaInit.getD j ' ' ∈ numAlphaInit := by decide

theorem key_getD_range (key : List Int) (hk : ∀ v ∈ key, 0 ≤ v ∧ v < 33) (j : Nat) :
    0 ≤ key.getD j 0 ∧ key.getD j 0 < 33 := by
  by_cases hj : j < key.length
  · rw [List.getD_eq_getElem _ _ hj]; exact hk _ (List.getElem_mem hj)
  · rw [List.getD_eq_default _ _ (by omega)]; omega

theorem encryptAt_eq (key : List Int) (hk : ∀ v ∈ key, 0 ≤ v ∧ v < 33) (i : Nat) (w : Int)
    (h0 : 0 ≤ w) (h1 : w < 33) :
    encryptAt key 33 i w = (w + key.getD (i % key.length) 0) % 33 := by
  have := key_getD_range key hk (i % key.length)
  unfold encryptAt toInt toSizeT; split <;> omega

theorem decryptAt_eq (key : List Int) (hk : ∀ v ∈ key, 0 ≤ v ∧ v < 33) (i : Nat) (w : Int)
    (h0 : 0 ≤ w) (h1 : w < 33) :
    decryptAt key 33 i w = (w - key.getD (i % key.length) 0) % 33 := by
  have := key_getD_range key hk (i % key.length)
  unfold decryptAt toInt toSizeT subSizeT addSizeT; split <;> omega

theorem encryptAt_range (key : List Int) (i : Nat) (w : Int) :
    0 ≤ encryptAt key 33 i w ∧ encryptAt key 33 i w < 33 := by
  unfold encryptAt toInt; split <;> omega

theorem decryptAt_range (key : List Int) (i : Nat) (w : Int) :
    0 ≤ decryptAt key 33 i w ∧ decryptAt key 33 i w < 33 := by
  unfold decryptAt toInt; split <;> omega

theorem encryptLoop_getElem? (key : List Int) (size i : Nat) (work : List Int) (j : Nat) :
    (encryptLoop key size i work)[j]? = work[j]?.map (encryptAt key size (i + j)) := by
  induction work generalizing i j with
  | nil => simp [encryptLoop]
  | cons w work ih =>
    cases j with
    | zero => simp [encryptLoop]
    | succ j => simp [encryptLoop, ih, Nat.add_assoc, Nat.add_comm 1]

theorem decryptLoop_getElem? (key : List Int) (size i : Nat) (work : List Int) (j : Nat) :
    (decryptLoop key size i work)[j]? = work[j]?.map (decryptAt key size (i + j)) := by
  induction work generalizing i j with
  | nil => simp [decryptLoop]
  | cons w work ih =>
    cases j with
    | zero => simp [decryptLoop]
    | succ j => simp [decryptLoop, ih, Nat.add_assoc, Nat.add_comm 1]

theorem length_encryptLoop (key : List Int) (size i : Nat) (work : List Int) :
    (encryptLoop key size i work).length = work.length := by
  induction work generalizing i with
  | nil => rfl
  | cons w work ih => simp [encryptLoop, ih]

theorem length_decryptLoop (key : List Int) (size i : Nat) (work : List Int) :
    (decryptLoop key size i work).length = work.length := by
  induction work generalizing i with
  | nil => rfl
  | cons w work ih => simp [decryptLoop, ih]

theorem encryptLoop_range (key : List Int) (i : Nat) (work : List Int) :
    ∀ v ∈ encryptLoop key 33 i work, 0 ≤ v ∧ v < 33 := by
  induction work generalizing i with
  | nil => simp [encryptLoop]
  | cons w work ih =>
    intro v hv
    simp only [encryptLoop, List.mem_cons] at hv
    rcases hv with rfl | hv
    · exact encryptAt_range key i w
    · exact ih (i + 1) v hv

theorem decryptLoop_range (key : List Int) (i : Nat) (work : List Int) :
    ∀ v ∈ decryptLoop key 33 i work, 0 ≤ v ∧ v < 33 := by
  induction work generalizing i with
  | nil => simp [decryptLoop]
  | cons w work ih =>
    intro v hv
    simp only [decryptLoop, List.mem_cons] at hv
    rcases hv with rfl | hv
    · exact decryptAt_range key i w
    · exact ih (i + 1) v hv

theorem decryptLoop_encryptLoop (key : List Int) (hk : ∀ v ∈ key, 0 ≤ v ∧ v < 33) (i : Nat)
    (work : List Int) (hw : ∀ v ∈ work, 0 ≤ v ∧ v < 33) :
    decryptLoop key 33 i (encryptLoop key 33 i work) = work := by
  induction work generalizing i with
  | nil => rfl
  | cons w work ih =>
    have hw0 := hw w (by simp)
    have hk0 := key_getD_range key hk (i % key.length)
    have he := encryptAt_range key i w
    simp only [encryptLoop, decryptLoop]
    rw [ih (i + 1) (fun v hv => hw v (by simp [hv])), decryptAt_eq key hk i _ he.1 he.2,
      encryptAt_eq key hk i w hw0.1 hw0.2]
    congr 1
    omega

end modAlphaCipher

/-! ## The Gronsfeld cipher: validators, constructor, `encrypt` and `decrypt` -/

namespace modAlphaCipher

theorem gronsfeld_openTextLoop_eq (L : WCType) (s tmp : wstring) :
    openTextLoop L s tmp = tmp ++ s.filterMap L.normChar := by
  induction s generalizing tmp with
  | nil => simp [openTextLoop]
  | cons c s ih =>
    by_cases ha : L.iswalpha c = true
    · by_cases hl : L.iswlower c = true <;>
        simp [openTextLoop, WCType.normChar, ha, hl, ih, List.filterMap_cons]
    · simp [openTextLoop, WCType.normChar, ha, ih, List.filterMap_cons]

theorem gronsfeld_getValidOpenText_of_upper (L : WCType) (t : wstring) (ht : t ≠ [])
    (hup : ∀ ch ∈ t, L.isUpperLetter ch = true) : getValidOpenText L t = .ok t := by
  simp [getValidOpenText, gronsfeld_openTextLoop_eq, RouteCipher.filterMap_normChar_of_upper L t hup, ht]

theorem gronsfeld_getValidCipherText_of_upper (L : WCType) (t : wstring) (ht : t ≠ [])
    (hup : ∀ ch ∈ t, L.iswupper ch = true) : getValidCipherText L t = .ok t := by
  have h : (t.any fun c => !L.iswupper c) = false := by
    rw [List.any_eq_false]; intro c hc; simp [hup c hc]
  simp [getValidCipherText, ht, h]

theorem validKeyLoop_of_alpha (L : WCType) (s : wstring)
    (h : ∀ c ∈ s, L.iswalpha c = true) :
    validKeyLoop L s = .ok (s.map (fun c => if L.iswlower c then L.towupper c else c)) := by
  induction s with
  | nil => rfl
  | cons c s ih =>
    simp [validKeyLoop, h c (by simp), ih (fun c' hc' => h c' (by simp [hc']))]

theorem validKeyLoop_of_not_alpha (L : WCType) (s : wstring)
    (h : ∃ c ∈ s, L.iswalpha c = false) :
    validKeyLoop L s = .error (Err.cipher_error "Invalid key") := by
  induction s with
  | nil => simp at h
  | cons c s ih =>
    by_cases hc : L.iswalpha c = true
    · have : ∃ c ∈ s, L.iswalpha c = false := by
        obtain ⟨d, hd, hd'⟩ := h
        rcases List.mem_cons.mp hd with rfl | hd
        · simp [hc] at hd'
        · exact ⟨d, hd, hd'⟩
      simp [validKeyLoop, hc, ih this]
    · simp [validKeyLoop, hc]

theorem length_validKeyLoop (L : WCType) (s k : wstring) (h : validKeyLoop L s = .ok k) :
    k.length = s.length := by
  induction s generalizing k with
  | nil => simp [validKeyLoop] at h; simp [← h]
  | cons c s ih =>
    simp only [validKeyLoop] at h
    split at h
    · simp at h
    · split at h
      · simp at h
      · rename_i rest hrest
        simp only [Except.ok.injEq] at h
        rw [← h, List.length_cons, List.length_cons, ih rest hrest]

theorem convert_wstring_snd_eq (s : wstring) (m : WMap) (r : List Int)
    (h : ∀ c ∈ s, (m.lookup c).isSome = true) : (convert_wstring s m r).2 = m := by
  induction s generalizing r with
  | nil => rfl
  | cons c s ih =>
    have hc := h c (by simp)
    have hsub : (m.subscript c).2 = m := by
      unfold WMap.subscript
      cases hl : m.lookup c with
      | some v => rfl
      | none => simp [hl] at hc
    simp only [convert_wstring, hsub]
    exact ih _ (fun c' hc' => h c' (by simp [hc']))

theorem lookup_subscript_isSome (m : WMap) (c c' : Char)
    (h : (m.lookup c').isSome = true) : ((m.subscript c).2.lookup c').isSome = true := by
  unfold WMap.subscript
  cases hl : m.lookup c with
  | some v => exact h
  | none =>
    simp only [List.lookup_append]
    cases hl' : m.lookup c' with
    | some w => simp
    | none => simp [hl'] at h

theorem lookup_convert_isSome (s : wstring) (m : WMap) (r : List Int) (c' : Char)
    (h : (m.lookup c').isSome = true) :
    ((convert_wstring s m r).2.lookup c').isSome = true := by
  induction s generalizing m r with
  | nil => exact h
  | cons c s ih =>
    simp only [convert_wstring]
    exact ih _ _ (lookup_subscript_isSome m c c' h)

theorem alphaNumInit_isSome : ∀ c ∈ numAlphaInit, (alphaNumInit.lookup c).isSome = true := by
  decide

theorem map_alphaIndex_range (m : WMap)
    (hm : ∀ c, alphaIndex m c = alphaIndex alphaNumInit c) (s : wstring) :
    ∀ v ∈ s.map (alphaIndex m), 0 ≤ v ∧ v < 33 := by
  intro v hv
  obtain ⟨c, _, rfl⟩ := List.mem_map.mp hv
  rw [hm c]
  exact alphaIndex_init_range c

/-- The object built by the constructor is well formed, and its key has one entry for each
character of the keyword. -/
theorem new_wellFormed (L : WCType) (skey : wstring) (cipher : modAlphaCipher)
    (h : new L skey = .ok cipher) :
    WellFormed cipher ∧ cipher.key.length = skey.length ∧ skey ≠ [] := by
  unfold new at h
  cases hk : getValidKey L skey with
  | error e => simp [hk] at h
  | ok valid_key =>
    simp only [hk, Except.ok.injEq] at h
    subst h
    have hne : skey ≠ [] := by
      intro h0; subst h0; simp [getValidKey] at hk
    have hlen : valid_key.length = skey.length := by
      simp only [getValidKey, List.isEmpty_eq_true, hne, if_false] at hk
      exact length_validKeyLoop L skey valid_key hk
    refine ⟨⟨rfl, ?_, ?_, ?_⟩, ?_, hne⟩
    · intro c; exact convert_wstring_snd _ _ _ c
    · intro c hc
      exact lookup_convert_isSome _ _ _ c (alphaNumInit_isSome c hc)
    · simp only [convert_wstring_fst, List.nil_append]
      exact map_alphaIndex_range _ (fun _ => rfl) valid_key
    · simp [convert_wstring_fst, hlen]

/-- Result of `encrypt` once the open text has passed validation. -/
theorem encrypt_of_valid (L : WCType) (self : modAlphaCipher) (text s : wstring)
    (h : getValidOpenText L text = .ok s) :
    encrypt L self text =
      (.ok ((encryptLoop self.key self.numAlpha.length 0 (s.map (alphaIndex self.alphaNum))).map
          (fun i => self.numAlpha.getD (toSizeT i) ' ')),
        { self with alphaNum := (convert_wstring s self.alphaNum []).2 }) := by
  simp [encrypt, h, convert_wstring_fst, convert_vector_eq]

/-- Result of `decrypt` once the cipher text has passed validation. -/
theorem decrypt_of_valid (L : WCType) (self : modAlphaCipher) (text s : wstring)
    (h : getValidCipherText L text = .ok s) :
    decrypt L self text =
      (.ok ((decryptLoop self.key self.numAlpha.length 0 (s.map (alphaIndex self.alphaNum))).map
          (fun i => self.numAlpha.getD (toSizeT i) ' ')),
        { self with alphaNum := (convert_wstring s self.alphaNum []).2 }) := by
  simp [decrypt, h, convert_wstring_fst, convert_vector_eq]

theorem wellFormed_convert (self : modAlphaCipher) (h : WellFormed self) (s : wstring) :
    WellFormed { self with alphaNum := (convert_wstring s self.alphaNum []).2 } := by
  obtain ⟨h1, h2, h3, h4⟩ := h
  refine ⟨h1, ?_, ?_, h4⟩
  · intro c; rw [← h2 c]; exact convert_wstring_snd _ _ _ c
  · intro c hc; exact lookup_convert_isSome _ _ _ c (h3 c hc)

theorem convert_alphabet_text (self : modAlphaCipher) (h : WellFormed self) (s : wstring)
    (hs : ∀ c ∈ s, c ∈ numAlphaInit) :
    ({ self with alphaNum := (convert_wstring s self.alphaNum []).2 } : modAlphaCipher) =
      self := by
  rw [convert_wstring_snd_eq s self.alphaNum [] (fun c hc => h.2.2.1 c (hs c hc))]

theorem toSizeT_lt (v : Int) (h0 : 0 ≤ v) (h1 : v < 33) : toSizeT v < 33 := by
  unfold toSizeT; omega

/-- Round trip on a well-formed object for a text over the 33-letter alphabet. -/
theorem round_trip_of_wellFormed (L : WCType)
    (hL : ∀ c ∈ numAlphaInit, L.isUpperLetter c = true)
    (self : modAlphaCipher) (h : WellFormed self) (T : wstring) (hT : T ≠ [])
    (hTa : ∀ c ∈ T, c ∈ numAlphaInit) :
    ∃ ct, encrypt L self T = (.ok ct, self) ∧ decrypt L self ct = (.ok T, self) ∧
      ct.length = T.length ∧ ∀ c ∈ ct, c ∈ numAlphaInit := by
  have hval := gronsfeld_getValidOpenText_of_upper L T hT (fun c hc => hL c (hTa c hc))
  have henc := encrypt_of_valid L self T T hval
  rw [convert_alphabet_text self h T hTa] at henc
  obtain ⟨h1, h2, h3, h4⟩ := h
  have hidx : alphaIndex self.alphaNum = alphaIndex alphaNumInit := funext h2
  rw [h1, hidx] at henc
  have hlen33 : numAlphaInit.length = 33 := by decide
  rw [hlen33] at henc
  set work := T.map (alphaIndex alphaNumInit) with hwork
  set enc := encryptLoop self.key 33 0 work with henc_def
  set ct := enc.map (fun i => numAlphaInit.getD (toSizeT i) ' ') with hct
  have hwr : ∀ v ∈ work, 0 ≤ v ∧ v < 33 := map_alphaIndex_range _ (fun _ => rfl) T
  have her : ∀ v ∈ enc, 0 ≤ v ∧ v < 33 := encryptLoop_range self.key 0 work
  have hctlen : ct.length = T.length := by
    simp [hct, henc_def, length_encryptLoop, hwork]
  have hctne : ct ≠ [] := by
    intro h0; rw [h0] at hctlen; exact hT (List.length_eq_zero.mp hctlen.symm)
  have hctmem : ∀ c ∈ ct, c ∈ numAlphaInit := by
    intro c hc
    obtain ⟨v, hv, rfl⟩ := List.mem_map.mp hc
    exact numAlpha_getD_mem _ (toSizeT_lt v (her v hv).1 (her v hv).2)
  have hctup : ∀ c ∈ ct, L.iswupper c = true := by
    intro c hc
    have := hL c (hctmem c hc)
    simp only [WCType.isUpperLetter, Bool.and_eq_true] at this
    exact this.1.2
  have hdec := decrypt_of_valid L self ct ct (gronsfeld_getValidCipherText_of_upper L ct hctne hctup)
  rw [convert_alphabet_text self ⟨h1, h2, h3, h4⟩ ct hctmem, h1, hidx, hlen33] at hdec
  have hback : ct.map (alphaIndex alphaNumInit) = enc := by
    rw [hct, List.map_map]
    conv_rhs => rw [← List.map_id enc]
    apply List.map_congr_left
    intro v hv
    exact alphaIndex_numAlpha v (her v hv).1 (her v hv).2
  have hfinal : (decryptLoop self.key 33 0 enc).map
      (fun i => numAlphaInit.getD (toSizeT i) ' ') = T := by
    rw [henc_def, decryptLoop_encryptLoop self.key h4 0 work hwr, hwork, List.map_map]
    conv_rhs => rw [← List.map_id T]
    apply List.map_congr_left
    intro c hc
    exact numAlpha_alphaIndex c (hTa c hc)
  rw [hback, hfinal] at hdec
  exact ⟨ct, henc, hdec, hctlen, hctmem⟩

end modAlphaCipher

namespace modAlphaCipher

theorem numAlpha_getElem? : ∀ j < 33,
    numAlphaInit[j]? = some (numAlphaInit.getD j ' ') := by decide

theorem getElem?_map_alphaIndex (m : WMap) (s : wstring) (i : Nat)
    (hi : i < ((convert_wstring s m []).1).length) :
    ((convert_wstring s m []).1)[i]? = some (((convert_wstring s m []).1).getD i 0) := by
  rw [List.getD_eq_getElem _ _ hi, List.getElem?_eq_getElem hi]

end modAlphaCipher

/-! ## Validation failures -/

theorem filterMap_normChar_eq_nil (L : WCType) (text : wstring) :
    text.filterMap L.normChar = [] ↔ ∀ c ∈ text, L.iswalpha c = false := by
  rw [List.filterMap_eq_nil_iff]
  constructor
  · intro h c hc
    have := h c hc
    by_cases ha : L.iswalpha c = true
    · simp [WCType.normChar, ha] at this
    · simpa using ha
  · intro h c hc
    simp [WCType.normChar, h c hc]

namespace RouteCipher

theorem getValidOpenText_eq (L : WCType) (text : wstring) :
    getValidOpenText L text =
      if text.filterMap L.normChar = [] then .error (Err.cipher_error "Empty open text")
      else .ok (text.filterMap L.normChar) := by
  simp [getValidOpenText, openTextLoop_eq]

theorem getValidCipherText_eq (L : WCType) (text : wstring) :
    getValidCipherText L text =
      if text = [] then .error (Err.cipher_error "Empty cipher text")
      else if ∃ c ∈ text, L.iswupper c = false then
        .error (Err.cipher_error "Invalid cipher text - must contain only uppercase letters")
      else .ok text := by
  simp [getValidCipherText]

theorem encrypt_eq (L : WCType) (self : RouteCipher) (text : wstring) :
    encrypt L self text =
      ((getValidOpenText L text).map (encryptSpec self.columns), self) := by
  unfold encrypt
  cases h : getValidOpenText L text with
  | error e => rfl
  | ok s => simp [Except.map, encryptCols_eq_spec]

end RouteCipher

namespace modAlphaCipher

theorem gronsfeld_getValidOpenText_eq (L : WCType) (text : wstring) :
    getValidOpenText L text =
      if text.filterMap L.normChar = [] then .error (Err.cipher_error "Empty open text")
      else .ok (text.filterMap L.normChar) := by
  simp [getValidOpenText, gronsfeld_openTextLoop_eq]

theorem gronsfeld_getValidCipherText_eq (L : WCType) (text : wstring) :
    getValidCipherText L text =
      if text = [] then .error (Err.cipher_error "Empty cipher text")
      else if ∃ c ∈ text, L.iswupper c = false then .error (Err.cipher_error "Invalid cipher text")
      else .ok text := by
  simp [getValidCipherText]

theorem getValidKey_eq (L : WCType) (s : wstring) :
    getValidKey L s =
      if s = [] then .error (Err.cipher_error "Empty key")
      else if ∃ c ∈ s, L.iswalpha c = false then .error (Err.cipher_error "Invalid key")
      else .ok (s.map (fun c => if L.iswlower c then L.towupper c else c)) := by
  by_cases hne : s = []
  · subst hne; rfl
  by_cases hex : ∃ c ∈ s, L.iswalpha c = false
  · simp [getValidKey, hne, hex, validKeyLoop_of_not_alpha L s hex]
  · have hall : ∀ c ∈ s, L.iswalpha c = true := by
      intro c hc
      by_contra hcd
      exact hex ⟨c, hc, by simpa using hcd⟩
    rw [if_neg hne, if_neg hex]
    simp [getValidKey, hne, validKeyLoop_of_alpha L s hall]

/-- The constructor, case by case. -/
theorem gronsfeld_new_eq (L : WCType) (s : wstring) :
    new L s =
      if s = [] then .error (Err.cipher_error "Empty key")
      else if ∃ c ∈ s, L.iswalpha c = false then .error (Err.cipher_error "Invalid key")
      else .ok
        { numAlpha := numAlphaInit,
          alphaNum := (convert_wstring
            (s.map (fun c => if L.iswlower c then L.towupper c else c)) alphaNumInit []).2,
          key := (convert_wstring
            (s.map (fun c => if L.iswlower c then L.towupper c else c)) alphaNumInit []).1 } := by
  unfold new
  rw [getValidKey_eq]
  split_ifs <;> rfl

/-- A cipher text returned by `encrypt` of a well-formed object is a non-empty string over
the 33-letter alphabet, and the object stays well formed. -/
theorem encrypt_output (L : WCType) (self : modAlphaCipher) (h : WellFormed self)
    (text ct : wstring) (self1 : modAlphaCipher)
    (henc : encrypt L self text = (.ok ct, self1)) :
    ct ≠ [] ∧ (∀ c ∈ ct, c ∈ numAlphaInit) ∧ WellFormed self1 := by
  unfold encrypt at henc
  rw [gronsfeld_getValidOpenText_eq] at henc
  split_ifs at henc with hnil
  · simp at henc
  simp only [Prod.mk.injEq, Except.ok.injEq] at henc
  obtain ⟨hct, hself⟩ := henc
  have h33 : numAlphaInit.length = 33 := by decide
  rw [convert_vector_eq, h.1, h33] at hct
  refine ⟨?_, ?_, ?_⟩
  · intro h0
    rw [h0] at hct
    have hl := congrArg List.length hct
    simp [length_encryptLoop, convert_wstring_fst] at hl
    exact hnil (List.filterMap_eq_nil_iff.mpr hl)
  · intro c hc
    rw [← hct] at hc
    simp only [List.nil_append, List.mem_map] at hc
    obtain ⟨v, hv, rfl⟩ := hc
    have := encryptLoop_range self.key 0 _ v hv
    exact numAlpha_getD_mem _ (toSizeT_lt v this.1 this.2)
  · rw [← hself]
    exact wellFormed_convert self h _

end modAlphaCipher

theorem mem_set_zero (ct : wstring) (x : Char) (h : ct ≠ []) :
    ct.set 0 x ≠ [] ∧ x ∈ ct.set 0 x := by
  cases ct with
  | nil => exact absurd rfl h
  | cons a t => simp

theorem getD_zero_mem (ct : wstring) (h : ct ≠ []) : ct.getD 0 ' ' ∈ ct := by
  cases ct with
  | nil => exact absurd rfl h
  | cons a t => simp

namespace RouteCipher

theorem decrypt_error_of_not_upper (L : WCType) (self : RouteCipher) (text : wstring)
    (hne : text ≠ []) (h : ∃ c ∈ text, L.iswupper c = false) :
    decrypt L self text =
      (.error (Err.cipher_error "Invalid cipher text - must contain only uppercase letters"),
        self) := by
  unfold decrypt
  rw [getValidCipherText_eq, if_neg hne, if_pos h]

theorem encrypt_output_ne_nil (L : WCType) (self : RouteCipher) (hkey : 0 < self.columns)
    (text ct : wstring) (self1 : RouteCipher) (h : encrypt L self text = (.ok ct, self1)) :
    ct ≠ [] ∧ self1 = self := by
  rw [encrypt_eq, getValidOpenText_eq] at h
  split_ifs at h with hnil
  · simp [Except.map] at h
  · simp only [Except.map, Prod.mk.injEq, Except.ok.injEq] at h
    refine ⟨?_, h.2.symm⟩
    intro h0
    have hl := length_encryptSpec self.columns hkey (text.filterMap L.normChar)
    rw [h.1, h0] at hl
    exact hnil (List.length_eq_zero.mp hl.symm)

end RouteCipher

namespace modAlphaCipher

theorem gronsfeld_decrypt_error_of_not_upper (L : WCType) (self : modAlphaCipher) (text : wstring)
    (hne : text ≠ []) (h : ∃ c ∈ text, L.iswupper c = false) :
    decrypt L self text = (.error (Err.cipher_error "Invalid cipher text"), self) := by
  unfold decrypt
  rw [gronsfeld_getValidCipherText_eq, if_neg hne, if_pos h]

end modAlphaCipher

set_option maxRecDepth 8000 in
theorem modAlphaCipher.check_destruct_example :
    modAlphaCipher.check ruLocale "ПРИВЕТ".toList "ЭХО".toList true =
      "Error: Invalid cipher text" := by
  decide

theorem filterMap_eq_self (f : Char → Option Char) (n : wstring)
    (h : ∀ u ∈ n, f u = some u) : n.filterMap f = n := by
  induction n with
  | nil => rfl
  | cons a n ih =>
    rw [List.filterMap_cons, h a (by simp)]
    simp only [List.cons.injEq, true_and]
    exact ih (fun u hu => h u (by simp [hu]))

/-- Normalizing twice is normalizing once, when upper-casing a lowercase letter of the text
gives an uppercase letter or leaves the letter alone. -/
theorem filterMap_normChar_idem (L : WCType) (t : wstring)
    (hL : ∀ c ∈ t, L.iswalpha c = true → L.iswlower c = true →
      L.isUpperLetter (L.towupper c) = true ∨ L.towupper c = c) :
    (t.filterMap L.normChar).filterMap L.normChar = t.filterMap L.normChar := by
  apply filterMap_eq_self
  intro u hu
  obtain ⟨c, hc, hcu⟩ := List.mem_filterMap.mp hu
  by_cases ha : L.iswalpha c = true
  · by_cases hl : L.iswlower c = true
    · have hu' : L.towupper c = u := by
        simpa [WCType.normChar, ha, hl] using hcu
      rcases hL c hc ha hl with hup | hsame
      · rw [hu'] at hup
        simp only [WCType.isUpperLetter, Bool.and_eq_true, Bool.not_eq_true'] at hup
        simp [WCType.normChar, hup.1.1, hup.2]
      · have hcu' : c = u := by rw [← hu', hsame]
        subst hcu'
        simp [WCType.normChar, ha, hl, hsame]
    · have hcu' : c = u := by
        simpa [WCType.normChar, ha, hl] using hcu
      subst hcu'
      simp [WCType.normChar, ha, hl]
  · simp [WCType.normChar, ha] at hcu

/-! ## The Gronsfeld cipher: positions in the alphabet and characters outside it -/

namespace modAlphaCipher

theorem alphaNumInit_keys : ∀ e ∈ alphaNumInit, e.1 ∈ numAlphaInit := by decide

theorem alphaIndex_init_of_mem : ∀ c ∈ numAlphaInit,
    alphaIndex alphaNumInit c = (numAlphaInit.indexOf c : Int) := by decide

theorem lookup_init_of_not_mem (c : Char) (h : c ∉ numAlphaInit) :
    alphaNumInit.lookup c = none := by
  rw [List.lookup_eq_none_iff]
  intro p hp
  have := alphaNumInit_keys p hp
  simp only [bne_iff_ne, ne_eq]
  intro hc
  exact h (hc ▸ this)

theorem alphaIndex_init_of_not_mem (c : Char) (h : c ∉ numAlphaInit) :
    alphaIndex alphaNumInit c = 0 := by
  rw [alphaIndex_eq, lookup_init_of_not_mem c h]
  rfl

/-- The number the freshly filled map gives for a character: its position in the alphabet
when it is one of the 33 letters, and `0` otherwise. -/
theorem alphaIndex_init_eq (c : Char) :
    alphaIndex alphaNumInit c =
      if c ∈ numAlphaInit then (numAlphaInit.indexOf c : Int) else 0 := by
  by_cases h : c ∈ numAlphaInit
  · rw [if_pos h]; exact alphaIndex_init_of_mem c h
  · rw [if_neg h]; exact alphaIndex_init_of_not_mem c h

theorem lookup_subscript_self (m : WMap) (c : Char) :
    (m.subscript c).2.lookup c = some (alphaIndex m c) := by
  rw [alphaIndex_eq]
  unfold WMap.subscript
  cases hl : m.lookup c with
  | some v => simp [hl]
  | none => simp [List.lookup_append, hl, List.lookup_cons]

theorem lookup_subscript_some (m : WMap) (c c' : Char) (v : Int)
    (h : m.lookup c' = some v) : (m.subscript c).2.lookup c' = some v := by
  unfold WMap.subscript
  cases hl : m.lookup c with
  | some w => exact h
  | none => simp [List.lookup_append, h]

theorem lookup_convert_some (s : wstring) (m : WMap) (r : List Int) (c' : Char) (v : Int)
    (h : m.lookup c' = some v) : (convert_wstring s m r).2.lookup c' = some v := by
  induction s generalizing m r with
  | nil => exact h
  | cons c s ih =>
    simp only [convert_wstring]
    exact ih _ _ (lookup_subscript_some m c c' v h)

/-- After `convert`, the map has an entry for every character of the string, holding the
number `convert` stored for it. -/
theorem lookup_convert_mem (s : wstring) (m : WMap) (r : List Int) (c' : Char)
    (hc : c' ∈ s) : (convert_wstring s m r).2.lookup c' = some (alphaIndex m c') := by
  induction s generalizing m r with
  | nil => simp at hc
  | cons c s ih =>
    simp only [convert_wstring]
    by_cases hcs : c' ∈ s
    · rw [ih _ _ hcs, alphaIndex_subscript]
    · have hcc : c' = c := by
        rcases List.mem_cons.mp hc with h | h
        · exact h
        · exact absurd h hcs
      subst hcc
      exact lookup_convert_some s _ _ c' _ (lookup_subscript_self m c')

theorem mem_map_numAlpha (w : List Int) (hw : ∀ v ∈ w, 0 ≤ v ∧ v < 33) :
    ∀ ch ∈ w.map (fun i => numAlphaInit.getD (toSizeT i) ' '), ch ∈ numAlphaInit := by
  intro ch hch
  obtain ⟨v, hv, rfl⟩ := List.mem_map.mp hch
  exact numAlpha_getD_mem _ (toSizeT_lt v (hw v hv).1 (hw v hv).2)

/-- The key stored by the constructor, as a function of the keyword. -/
theorem new_key_eq (L : WCType) (skey : wstring) (cipher : modAlphaCipher)
    (h : new L skey = .ok cipher) :
    cipher.key = (skey.map L.keyUpper).map (alphaIndex alphaNumInit) ∧
      cipher.alphaNum = (convert_wstring (skey.map L.keyUpper) alphaNumInit []).2 := by
  rw [gronsfeld_new_eq] at h
  split_ifs at h
  simp only [Except.ok.injEq] at h
  subst h
  exact ⟨convert_wstring_fst_nil _ _, rfl⟩

end modAlphaCipher

/-! ## The Gronsfeld cipher: the object after `encrypt` and `decrypt` -/

namespace modAlphaCipher

/-- The only change `convert` makes to the map: entries `c ↦ 0` are appended for characters
of the string that had no entry. -/
theorem convert_wstring_extends (s : wstring) (m : WMap) (r : List Int) :
    ∃ ext : WMap, (convert_wstring s m r).2 = m ++ ext ∧
      ∀ e ∈ ext, e.2 = 0 ∧ e.1 ∈ s ∧ m.lookup e.1 = none := by
  induction s generalizing m r with
  | nil => exact ⟨[], by simp [convert_wstring], by simp⟩
  | cons c s ih =>
    simp only [convert_wstring]
    cases hl : m.lookup c with
    | some v =>
      have hsub : (m.subscript c).2 = m := by simp [WMap.subscript, hl]
      rw [hsub]
      obtain ⟨ext, hext, hprop⟩ := ih m (r ++ [(m.subscript c).1])
      refine ⟨ext, hext, ?_⟩
      intro e he
      obtain ⟨h1, h2, h3⟩ := hprop e he
      exact ⟨h1, by simp [h2], h3⟩
    | none =>
      have hsub : (m.subscript c).2 = m ++ [(c, 0)] := by simp [WMap.subscript, hl]
      rw [hsub]
      obtain ⟨ext, hext, hprop⟩ := ih (m ++ [(c, 0)]) (r ++ [(m.subscript c).1])
      refine ⟨(c, 0) :: ext, by rw [hext]; simp, ?_⟩
      intro e he
      rcases List.mem_cons.mp he with rfl | he
      · exact ⟨rfl, by simp, hl⟩
      · obtain ⟨h1, h2, h3⟩ := hprop e he
        refine ⟨h1, by simp [h2], ?_⟩
        rw [List.lookup_append] at h3
        cases hm : m.lookup e.1 with
        | none => rfl
        | some w => rw [hm] at h3; simp at h3

/-- The object after `encrypt`. -/
theorem encrypt_snd (L : WCType) (self : modAlphaCipher) (text : wstring) :
    (encrypt L self text).2 =
      match getValidOpenText L text with
      | .error _ => self
      | .ok s => { self with alphaNum := (convert_wstring s self.alphaNum []).2 } := by
  unfold encrypt
  cases getValidOpenText L text <;> rfl

/-- The object after `decrypt`. -/
theorem decrypt_snd (L : WCType) (self : modAlphaCipher) (text : wstring) :
    (decrypt L self text).2 =
      match getValidCipherText L text with
      | .error _ => self
      | .ok s => { self with alphaNum := (convert_wstring s self.alphaNum []).2 } := by
  unfold decrypt
  cases getValidCipherText L text <;> rfl

/-- What `encrypt` and `decrypt` never change: the alphabet, the key, the entries the map
already has, and the number the map gives for any character. -/
theorem frame_of_convert (self : modAlphaCipher) (s : wstring) :
    ({ self with alphaNum := (convert_wstring s self.alphaNum []).2 } :
        modAlphaCipher).numAlpha = self.numAlpha ∧
      ({ self with alphaNum := (convert_wstring s self.alphaNum []).2 } :
        modAlphaCipher).key = self.key ∧
      (∀ c, alphaIndex (convert_wstring s self.alphaNum []).2 c = alphaIndex self.alphaNum c) ∧
      (∀ c v, self.alphaNum.lookup c = some v →
        (convert_wstring s self.alphaNum []).2.lookup c = some v) ∧
      ∃ ext : WMap, (convert_wstring s self.alphaNum []).2 = self.alphaNum ++ ext ∧
        ∀ e ∈ ext, e.2 = 0 ∧ e.1 ∈ s ∧ self.alphaNum.lookup e.1 = none :=
  ⟨rfl, rfl, fun c => convert_wstring_snd s _ _ c,
    fun c v h => lookup_convert_some s _ _ c v h, convert_wstring_extends s _ _⟩

end modAlphaCipher

namespace modAlphaCipher

/-- The constructor gives the same object for a keyword and for the keyword in upper case,
when upper-casing a letter of the keyword gives a letter that is alphabetic and is left
alone by upper-casing. -/
theorem new_map_keyUpper (L : WCType) (k : wstring)
    (hk : ∀ c ∈ k, L.iswalpha c = true ∧ L.iswalpha (L.keyUpper c) = true ∧
      L.keyUpper (L.keyUpper c) = L.keyUpper c) :
    new L (k.map L.keyUpper) = new L k := by
  have hfun : (fun c => if L.iswlower c = true then L.towupper c else c) = L.keyUpper := rfl
  have hidem : (k.map L.keyUpper).map L.keyUpper = k.map L.keyUpper := by
    rw [List.map_map]
    apply List.map_congr_left
    intro c hc
    exact (hk c hc).2.2
  rw [gronsfeld_new_eq, gronsfeld_new_eq, hfun, hidem]
  by_cases hne : k = []
  · subst hne; rfl
  · have hne' : ¬ k.map L.keyUpper = [] := by simpa using hne
    have hex : ¬ ∃ c ∈ k, L.iswalpha c = false := by
      rintro ⟨c, hc, hc'⟩
      rw [(hk c hc).1] at hc'
      exact absurd hc' (by decide)
    have hex' : ¬ ∃ c ∈ k.map L.keyUpper, L.iswalpha c = false := by
      rintro ⟨u, hu, hu'⟩
      obtain ⟨c, hc, rfl⟩ := List.mem_map.mp hu
      rw [(hk c hc).2.1] at hu'
      exact absurd hu' (by decide)
    rw [if_neg hne, if_neg hne', if_neg hex, if_neg hex']

end modAlphaCipher

namespace modAlphaCipher

/-- The entries `convert` appends to the map are exactly one entry `c ↦ 0` for each character
`c` of the string that had no entry. -/
theorem convert_wstring_appends (s : wstring) (m : WMap) (r : List Int) :
    ∃ ext : WMap, (convert_wstring s m r).2 = m ++ ext ∧
      (∀ e ∈ ext, e.2 = 0 ∧ e.1 ∈ s ∧ m.lookup e.1 = none) ∧
      (∀ c ∈ s, m.lookup c = none → (c, (0 : Int)) ∈ ext) ∧
      (ext.map Prod.fst).Nodup := by
  induction s generalizing m r with
  | nil => exact ⟨[], by simp [convert_wstring], by simp, by simp, by simp⟩
  | cons c s ih =>
    simp only [convert_wstring]
    cases hl : m.lookup c with
    | some v =>
      have hsub : (m.subscript c).2 = m := by simp [WMap.subscript, hl]
      rw [hsub]
      obtain ⟨ext, hext, hprop, hcomp, hnd⟩ := ih m (r ++ [(m.subscript c).1])
      refine ⟨ext, hext, ?_, ?_, hnd⟩
      · intro e he
        obtain ⟨h1, h2, h3⟩ := hprop e he
        exact ⟨h1, by simp [h2], h3⟩
      · intro c' hc' hnone
        rcases List.mem_cons.mp hc' with rfl | hc'
        · rw [hl] at hnone; exact absurd hnone (by simp)
        · exact hcomp c' hc' hnone
    | none =>
      have hsub : (m.subscript c).2 = m ++ [(c, 0)] := by simp [WMap.subscript, hl]
      rw [hsub]
      obtain ⟨ext, hext, hprop, hcomp, hnd⟩ := ih (m ++ [(c, 0)]) (r ++ [(m.subscript c).1])
      have hself : (m ++ [(c, (0 : Int))]).lookup c = some 0 := by
        simp [List.lookup_append, hl, List.lookup_cons]
      refine ⟨(c, 0) :: ext, by rw [hext]; simp, ?_, ?_, ?_⟩
      · intro e he
        rcases List.mem_cons.mp he with rfl | he
        · exact ⟨rfl, by simp, hl⟩
        · obtain ⟨h1, h2, h3⟩ := hprop e he
          refine ⟨h1, by simp [h2], ?_⟩
          rw [List.lookup_append] at h3
          cases hm : m.lookup e.1 with
          | none => rfl
          | some w => rw [hm] at h3; simp at h3
      · intro c' hc' hnone
        by_cases hcc : c' = c
        · subst hcc; simp
        · rcases List.mem_cons.mp hc' with h | hc'
          · exact absurd h hcc
          · have hl1 : (m ++ [(c, (0 : Int))]).lookup c' = none := by
              have hb : (c' == c) = false := by simpa using hcc
              simp [List.lookup_append, hnone, List.lookup_cons, hb]
            exact List.mem_cons_of_mem _ (hcomp c' hc' hl1)
      · simp only [List.map_cons, List.nodup_cons]
        refine ⟨?_, hnd⟩
        intro hmem
        obtain ⟨e, he, hec⟩ := List.mem_map.mp hmem
        have := (hprop e he).2.2
        rw [hec, hself] at this
        exact absurd this (by simp)

/-- What the map answers after `convert`: an entry it had is kept, a character of the string
without an entry has the entry `0`, and any other character still has none. -/
theorem lookup_convert_eq (s : wstring) (m : WMap) (r : List Int) (c : Char) :
    (convert_wstring s m r).2.lookup c =
      match m.lookup c with
      | some v => some v
      | none => if c ∈ s then some 0 else none := by
  cases hl : m.lookup c with
  | some v => exact lookup_convert_some s m r c v hl
  | none =>
    by_cases hc : c ∈ s
    · rw [lookup_convert_mem s m r c hc, alphaIndex_eq, hl]
      simp [hc]
    · obtain ⟨ext, hext, hprop⟩ := convert_wstring_extends s m r
      have hnone : ext.lookup c = none := by
        rw [List.lookup_eq_none_iff]
        intro p hp
        have hps := (hprop p hp).2.1
        simp only [bne_iff_ne, ne_eq]
        intro hcp
        exact hc (hcp ▸ hps)
      rw [hext, List.lookup_append, hl, hnone]
      simp [hc]

end modAlphaCipher

/-! ## The claims -/

/-- C1. Route cipher round trip: for every column count `columns > 0` and every non-empty
text `t` made only of uppercase letters, of any length, `encrypt` returns a cipher text and
`decrypt` with the same key returns `t` from it; neither call changes the object. -/
theorem RouteCipher.route_round_trip (L : WCType) (self : RouteCipher) (t : wstring)
    (hkey : 0 < self.columns) (ht : t ≠ [])
    (hup : ∀ ch ∈ t, L.isUpperLetter ch = true) :
    ∃ ct, RouteCipher.encrypt L self t = (.ok ct, self) ∧
      RouteCipher.decrypt L self ct = (.ok t, self) := by
  have hup' : ∀ ch ∈ t, L.iswupper ch = true := by
    intro ch hch
    have := hup ch hch
    simp only [WCType.isUpperLetter, Bool.and_eq_true] at this
    exact this.1.2
  refine ⟨RouteCipher.encryptSpec self.columns t, ?_, ?_⟩
  · simp [RouteCipher.encrypt, RouteCipher.getValidOpenText_of_upper L t ht hup,
      RouteCipher.encryptCols_eq_spec]
  · have hne : RouteCipher.encryptSpec self.columns t ≠ [] := by
      intro h0
      have := RouteCipher.length_encryptSpec self.columns hkey t
      rw [h0] at this
      exact ht (List.length_eq_zero.mp this.symm)
    have hv := RouteCipher.getValidCipherText_of_upper L _ hne
      (fun ch hch => hup' ch (RouteCipher.mem_encryptSpec self.columns hkey t ch hch))
    simp only [RouteCipher.decrypt, hv]
    rw [RouteCipher.decryptCols_encryptSpec self.columns hkey t]

/-- Witness of C1: four columns and a text of thirteen letters. -/
theorem RouteCipher.route_round_trip_witness :
    0 < (RouteCipher.mk 4).columns ∧ "ПРИВЕТПРИВЕТЫ".toList ≠ [] ∧
      (∀ ch ∈ "ПРИВЕТПРИВЕТЫ".toList, ruLocale.isUpperLetter ch = true) ∧
      ∃ ct, RouteCipher.encrypt ruLocale ⟨4⟩ "ПРИВЕТПРИВЕТЫ".toList = (.ok ct, ⟨4⟩) ∧
        RouteCipher.decrypt ruLocale ⟨4⟩ ct = (.ok "ПРИВЕТПРИВЕТЫ".toList, ⟨4⟩) :=
  ⟨by decide, by decide, by decide,
    RouteCipher.route_round_trip ruLocale ⟨4⟩ "ПРИВЕТПРИВЕТЫ".toList (by decide) (by decide)
      (by decide)⟩

/-- C2. Gronsfeld round trip on the working alphabet: when the classification makes the 33
letters uppercase letters, for every non-empty keyword over the alphabet and every non-empty
text `T` over the alphabet the constructor succeeds, `encrypt` returns a cipher text,
`decrypt` returns `T` from it, and the self-test `check` prints `Ok`. -/
theorem modAlphaCipher.gronsfeld_round_trip_alphabet (L : WCType)
    (hL : ∀ c ∈ modAlphaCipher.numAlphaInit, L.isUpperLetter c = true)
    (key T : wstring) (hkey : key ≠ []) (hkeya : ∀ c ∈ key, c ∈ modAlphaCipher.numAlphaInit)
    (hT : T ≠ []) (hTa : ∀ c ∈ T, c ∈ modAlphaCipher.numAlphaInit) :
    ∃ cipher ct, modAlphaCipher.new L key = .ok cipher ∧
      modAlphaCipher.encrypt L cipher T = (.ok ct, cipher) ∧
      modAlphaCipher.decrypt L cipher ct = (.ok T, cipher) ∧
      modAlphaCipher.check L T key false = "Ok" := by
  have halpha : ∀ c ∈ key, L.iswalpha c = true := by
    intro c hc
    have := hL c (hkeya c hc)
    simp only [WCType.isUpperLetter, Bool.and_eq_true] at this
    exact this.1.1
  have hvk : modAlphaCipher.getValidKey L key = .ok key := by
    simp only [modAlphaCipher.getValidKey, List.isEmpty_eq_true, hkey, if_false]
    rw [modAlphaCipher.validKeyLoop_of_alpha L key halpha]
    congr 1
    conv_rhs => rw [← List.map_id key]
    apply List.map_congr_left
    intro c hc
    have := hL c (hkeya c hc)
    simp only [WCType.isUpperLetter, Bool.and_eq_true, Bool.not_eq_true'] at this
    simp [this.2]
  have hnew : ∃ cipher, modAlphaCipher.new L key = .ok cipher := by
    simp [modAlphaCipher.new, hvk]
  obtain ⟨cipher, hnew⟩ := hnew
  obtain ⟨hwf, -, -⟩ := modAlphaCipher.new_wellFormed L key cipher hnew
  obtain ⟨ct, henc, hdec, -, -⟩ :=
    modAlphaCipher.round_trip_of_wellFormed L hL cipher hwf T hT hTa
  refine ⟨cipher, ct, hnew, henc, hdec, ?_⟩
  simp [modAlphaCipher.check, hnew, henc, hdec]

/-- Witness of C2: the self-test text with the keyword of the self-test. -/
theorem modAlphaCipher.gronsfeld_round_trip_alphabet_witness :
    (∀ c ∈ modAlphaCipher.numAlphaInit, ruLocale.isUpperLetter c = true) ∧
      "ЭХО".toList ≠ [] ∧ (∀ c ∈ "ЭХО".toList, c ∈ modAlphaCipher.numAlphaInit) ∧
      "ПРИВЕТ".toList ≠ [] ∧ (∀ c ∈ "ПРИВЕТ".toList, c ∈ modAlphaCipher.numAlphaInit) ∧
      ∃ cipher ct, modAlphaCipher.new ruLocale "ЭХО".toList = .ok cipher ∧
        modAlphaCipher.encrypt ruLocale cipher "ПРИВЕТ".toList = (.ok ct, cipher) ∧
        modAlphaCipher.decrypt ruLocale cipher ct = (.ok "ПРИВЕТ".toList, cipher) ∧
        modAlphaCipher.check ruLocale "ПРИВЕТ".toList "ЭХО".toList false = "Ok" :=
  ⟨by decide, by decide, by decide, by decide, by decide,
    modAlphaCipher.gronsfeld_round_trip_alphabet ruLocale (by decide) "ЭХО".toList "ПРИВЕТ".toList
      (by decide) (by decide) (by decide) (by decide)⟩

/-- C3, counterexample.  Under the sample classification the Latin letter `Z` is an uppercase
letter and the keyword `ЭХО` is accepted (key 30, 22, 15), but `encrypt` turns the text `Z`
into `Э` (the map gets a new entry `Z ↦ 0`) and `decrypt` turns `Э` into `А`: the round trip
does not return `Z`, and `check` prints `Err`. -/
theorem modAlphaCipher.gronsfeld_round_trip_latin_fails :
    modAlphaCipher.new ruLocale "ЭХО".toList =
        .ok ⟨modAlphaCipher.numAlphaInit, modAlphaCipher.alphaNumInit, [30, 22, 15]⟩ ∧
      "Z".toList ≠ [] ∧ (∀ ch ∈ "Z".toList, ruLocale.isUpperLetter ch = true) ∧
      modAlphaCipher.encrypt ruLocale
          ⟨modAlphaCipher.numAlphaInit, modAlphaCipher.alphaNumInit, [30, 22, 15]⟩ "Z".toList =
        (.ok "Э".toList,
          ⟨modAlphaCipher.numAlphaInit, modAlphaCipher.alphaNumInit ++ [('Z', 0)],
            [30, 22, 15]⟩) ∧
      modAlphaCipher.decrypt ruLocale
          ⟨modAlphaCipher.numAlphaInit, modAlphaCipher.alphaNumInit ++ [('Z', 0)],
            [30, 22, 15]⟩ "Э".toList =
        (.ok "А".toList,
          ⟨modAlphaCipher.numAlphaInit, modAlphaCipher.alphaNumInit ++ [('Z', 0)],
            [30, 22, 15]⟩) ∧
      "А".toList ≠ "Z".toList ∧
      modAlphaCipher.check ruLocale "Z".toList "ЭХО".toList false = "Err" := by
  decide

/-- C3, amended.  When the classification makes the 33 letters uppercase letters, for every
keyword accepted by the constructor and every non-empty text `t` whose characters are all
letters of the 33-letter alphabet, `decrypt (encrypt t) = t`. -/
theorem modAlphaCipher.gronsfeld_round_trip_any_key (L : WCType)
    (hL : ∀ c ∈ modAlphaCipher.numAlphaInit, L.isUpperLetter c = true)
    (key : wstring) (cipher : modAlphaCipher) (hnew : modAlphaCipher.new L key = .ok cipher)
    (t : wstring) (ht : t ≠ []) (hta : ∀ c ∈ t, c ∈ modAlphaCipher.numAlphaInit) :
    ∃ ct, modAlphaCipher.encrypt L cipher t = (.ok ct, cipher) ∧
      modAlphaCipher.decrypt L cipher ct = (.ok t, cipher) := by
  obtain ⟨hwf, -, -⟩ := modAlphaCipher.new_wellFormed L key cipher hnew
  obtain ⟨ct, henc, hdec, -, -⟩ :=
    modAlphaCipher.round_trip_of_wellFormed L hL cipher hwf t ht hta
  exact ⟨ct, henc, hdec⟩

/-- Witness of the amended C3: a keyword in lower case with a Latin letter in it. -/
theorem modAlphaCipher.gronsfeld_round_trip_any_key_witness :
    (∀ c ∈ modAlphaCipher.numAlphaInit, ruLocale.isUpperLetter c = true) ∧
      modAlphaCipher.new ruLocale "эхоZ".toList =
        .ok ⟨modAlphaCipher.numAlphaInit, modAlphaCipher.alphaNumInit ++ [('Z', 0)],
          [30, 22, 15, 0]⟩ ∧
      "ПРИВЕТ".toList ≠ [] ∧ (∀ c ∈ "ПРИВЕТ".toList, c ∈ modAlphaCipher.numAlphaInit) ∧
      ∃ ct,
        modAlphaCipher.encrypt ruLocale
            ⟨modAlphaCipher.numAlphaInit, modAlphaCipher.alphaNumInit ++ [('Z', 0)],
              [30, 22, 15, 0]⟩ "ПРИВЕТ".toList =
          (.ok ct, ⟨modAlphaCipher.numAlphaInit, modAlphaCipher.alphaNumInit ++ [('Z', 0)],
              [30, 22, 15, 0]⟩) ∧
        modAlphaCipher.decrypt ruLocale
            ⟨modAlphaCipher.numAlphaInit, modAlphaCipher.alphaNumInit ++ [('Z', 0)],
              [30, 22, 15, 0]⟩ ct =
          (.ok "ПРИВЕТ".toList,
            ⟨modAlphaCipher.numAlphaInit, modAlphaCipher.alphaNumInit ++ [('Z', 0)],
              [30, 22, 15, 0]⟩) :=
  ⟨by decide, by decide, by decide, by decide,
    modAlphaCipher.gronsfeld_round_trip_any_key ruLocale (by decide) "эхоZ".toList _ (by decide)
      "ПРИВЕТ".toList (by decide) (by decide)⟩

/-- C4. `RouteCipher::encrypt` equals its reference definition: on the normalized text `s`
the output is `s` read in the order `order columns |s|` (for `col = columns - 1` down to `0`,
the positions `p < |s|` with `p mod columns = col`, increasing); a validation error is passed
on.  With key `3` and text `ПРИВЕТПРИВЕТ` there are 4 rows, the order is
2,5,8,11, 1,4,7,10, 0,3,6,9 and the output is `ИТИТРЕРЕПВПВ`. -/
theorem RouteCipher.encrypt_refines_encryptSpec :
    (∀ (L : WCType) (self : RouteCipher) (text : wstring),
      RouteCipher.encrypt L self text =
        ((RouteCipher.getValidOpenText L text).map (RouteCipher.encryptSpec self.columns),
          self)) ∧
    RouteCipher.new "3".toList = .ok ⟨3⟩ ∧
    RouteCipher.getValidOpenText ruLocale "ПРИВЕТПРИВЕТ".toList = .ok "ПРИВЕТПРИВЕТ".toList ∧
    ("ПРИВЕТПРИВЕТ".toList.length + 3 - 1) / 3 = 4 ∧
    RouteCipher.order 3 12 = [2, 5, 8, 11, 1, 4, 7, 10, 0, 3, 6, 9] ∧
    RouteCipher.encrypt ruLocale ⟨3⟩ "ПРИВЕТПРИВЕТ".toList =
      (.ok "ИТИТРЕРЕПВПВ".toList, ⟨3⟩) := by
  refine ⟨?_, by decide, by decide, by decide, by decide, by decide⟩
  intro L self text
  unfold RouteCipher.encrypt
  cases h : RouteCipher.getValidOpenText L text with
  | error e => rfl
  | ok s => simp [Except.map, RouteCipher.encryptCols_eq_spec]

/-- C5. `modAlphaCipher::encrypt` equals its reference definition: for a cipher built by the
constructor and a text whose normalization `s` exists (so it is non-empty), with `p` the
alphabet indices of `s`, `encrypt` returns an output of the length of `p` whose `i`-th
character is the alphabet letter at index `(p[i] + key[i mod len(key)]) mod 33`; the key is
non-empty, so `i mod len(key)` is a position of the key. -/
theorem modAlphaCipher.encrypt_refines_reference (L : WCType) (skey : wstring)
    (cipher : modAlphaCipher) (hnew : modAlphaCipher.new L skey = .ok cipher)
    (text s : wstring) (hs : modAlphaCipher.getValidOpenText L text = .ok s) :
    ∃ out cipher1, modAlphaCipher.encrypt L cipher text = (.ok out, cipher1) ∧
      s ≠ [] ∧ 0 < cipher.key.length ∧
      out.length = ((modAlphaCipher.convert_wstring s cipher.alphaNum []).1).length ∧
      ∀ i, i < ((modAlphaCipher.convert_wstring s cipher.alphaNum []).1).length →
        i % cipher.key.length < cipher.key.length ∧
        out[i]? = modAlphaCipher.numAlphaInit[
          ((((modAlphaCipher.convert_wstring s cipher.alphaNum []).1).getD i 0 +
            cipher.key.getD (i % cipher.key.length) 0) % 33).toNat]? := by
  obtain ⟨⟨h1, h2, h3, h4⟩, hlen, hne⟩ := modAlphaCipher.new_wellFormed L skey cipher hnew
  have hklen : 0 < cipher.key.length := by
    rw [hlen]; exact List.length_pos.mpr hne
  have hsne : s ≠ [] := by
    intro h0
    subst h0
    simp only [modAlphaCipher.getValidOpenText] at hs
    split at hs <;> simp_all
  refine ⟨_, _, modAlphaCipher.encrypt_of_valid L cipher text s hs, hsne, hklen, ?_, ?_⟩
  · simp [modAlphaCipher.length_encryptLoop, modAlphaCipher.convert_wstring_fst]
  · intro i hi
    refine ⟨Nat.mod_lt _ hklen, ?_⟩
    have hp := modAlphaCipher.getElem?_map_alphaIndex cipher.alphaNum s i hi
    have hpr : 0 ≤ ((modAlphaCipher.convert_wstring s cipher.alphaNum []).1).getD i 0 ∧
        ((modAlphaCipher.convert_wstring s cipher.alphaNum []).1).getD i 0 < 33 := by
      rw [List.getD_eq_getElem _ _ hi]
      apply modAlphaCipher.map_alphaIndex_range cipher.alphaNum h2 s
      have := List.getElem_mem hi
      simpa [modAlphaCipher.convert_wstring_fst] using this
    have hkr := modAlphaCipher.key_getD_range cipher.key h4 (i % cipher.key.length)
    have h33 : modAlphaCipher.numAlphaInit.length = 33 := by decide
    rw [List.getElem?_map, modAlphaCipher.encryptLoop_getElem?,
      ← modAlphaCipher.convert_wstring_fst_nil, hp, h1, h33]
    simp only [Option.map_some', Nat.zero_add]
    rw [modAlphaCipher.encryptAt_eq cipher.key h4 i _ hpr.1 hpr.2]
    have hts : ∀ v : Int, 0 ≤ v → v < 33 → toSizeT v = v.toNat := by
      intro v hv0 hv1; unfold toSizeT; omega
    rw [hts _ (by omega) (by omega)]
    exact (modAlphaCipher.numAlpha_getElem? _ (by omega)).symm

/-- Witness of C5: the keyword and the text of the self-test. -/
theorem modAlphaCipher.encrypt_refines_reference_witness :
    modAlphaCipher.new ruLocale "ЭХО".toList =
        .ok ⟨modAlphaCipher.numAlphaInit, modAlphaCipher.alphaNumInit, [30, 22, 15]⟩ ∧
      modAlphaCipher.getValidOpenText ruLocale "Привет!".toList = .ok "ПРИВЕТ".toList ∧
      ∃ out cipher1,
        modAlphaCipher.encrypt ruLocale
            ⟨modAlphaCipher.numAlphaInit, modAlphaCipher.alphaNumInit, [30, 22, 15]⟩
            "Привет!".toList = (.ok out, cipher1) ∧
        "ПРИВЕТ".toList ≠ [] ∧ 0 < [(30 : Int), 22, 15].length ∧
        out.length = ((modAlphaCipher.convert_wstring "ПРИВЕТ".toList
          modAlphaCipher.alphaNumInit []).1).length ∧
        ∀ i, i < ((modAlphaCipher.convert_wstring "ПРИВЕТ".toList
            modAlphaCipher.alphaNumInit []).1).length →
          i % [(30 : Int), 22, 15].length < [(30 : Int), 22, 15].length ∧
          out[i]? = modAlphaCipher.numAlphaInit[
            ((((modAlphaCipher.convert_wstring "ПРИВЕТ".toList
                modAlphaCipher.alphaNumInit []).1).getD i 0 +
              [(30 : Int), 22, 15].getD (i % [(30 : Int), 22, 15].length) 0) % 33).toNat]? :=
  ⟨by decide, by decide,
    modAlphaCipher.encrypt_refines_reference ruLocale "ЭХО".toList _ (by decide)
      "Привет!".toList "ПРИВЕТ".toList (by decide)⟩

/-- C6. `modAlphaCipher::decrypt`: for a cipher built by the constructor and a cipher text
`s` that passes validation, with `q` the alphabet indices of `s`, the output has the length of
`q` and its `i`-th character is the alphabet letter at index
`(q[i] + 33 - key[i mod len(key)]) mod 33`.  The intermediate value is never negative: the
`std::size_t` subtraction the code performs does not wrap, and the value stored is the
non-negative remainder of `q[i] - key[i mod len(key)]` modulo 33. -/
theorem modAlphaCipher.decrypt_refines_reference (L : WCType) (skey : wstring)
    (cipher : modAlphaCipher) (hnew : modAlphaCipher.new L skey = .ok cipher)
    (text s : wstring) (hs : modAlphaCipher.getValidCipherText L text = .ok s) :
    ∃ out cipher1, modAlphaCipher.decrypt L cipher text = (.ok out, cipher1) ∧
      out.length = ((modAlphaCipher.convert_wstring s cipher.alphaNum []).1).length ∧
      ∀ i, i < ((modAlphaCipher.convert_wstring s cipher.alphaNum []).1).length →
        0 ≤ ((modAlphaCipher.convert_wstring s cipher.alphaNum []).1).getD i 0 + 33 -
              cipher.key.getD (i % cipher.key.length) 0 ∧
        ((subSizeT
            (addSizeT (toSizeT (((modAlphaCipher.convert_wstring s cipher.alphaNum []).1).getD
              i 0)) cipher.numAlpha.length)
            (toSizeT (cipher.key.getD (i % cipher.key.length) 0)) : Nat) : Int) =
          ((modAlphaCipher.convert_wstring s cipher.alphaNum []).1).getD i 0 + 33 -
              cipher.key.getD (i % cipher.key.length) 0 ∧
        modAlphaCipher.decryptAt cipher.key cipher.numAlpha.length i
            (((modAlphaCipher.convert_wstring s cipher.alphaNum []).1).getD i 0) =
          (((modAlphaCipher.convert_wstring s cipher.alphaNum []).1).getD i 0 -
              cipher.key.getD (i % cipher.key.length) 0) % 33 ∧
        (((modAlphaCipher.convert_wstring s cipher.alphaNum []).1).getD i 0 + 33 -
              cipher.key.getD (i % cipher.key.length) 0) % 33 =
          (((modAlphaCipher.convert_wstring s cipher.alphaNum []).1).getD i 0 -
              cipher.key.getD (i % cipher.key.length) 0) % 33 ∧
        out[i]? = modAlphaCipher.numAlphaInit[
          ((((modAlphaCipher.convert_wstring s cipher.alphaNum []).1).getD i 0 + 33 -
            cipher.key.getD (i % cipher.key.length) 0) % 33).toNat]? := by
  obtain ⟨⟨h1, h2, h3, h4⟩, hlen, hne⟩ := modAlphaCipher.new_wellFormed L skey cipher hnew
  refine ⟨_, _, modAlphaCipher.decrypt_of_valid L cipher text s hs, ?_, ?_⟩
  · simp [modAlphaCipher.length_decryptLoop, modAlphaCipher.convert_wstring_fst]
  · intro i hi
    have hp := modAlphaCipher.getElem?_map_alphaIndex cipher.alphaNum s i hi
    have hpr : 0 ≤ ((modAlphaCipher.convert_wstring s cipher.alphaNum []).1).getD i 0 ∧
        ((modAlphaCipher.convert_wstring s cipher.alphaNum []).1).getD i 0 < 33 := by
      rw [List.getD_eq_getElem _ _ hi]
      apply modAlphaCipher.map_alphaIndex_range cipher.alphaNum h2 s
      have := List.getElem_mem hi
      simpa [modAlphaCipher.convert_wstring_fst] using this
    have hkr := modAlphaCipher.key_getD_range cipher.key h4 (i % cipher.key.length)
    have h33 : modAlphaCipher.numAlphaInit.length = 33 := by decide
    have hdec := modAlphaCipher.decryptAt_eq cipher.key h4 i _ hpr.1 hpr.2
    rw [h1, h33]
    refine ⟨by omega, ?_, hdec, by omega, ?_⟩
    · unfold subSizeT addSizeT toSizeT; omega
    · rw [List.getElem?_map, modAlphaCipher.decryptLoop_getElem?,
        ← modAlphaCipher.convert_wstring_fst_nil, hp]
      simp only [Option.map_some', Nat.zero_add]
      rw [hdec]
      have hts : ∀ v : Int, 0 ≤ v → v < 33 → toSizeT v = v.toNat := by
        intro v hv0 hv1; unfold toSizeT; omega
      rw [hts _ (by omega) (by omega)]
      have heq : (((modAlphaCipher.convert_wstring s cipher.alphaNum []).1).getD i 0 + 33 -
              cipher.key.getD (i % cipher.key.length) 0) % 33 =
          (((modAlphaCipher.convert_wstring s cipher.alphaNum []).1).getD i 0 -
              cipher.key.getD (i % cipher.key.length) 0) % 33 := by omega
      rw [heq]
      exact (modAlphaCipher.numAlpha_getElem? _ (by omega)).symm

/-- Witness of C6: the cipher text `МЁЧЯЪБ` under the keyword `ЭХО`. -/
theorem modAlphaCipher.decrypt_refines_reference_witness :
    modAlphaCipher.new ruLocale "ЭХО".toList =
        .ok ⟨modAlphaCipher.numAlphaInit, modAlphaCipher.alphaNumInit, [30, 22, 15]⟩ ∧
      modAlphaCipher.getValidCipherText ruLocale "МЁЧЯЪБ".toList = .ok "МЁЧЯЪБ".toList ∧
      modAlphaCipher.decrypt ruLocale
          ⟨modAlphaCipher.numAlphaInit, modAlphaCipher.alphaNumInit, [30, 22, 15]⟩
          "МЁЧЯЪБ".toList =
        (.ok "ПРИВЕТ".toList,
          ⟨modAlphaCipher.numAlphaInit, modAlphaCipher.alphaNumInit, [30, 22, 15]⟩) ∧
      ∃ out cipher1,
        modAlphaCipher.decrypt ruLocale
            ⟨modAlphaCipher.numAlphaInit, modAlphaCipher.alphaNumInit, [30, 22, 15]⟩
            "МЁЧЯЪБ".toList = (.ok out, cipher1) ∧
        out.length = 6 :=
  ⟨by decide, by decide, by decide,
    match modAlphaCipher.decrypt_refines_reference ruLocale "ЭХО".toList
      ⟨modAlphaCipher.numAlphaInit, modAlphaCipher.alphaNumInit, [30, 22, 15]⟩ (by decide)
      "МЁЧЯЪБ".toList "МЁЧЯЪБ".toList (by decide) with
    | ⟨out, cipher1, h, hl, _⟩ => ⟨out, cipher1, h, by rw [hl]; decide⟩⟩

/-- C7, the code at the failing input.  The key `2147483648` is non-empty, all digits and
denotes a positive integer, yet the constructor and `setKey` end with the exception
`std::out_of_range` of `std::stoi`, which is not a `cipher_error`.  For every key string, the
constructor succeeds exactly when the key is non-empty, all digits, and denotes an integer
in `1 .. INT_MAX`; the stored column count is that integer; any other key whose value is at
most `INT_MAX` fails with `cipher_error`.  The keys `""`, `0`, `000`, `-3` and `3a` are
rejected with `cipher_error`. -/
theorem RouteCipher.route_key_out_of_int_range :
    ("2147483648".toList ≠ [] ∧ (∀ c ∈ "2147483648".toList, iswdigit c = true) ∧
      0 < decimalValue "2147483648".toList) ∧
    RouteCipher.new "2147483648".toList = .error (Err.out_of_range "stoi") ∧
    RouteCipher.setKey ⟨3⟩ "2147483648".toList = (.error (Err.out_of_range "stoi"), ⟨3⟩) ∧
    (∀ s : wstring, (∃ c, RouteCipher.new s = .ok c) ↔
      (s ≠ [] ∧ (∀ c ∈ s, iswdigit c = true) ∧ 0 < decimalValue s ∧
        decimalValue s ≤ INT_MAX)) ∧
    (∀ (s : wstring) (c : RouteCipher), RouteCipher.new s = .ok c →
      c.columns = decimalValue s) ∧
    (∀ (s : wstring) (e : Err), RouteCipher.new s = .error e →
      (∃ what, e = Err.cipher_error what) ∨
        (e = Err.out_of_range "stoi" ∧ (∀ c ∈ s, iswdigit c = true) ∧
          INT_MAX < decimalValue s)) ∧
    (∀ (self : RouteCipher) (s : wstring), RouteCipher.setKey self s =
      match RouteCipher.new s with
      | .error e => (.error e, self)
      | .ok c => (.ok (), c)) ∧
    RouteCipher.new "".toList = .error (Err.cipher_error "Empty key") ∧
    RouteCipher.new "0".toList = .error (Err.cipher_error "Key must be greater than 0") ∧
    RouteCipher.new "000".toList = .error (Err.cipher_error "Key must be greater than 0") ∧
    RouteCipher.new "-3".toList =
      .error (Err.cipher_error "Invalid key - must contain only digits") ∧
    RouteCipher.new "3a".toList =
      .error (Err.cipher_error "Invalid key - must contain only digits") := by
  refine ⟨by decide, by decide, by decide, ?_, ?_, ?_, RouteCipher.setKey_eq,
    by decide, by decide, by decide, by decide, by decide⟩
  · intro s
    rw [RouteCipher.new_eq]
    constructor
    · rintro ⟨c, hc⟩
      split_ifs at hc with h1 h2 h3 h4
      refine ⟨h1, ?_, Nat.pos_of_ne_zero h4, Nat.le_of_not_gt h3⟩
      intro c hc
      by_contra hcd
      exact h2 ⟨c, hc, by simpa using hcd⟩
    · rintro ⟨h1, h2, h3, h4⟩
      have hex : ¬ ∃ c ∈ s, iswdigit c = false := by
        rintro ⟨c, hc, hc'⟩; simp [h2 c hc] at hc'
      refine ⟨⟨decimalValue s⟩, ?_⟩
      rw [if_neg h1, if_neg hex, if_neg (Nat.not_lt.mpr h4),
        if_neg (Nat.pos_iff_ne_zero.mp h3)]
  · intro s c hc
    rw [RouteCipher.new_eq] at hc
    split_ifs at hc
    simp only [Except.ok.injEq] at hc
    rw [← hc]
  · intro s e he
    rw [RouteCipher.new_eq] at he
    split_ifs at he with h1 h2 h3 h4
    · exact Or.inl ⟨_, (Except.error.inj he).symm⟩
    · exact Or.inl ⟨_, (Except.error.inj he).symm⟩
    · refine Or.inr ⟨(Except.error.inj he).symm, ?_, h3⟩
      intro c hc
      by_contra hcd
      exact h2 ⟨c, hc, by simpa using hcd⟩
    · exact Or.inl ⟨_, (Except.error.inj he).symm⟩

/-- C8. Gronsfeld key validation: the constructor fails if and only if the keyword is empty
or contains a character that is not alphabetic; the failure is `cipher_error("Empty key")`
exactly for the empty keyword and `cipher_error("Invalid key")` exactly for a non-empty
keyword with a non-alphabetic character.  The keyword `""` fails with the first error and,
digits not being alphabetic, the keyword `ЭХО123` fails with the second. -/
theorem modAlphaCipher.gronsfeld_key_validation :
    (∀ (L : WCType) (s : wstring),
      (modAlphaCipher.new L s = .error (Err.cipher_error "Empty key") ↔ s = []) ∧
      (modAlphaCipher.new L s = .error (Err.cipher_error "Invalid key") ↔
        s ≠ [] ∧ ∃ c ∈ s, L.iswalpha c = false) ∧
      ((∃ e, modAlphaCipher.new L s = .error e) ↔
        s = [] ∨ ∃ c ∈ s, L.iswalpha c = false)) ∧
    (∀ L : WCType, modAlphaCipher.new L "".toList = .error (Err.cipher_error "Empty key")) ∧
    (∀ L : WCType, L.iswalpha '1' = false →
      modAlphaCipher.new L "ЭХО123".toList = .error (Err.cipher_error "Invalid key")) ∧
    modAlphaCipher.check ruLocale "ПРИВЕТ".toList "".toList false = "Error: Empty key" ∧
    modAlphaCipher.check ruLocale "ПРИВЕТ".toList "ЭХО123".toList false =
      "Error: Invalid key" := by
  refine ⟨?_, ?_, ?_, by decide, by decide⟩
  · intro L s
    rw [modAlphaCipher.gronsfeld_new_eq]
    by_cases hne : s = []
    · subst hne; simp
    · by_cases hex : ∃ c ∈ s, L.iswalpha c = false
      · rw [if_neg hne, if_pos hex]
        refine ⟨?_, ?_, ?_⟩
        · constructor
          · intro h; exact absurd h (by decide)
          · intro h; exact absurd h hne
        · exact ⟨fun _ => ⟨hne, hex⟩, fun _ => rfl⟩
        · exact ⟨fun _ => Or.inr hex, fun _ => ⟨_, rfl⟩⟩
      · rw [if_neg hne, if_neg hex]
        refine ⟨?_, ?_, ?_⟩
        · constructor
          · intro h; exact absurd h (by simp)
          · intro h; exact absurd h hne
        · constructor
          · intro h; exact absurd h (by simp)
          · intro h; exact absurd h.2 hex
        · constructor
          · rintro ⟨e, he⟩; exact absurd he (by simp)
          · rintro (h | h)
            · exact absurd h hne
            · exact absurd h hex
  · intro L; rfl
  · intro L h1
    rw [modAlphaCipher.gronsfeld_new_eq, if_neg (by decide),
      if_pos ⟨'1', by decide, h1⟩]

/-- Witness of C8: the two keywords of the self-test under the sample classification. -/
theorem modAlphaCipher.gronsfeld_key_validation_witness :
    ruLocale.iswalpha '1' = false ∧
      modAlphaCipher.new ruLocale "ЭХО123".toList = .error (Err.cipher_error "Invalid key") ∧
      modAlphaCipher.new ruLocale "".toList = .error (Err.cipher_error "Empty key") ∧
      (∃ e, modAlphaCipher.new ruLocale "ЭХО, ".toList = .error e) :=
  ⟨by decide, modAlphaCipher.gronsfeld_key_validation.2.2.1 ruLocale (by decide),
    modAlphaCipher.gronsfeld_key_validation.2.1 ruLocale,
    ((modAlphaCipher.gronsfeld_key_validation.1 ruLocale "ЭХО, ".toList).2.2).mpr
      (Or.inr ⟨',', by decide, by decide⟩)⟩

/-- C9. For both ciphers `encrypt` fails with `cipher_error("Empty open text")` if and only
if the text contains no alphabetic character, and returns a result if and only if it contains
one; a failing call leaves the object as it was.  The texts `""` and `123456` of the
self-test are rejected. -/
theorem encrypt_empty_open_text :
    (∀ (L : WCType) (self : RouteCipher) (text : wstring),
      (RouteCipher.encrypt L self text =
          (.error (Err.cipher_error "Empty open text"), self) ↔
        ∀ c ∈ text, L.iswalpha c = false) ∧
      ((∃ r, RouteCipher.encrypt L self text = (.ok r, self)) ↔
        ∃ c ∈ text, L.iswalpha c = true)) ∧
    (∀ (L : WCType) (self : modAlphaCipher) (text : wstring),
      (modAlphaCipher.encrypt L self text =
          (.error (Err.cipher_error "Empty open text"), self) ↔
        ∀ c ∈ text, L.iswalpha c = false) ∧
      ((∃ r self1, modAlphaCipher.encrypt L self text = (.ok r, self1)) ↔
        ∃ c ∈ text, L.iswalpha c = true)) ∧
    (RouteCipher.encrypt ruLocale ⟨3⟩ "".toList =
      (.error (Err.cipher_error "Empty open text"), ⟨3⟩)) ∧
    (RouteCipher.encrypt ruLocale ⟨3⟩ "123456".toList =
      (.error (Err.cipher_error "Empty open text"), ⟨3⟩)) ∧
    modAlphaCipher.check ruLocale "".toList "ЭХО".toList false = "Error: Empty open text" ∧
    modAlphaCipher.check ruLocale "123456".toList "ЭХО".toList false =
      "Error: Empty open text" := by
  have hsplit : ∀ (L : WCType) (text : wstring),
      (¬ ∀ c ∈ text, L.iswalpha c = false) ↔ ∃ c ∈ text, L.iswalpha c = true := by
    intro L text
    constructor
    · intro h
      by_contra hcon
      apply h
      intro c hc
      by_contra hcd
      exact hcon ⟨c, hc, by simpa using hcd⟩
    · rintro ⟨c, hc, hc'⟩ h
      simp [h c hc] at hc'
  refine ⟨?_, ?_, by decide, by decide, by decide, by decide⟩
  · intro L self text
    rw [← hsplit, ← filterMap_normChar_eq_nil, RouteCipher.encrypt_eq,
      RouteCipher.getValidOpenText_eq]
    by_cases hnil : text.filterMap L.normChar = []
    · simp [hnil, Except.map]
    · simp [hnil, Except.map]
  · intro L self text
    rw [← hsplit, ← filterMap_normChar_eq_nil]
    unfold modAlphaCipher.encrypt
    rw [modAlphaCipher.gronsfeld_getValidOpenText_eq]
    by_cases hnil : text.filterMap L.normChar = []
    · simp [hnil]
    · simp [hnil]

/-- Witness of C9: a text of digits and punctuation, and a text with one letter. -/
theorem encrypt_empty_open_text_witness :
    (∀ c ∈ "12, 3!".toList, ruLocale.iswalpha c = false) ∧
      RouteCipher.encrypt ruLocale ⟨3⟩ "12, 3!".toList =
        (.error (Err.cipher_error "Empty open text"), ⟨3⟩) ∧
      (∃ c ∈ "12, я!".toList, ruLocale.iswalpha c = true) ∧
      (∃ r self1, modAlphaCipher.encrypt ruLocale
        ⟨modAlphaCipher.numAlphaInit, modAlphaCipher.alphaNumInit, [30, 22, 15]⟩
        "12, я!".toList = (.ok r, self1)) :=
  ⟨by decide,
    ((encrypt_empty_open_text.1 ruLocale ⟨3⟩ "12, 3!".toList).1).mpr (by decide),
    by decide,
    ((encrypt_empty_open_text.2.1 ruLocale _ "12, я!".toList).2).mpr (by decide)⟩

/-- C10. For both ciphers `decrypt` fails with `cipher_error("Empty cipher text")` on the
empty text and with the invalid-cipher-text `cipher_error` on a non-empty text that contains
a character that is not upper case; it returns a result exactly for the other texts, and a
failing call leaves the object as it was.  In particular, for a cipher text returned by
`encrypt`, replacing its first character by its lowercase form (a character that is not upper
case) makes `decrypt` fail, and the self-test `check(..., true)` prints that error. -/
theorem decrypt_invalid_cipher_text :
    (∀ (L : WCType) (self : RouteCipher) (text : wstring),
      (text = [] → RouteCipher.decrypt L self text =
        (.error (Err.cipher_error "Empty cipher text"), self)) ∧
      (text ≠ [] → (∃ c ∈ text, L.iswupper c = false) →
        RouteCipher.decrypt L self text =
          (.error (Err.cipher_error
            "Invalid cipher text - must contain only uppercase letters"), self)) ∧
      ((∃ r, RouteCipher.decrypt L self text = (.ok r, self)) ↔
        text ≠ [] ∧ ∀ c ∈ text, L.iswupper c = true)) ∧
    (∀ (L : WCType) (self : modAlphaCipher) (text : wstring),
      (text = [] → modAlphaCipher.decrypt L self text =
        (.error (Err.cipher_error "Empty cipher text"), self)) ∧
      (text ≠ [] → (∃ c ∈ text, L.iswupper c = false) →
        modAlphaCipher.decrypt L self text =
          (.error (Err.cipher_error "Invalid cipher text"), self)) ∧
      ((∃ r self1, modAlphaCipher.decrypt L self text = (.ok r, self1)) ↔
        text ≠ [] ∧ ∀ c ∈ text, L.iswupper c = true)) ∧
    (∀ (L : WCType) (self : RouteCipher) (text ct : wstring), 0 < self.columns →
      RouteCipher.encrypt L self text = (.ok ct, self) →
      L.iswupper (L.towlower (ct.getD 0 ' ')) = false →
      RouteCipher.decrypt L self (ct.set 0 (L.towlower (ct.getD 0 ' '))) =
        (.error (Err.cipher_error
          "Invalid cipher text - must contain only uppercase letters"), self)) ∧
    (∀ (L : WCType) (skey : wstring) (cipher : modAlphaCipher) (text ct : wstring)
        (cipher1 : modAlphaCipher),
      (∀ c ∈ modAlphaCipher.numAlphaInit, L.iswupper (L.towlower c) = false) →
      modAlphaCipher.new L skey = .ok cipher →
      modAlphaCipher.encrypt L cipher text = (.ok ct, cipher1) →
      modAlphaCipher.decrypt L cipher1 (ct.set 0 (L.towlower (ct.getD 0 ' '))) =
          (.error (Err.cipher_error "Invalid cipher text"), cipher1) ∧
        modAlphaCipher.check L text skey true = "Error: Invalid cipher text") ∧
    modAlphaCipher.check ruLocale "ПРИВЕТ".toList "ЭХО".toList true =
      "Error: Invalid cipher text" := by
  have hsplit : ∀ (L : WCType) (text : wstring),
      (¬ ∃ c ∈ text, L.iswupper c = false) ↔ ∀ c ∈ text, L.iswupper c = true := by
    intro L text
    constructor
    · intro h c hc
      by_contra hcd
      exact h ⟨c, hc, by simpa using hcd⟩
    · rintro h ⟨c, hc, hc'⟩
      simp [h c hc] at hc'
  refine ⟨?_, ?_, ?_, ?_, modAlphaCipher.check_destruct_example⟩
  · intro L self text
    refine ⟨?_, RouteCipher.decrypt_error_of_not_upper L self text, ?_⟩
    · intro h; subst h; rfl
    · rw [← hsplit]
      unfold RouteCipher.decrypt
      rw [RouteCipher.getValidCipherText_eq]
      by_cases hne : text = []
      · simp [hne]
      · by_cases hex : ∃ c ∈ text, L.iswupper c = false
        · rw [if_neg hne, if_pos hex]; simp [hne, hex]
        · rw [if_neg hne, if_neg hex]; simp [hne, hex]
  · intro L self text
    refine ⟨?_, modAlphaCipher.gronsfeld_decrypt_error_of_not_upper L self text, ?_⟩
    · intro h; subst h; rfl
    · rw [← hsplit]
      unfold modAlphaCipher.decrypt
      rw [modAlphaCipher.gronsfeld_getValidCipherText_eq]
      by_cases hne : text = []
      · simp [hne]
      · by_cases hex : ∃ c ∈ text, L.iswupper c = false
        · rw [if_neg hne, if_pos hex]; simp [hne, hex]
        · rw [if_neg hne, if_neg hex]; simp [hne, hex]
  · intro L self text ct hkey henc hlow
    obtain ⟨hne, -⟩ := RouteCipher.encrypt_output_ne_nil L self hkey text ct self henc
    obtain ⟨hne', hmem⟩ := mem_set_zero ct (L.towlower (ct.getD 0 ' ')) hne
    exact RouteCipher.decrypt_error_of_not_upper L self _ hne' ⟨_, hmem, hlow⟩
  · intro L skey cipher text ct cipher1 hlow hnew henc
    obtain ⟨hwf, -, -⟩ := modAlphaCipher.new_wellFormed L skey cipher hnew
    obtain ⟨hne, hmemA, -⟩ := modAlphaCipher.encrypt_output L cipher hwf text ct cipher1 henc
    obtain ⟨hne', hmem⟩ := mem_set_zero ct (L.towlower (ct.getD 0 ' ')) hne
    have hdec := modAlphaCipher.gronsfeld_decrypt_error_of_not_upper L cipher1 _ hne'
      ⟨_, hmem, hlow _ (hmemA _ (getD_zero_mem ct hne))⟩
    refine ⟨hdec, ?_⟩
    simp only [modAlphaCipher.check, hnew, henc, if_true, hdec]
    rfl

/-- Witness of C10: the cipher texts of `ПРИВЕТ` with the first letter in lower case. -/
theorem decrypt_invalid_cipher_text_witness :
    ("мЁЧЯЪБ".toList ≠ [] ∧ ∃ c ∈ "мЁЧЯЪБ".toList, ruLocale.iswupper c = false) ∧
      modAlphaCipher.decrypt ruLocale
          ⟨modAlphaCipher.numAlphaInit, modAlphaCipher.alphaNumInit, [30, 22, 15]⟩
          "мЁЧЯЪБ".toList =
        (.error (Err.cipher_error "Invalid cipher text"),
          ⟨modAlphaCipher.numAlphaInit, modAlphaCipher.alphaNumInit, [30, 22, 15]⟩) ∧
      (0 < (RouteCipher.mk 3).columns ∧
        RouteCipher.encrypt ruLocale ⟨3⟩ "ПРИВЕТ".toList = (.ok "ИТРЕПВ".toList, ⟨3⟩) ∧
        ruLocale.iswupper (ruLocale.towlower ("ИТРЕПВ".toList.getD 0 ' ')) = false) ∧
      RouteCipher.decrypt ruLocale ⟨3⟩
          ("ИТРЕПВ".toList.set 0 (ruLocale.towlower ("ИТРЕПВ".toList.getD 0 ' '))) =
        (.error (Err.cipher_error
          "Invalid cipher text - must contain only uppercase letters"), ⟨3⟩) ∧
      ((∀ c ∈ modAlphaCipher.numAlphaInit, ruLocale.iswupper (ruLocale.towlower c) = false) ∧
        modAlphaCipher.check ruLocale "Привет, мир".toList "эхо".toList true =
          "Error: Invalid cipher text") :=
  ⟨by decide,
    (decrypt_invalid_cipher_text.2.1 ruLocale _ "мЁЧЯЪБ".toList).2.1 (by decide) (by decide),
    by decide,
    decrypt_invalid_cipher_text.2.2.1 ruLocale ⟨3⟩ "ПРИВЕТ".toList "ИТРЕПВ".toList
      (by decide) (by decide) (by decide),
    by decide,
    (decrypt_invalid_cipher_text.2.2.2.1 ruLocale "эхо".toList
      ⟨modAlphaCipher.numAlphaInit, modAlphaCipher.alphaNumInit, [30, 22, 15]⟩
      "Привет, мир".toList "МЁЧЯЪБЙЮЯ".toList
      ⟨modAlphaCipher.numAlphaInit, modAlphaCipher.alphaNumInit, [30, 22, 15]⟩
      (by decide) (by decide) (by decide)).2⟩

/-- C11. Route cipher with one column (key `1`): `encrypt` returns exactly what the open-text
normalizer returns, so for a text with at least one letter it returns the normalized text and
for a non-empty text of uppercase letters the text itself; `decrypt` returns every non-empty
all-uppercase string unchanged. -/
theorem RouteCipher.one_column_identity :
    RouteCipher.new "1".toList = .ok ⟨1⟩ ∧
    (∀ (L : WCType) (text : wstring),
      RouteCipher.encrypt L ⟨1⟩ text = (RouteCipher.getValidOpenText L text, ⟨1⟩)) ∧
    (∀ (L : WCType) (text : wstring), (∃ c ∈ text, L.iswalpha c = true) →
      RouteCipher.getValidOpenText L text = .ok (text.filterMap L.normChar) ∧
      RouteCipher.encrypt L ⟨1⟩ text = (.ok (text.filterMap L.normChar), ⟨1⟩)) ∧
    (∀ (L : WCType) (t : wstring), t ≠ [] → (∀ c ∈ t, L.isUpperLetter c = true) →
      RouteCipher.encrypt L ⟨1⟩ t = (.ok t, ⟨1⟩)) ∧
    (∀ (L : WCType) (x : wstring), x ≠ [] → (∀ c ∈ x, L.iswupper c = true) →
      RouteCipher.decrypt L ⟨1⟩ x = (.ok x, ⟨1⟩)) := by
  have henc : ∀ (L : WCType) (text : wstring),
      RouteCipher.encrypt L ⟨1⟩ text = (RouteCipher.getValidOpenText L text, ⟨1⟩) := by
    intro L text
    rw [RouteCipher.encrypt_eq]
    cases RouteCipher.getValidOpenText L text with
    | error e => rfl
    | ok s => simp [Except.map, RouteCipher.encryptSpec_one]
  refine ⟨by decide, henc, ?_, ?_, ?_⟩
  · intro L text hex
    have hne : ¬ text.filterMap L.normChar = [] := by
      rw [filterMap_normChar_eq_nil]
      intro hall
      obtain ⟨c, hc, hc'⟩ := hex
      simp [hall c hc] at hc'
    have hv : RouteCipher.getValidOpenText L text = .ok (text.filterMap L.normChar) := by
      rw [RouteCipher.getValidOpenText_eq, if_neg hne]
    exact ⟨hv, by rw [henc, hv]⟩
  · intro L t ht hup
    rw [henc, RouteCipher.getValidOpenText_of_upper L t ht hup]
  · intro L x hx hup
    rw [RouteCipher.decrypt_eq L ⟨1⟩ (by decide), RouteCipher.getValidCipherText_of_upper L x hx hup]
    simp [Except.map, RouteCipher.decryptSpec_one]

/-- Witness of C11: a mixed text, and an all-uppercase string, with one column. -/
theorem RouteCipher.one_column_identity_witness :
    (∃ c ∈ "Привет, мир!".toList, ruLocale.iswalpha c = true) ∧
      RouteCipher.encrypt ruLocale ⟨1⟩ "Привет, мир!".toList = (.ok "ПРИВЕТМИР".toList, ⟨1⟩) ∧
      ("ИТРЕПВ".toList ≠ [] ∧ ∀ c ∈ "ИТРЕПВ".toList, ruLocale.iswupper c = true) ∧
      RouteCipher.decrypt ruLocale ⟨1⟩ "ИТРЕПВ".toList = (.ok "ИТРЕПВ".toList, ⟨1⟩) :=
  ⟨by decide,
    (RouteCipher.one_column_identity.2.2.1 ruLocale "Привет, мир!".toList (by decide)).2,
    by decide,
    RouteCipher.one_column_identity.2.2.2.2 ruLocale "ИТРЕПВ".toList (by decide) (by decide)⟩

/-- C12. `RouteCipher::encrypt` drops and duplicates nothing: for every column count
`columns > 0`, also one larger than the text, and every text whose normalization `s` exists,
the output is `s` read at the positions `order columns |s|`; these positions are pairwise
distinct and are exactly `0, ..., |s| - 1`, so the output has the length of `s` and is a
permutation of `s`. -/
theorem RouteCipher.encrypt_is_permutation (L : WCType) (self : RouteCipher)
    (text s : wstring) (hkey : 0 < self.columns)
    (hs : RouteCipher.getValidOpenText L text = .ok s) :
    ∃ out, RouteCipher.encrypt L self text = (.ok out, self) ∧
      out.length = s.length ∧ out.Perm s ∧
      out = (RouteCipher.order self.columns s.length).map (fun p => s.getD p ' ') ∧
      (RouteCipher.order self.columns s.length).Nodup ∧
      (RouteCipher.order self.columns s.length).Perm (List.range s.length) := by
  refine ⟨RouteCipher.encryptSpec self.columns s, ?_,
    RouteCipher.length_encryptSpec self.columns hkey s,
    RouteCipher.encryptSpec_perm self.columns hkey s, rfl,
    RouteCipher.nodup_order _ _, RouteCipher.order_perm_range _ _ hkey⟩
  rw [RouteCipher.encrypt_eq, hs]
  rfl

/-- Witness of C12: ten columns for a text of six letters. -/
theorem RouteCipher.encrypt_is_permutation_witness :
    0 < (RouteCipher.mk 10).columns ∧
      RouteCipher.getValidOpenText ruLocale "Привет!".toList = .ok "ПРИВЕТ".toList ∧
      ∃ out, RouteCipher.encrypt ruLocale ⟨10⟩ "Привет!".toList = (.ok out, ⟨10⟩) ∧
        out.length = "ПРИВЕТ".toList.length ∧ out.Perm "ПРИВЕТ".toList ∧
        out = (RouteCipher.order 10 "ПРИВЕТ".toList.length).map
          (fun p => "ПРИВЕТ".toList.getD p ' ') ∧
        (RouteCipher.order 10 "ПРИВЕТ".toList.length).Nodup ∧
        (RouteCipher.order 10 "ПРИВЕТ".toList.length).Perm
          (List.range "ПРИВЕТ".toList.length) :=
  ⟨by decide, by decide,
    RouteCipher.encrypt_is_permutation ruLocale ⟨10⟩ "Привет!".toList "ПРИВЕТ".toList
      (by decide) (by decide)⟩

/-- C18. Route cipher with a single row: when the normalized text `s` exists (so its length
`n` is at least 1) and `columns ≥ n`, the row count computed by `encrypt` is 1 and `encrypt`
returns `s` reversed, which has all `n` characters, for `n = columns` and for
`n < columns` alike. -/
theorem RouteCipher.single_row_reverses (L : WCType) (self : RouteCipher)
    (text s : wstring) (hs : RouteCipher.getValidOpenText L text = .ok s)
    (hc : s.length ≤ self.columns) :
    1 ≤ s.length ∧ (s.length + self.columns - 1) / self.columns = 1 ∧
      RouteCipher.encrypt L self text = (.ok s.reverse, self) ∧
      s.reverse.length = s.length ∧ s.reverse.Perm s := by
  have hn : 1 ≤ s.length := by
    rw [RouteCipher.getValidOpenText_eq] at hs
    split_ifs at hs with hnil
    simp only [Except.ok.injEq] at hs
    rw [← hs]
    exact List.length_pos.mpr hnil
  refine ⟨hn, RouteCipher.rows_of_le _ _ hn hc, ?_, List.length_reverse s,
    List.reverse_perm s⟩
  rw [RouteCipher.encrypt_eq, hs]
  simp [Except.map, RouteCipher.encryptSpec_of_le self.columns s hc]

/-- Witness of C18: six letters with six columns and with nine columns. -/
theorem RouteCipher.single_row_reverses_witness :
    (RouteCipher.getValidOpenText ruLocale "ПРИВЕТ".toList = .ok "ПРИВЕТ".toList ∧
      "ПРИВЕТ".toList.length ≤ (RouteCipher.mk 6).columns ∧
      RouteCipher.encrypt ruLocale ⟨6⟩ "ПРИВЕТ".toList = (.ok "ТЕВИРП".toList, ⟨6⟩)) ∧
    (RouteCipher.getValidOpenText ruLocale "ПРИВЕТ".toList = .ok "ПРИВЕТ".toList ∧
      "ПРИВЕТ".toList.length ≤ (RouteCipher.mk 9).columns ∧
      RouteCipher.encrypt ruLocale ⟨9⟩ "ПРИВЕТ".toList = (.ok "ТЕВИРП".toList, ⟨9⟩)) :=
  ⟨⟨by decide, by decide,
    (RouteCipher.single_row_reverses ruLocale ⟨6⟩ "ПРИВЕТ".toList "ПРИВЕТ".toList
      (by decide) (by decide)).2.2.1⟩,
   ⟨by decide, by decide,
    (RouteCipher.single_row_reverses ruLocale ⟨9⟩ "ПРИВЕТ".toList "ПРИВЕТ".toList
      (by decide) (by decide)).2.2.1⟩⟩

/-- C19. `RouteCipher::decrypt` on any valid input: for every column count `columns > 0` and
every non-empty all-uppercase text `x` of length `n`, whether or not `encrypt` produced it,
`decrypt` returns a string `r`; the loops end with `index = n`, so each of the `n` characters
of `x` has been consumed and the guard `index < n` has blocked no write; every position
`q < n` of `r` holds the character of `x` whose rank in the reading order is that of `q`, so
no filler of the buffer is left; `r` has length `n` and is a permutation of `x`. -/
theorem RouteCipher.decrypt_is_permutation (L : WCType) (self : RouteCipher) (x : wstring)
    (hkey : 0 < self.columns) (hx : x ≠ []) (hup : ∀ c ∈ x, L.iswupper c = true) :
    ∃ r, RouteCipher.decrypt L self x = (.ok r, self) ∧
      RouteCipher.decryptCols x self.columns ((x.length + self.columns - 1) / self.columns)
        self.columns (List.replicate x.length ' ', 0) = (r, x.length) ∧
      r.length = x.length ∧ r.Perm x ∧
      (∀ q, q < x.length →
        (RouteCipher.order self.columns x.length).indexOf q < x.length ∧
        r[q]? = x[(RouteCipher.order self.columns x.length).indexOf q]?) ∧
      (RouteCipher.order self.columns x.length).Perm (List.range x.length) := by
  refine ⟨RouteCipher.decryptSpec self.columns x, ?_,
    RouteCipher.decryptCols_eq_spec x self.columns hkey,
    RouteCipher.length_decryptSpec _ _, RouteCipher.decryptSpec_perm _ hkey x, ?_,
    RouteCipher.order_perm_range _ _ hkey⟩
  · rw [RouteCipher.decrypt_eq L self hkey, RouteCipher.getValidCipherText_of_upper L x hx hup]
    rfl
  · intro q hq
    have hmem : q ∈ RouteCipher.order self.columns x.length :=
      (RouteCipher.mem_order _ _ q hkey).mpr hq
    have hidx : (RouteCipher.order self.columns x.length).indexOf q < x.length := by
      have := List.indexOf_lt_length.mpr hmem
      rwa [RouteCipher.length_order _ _ hkey] at this
    refine ⟨hidx, ?_⟩
    rw [RouteCipher.decryptSpec, List.getElem?_map, List.getElem?_range hq]
    simp [List.getD_eq_getElem _ _ hidx, List.getElem?_eq_getElem hidx]

/-- Witness of C19: the first seven letters of the alphabet with three columns. -/
theorem RouteCipher.decrypt_is_permutation_witness :
    0 < (RouteCipher.mk 3).columns ∧ "АБВГДЕЖ".toList ≠ [] ∧
      (∀ c ∈ "АБВГДЕЖ".toList, ruLocale.iswupper c = true) ∧
      RouteCipher.decrypt ruLocale ⟨3⟩ "АБВГДЕЖ".toList = (.ok "ДВАЕГБЖ".toList, ⟨3⟩) ∧
      ∃ r, RouteCipher.decrypt ruLocale ⟨3⟩ "АБВГДЕЖ".toList = (.ok r, ⟨3⟩) ∧
        r.length = "АБВГДЕЖ".toList.length ∧ r.Perm "АБВГДЕЖ".toList :=
  ⟨by decide, by decide, by decide, by decide,
    match RouteCipher.decrypt_is_permutation ruLocale ⟨3⟩ "АБВГДЕЖ".toList
      (by decide) (by decide) (by decide) with
    | ⟨r, h1, _, h3, h4, _⟩ => ⟨r, h1, h3, h4⟩⟩

/-- C16. Route cipher state invariant: after a successful construction `columns > 0` (it is
the value `std::stoi` returns for the key); a successful `setKey` replaces `columns` by the
parsed value, which is positive; a `setKey` that fails leaves the object as it was; `encrypt`
and `decrypt`, successful or failing, leave the object as it was.  Hence `columns > 0` is
preserved by every operation. -/
theorem RouteCipher.columns_invariant :
    (∀ (s : wstring) (c : RouteCipher), RouteCipher.new s = .ok c →
      0 < c.columns ∧ stoi s = .ok c.columns) ∧
    (∀ (self : RouteCipher) (s : wstring) (self1 : RouteCipher),
      RouteCipher.setKey self s = (.ok (), self1) →
      0 < self1.columns ∧ stoi s = .ok self1.columns) ∧
    (∀ (self : RouteCipher) (s : wstring) (e : Err) (self1 : RouteCipher),
      RouteCipher.setKey self s = (.error e, self1) → self1 = self) ∧
    (∀ (L : WCType) (self : RouteCipher) (text : wstring),
      (RouteCipher.encrypt L self text).2 = self ∧
        (RouteCipher.decrypt L self text).2 = self) ∧
    (∀ (L : WCType) (self : RouteCipher) (s text : wstring), 0 < self.columns →
      0 < (RouteCipher.setKey self s).2.columns ∧
        0 < (RouteCipher.encrypt L self text).2.columns ∧
        0 < (RouteCipher.decrypt L self text).2.columns) ∧
    RouteCipher.setKey ⟨3⟩ "5".toList = (.ok (), ⟨5⟩) ∧
    RouteCipher.setKey ⟨3⟩ "0".toList =
      (.error (Err.cipher_error "Key must be greater than 0"), ⟨3⟩) ∧
    RouteCipher.setKey ⟨3⟩ "5x".toList =
      (.error (Err.cipher_error "Invalid key - must contain only digits"), ⟨3⟩) := by
  have hnew : ∀ (s : wstring) (c : RouteCipher), RouteCipher.new s = .ok c →
      0 < c.columns ∧ stoi s = .ok c.columns := by
    intro s c h
    obtain ⟨h1, h2, h3, h4, h5⟩ := (RouteCipher.new_ok_iff s c).mp h
    subst h5
    refine ⟨h3, ?_⟩
    rw [RouteCipher.stoi_of_digits s h1 h2, if_neg (Nat.not_lt.mpr h4)]
  have hframe : ∀ (L : WCType) (self : RouteCipher) (text : wstring),
      (RouteCipher.encrypt L self text).2 = self ∧
        (RouteCipher.decrypt L self text).2 = self := by
    intro L self text
    constructor
    · unfold RouteCipher.encrypt
      cases RouteCipher.getValidOpenText L text <;> rfl
    · unfold RouteCipher.decrypt
      cases RouteCipher.getValidCipherText L text <;> rfl
  refine ⟨hnew, ?_, ?_, hframe, ?_, by decide, by decide, by decide⟩
  · intro self s self1 h
    exact hnew s self1 ((RouteCipher.setKey_ok_iff self s self1).mp h)
  · intro self s e self1 h
    exact (RouteCipher.setKey_error self s e self1 h).1
  · intro L self s text hpos
    refine ⟨?_, by rw [(hframe L self text).1]; exact hpos,
      by rw [(hframe L self text).2]; exact hpos⟩
    rw [RouteCipher.setKey_eq]
    cases hn : RouteCipher.new s with
    | error e => exact hpos
    | ok c => exact (hnew s c hn).1

/-- Witness of C16: construction from `12`, then `setKey` with `007` and with `-1`. -/
theorem RouteCipher.columns_invariant_witness :
    RouteCipher.new "12".toList = .ok ⟨12⟩ ∧ 0 < (RouteCipher.mk 12).columns ∧
      RouteCipher.setKey ⟨12⟩ "007".toList = (.ok (), ⟨7⟩) ∧
      (0 < (RouteCipher.mk 7).columns ∧ stoi "007".toList = .ok (RouteCipher.mk 7).columns) ∧
      RouteCipher.setKey ⟨7⟩ "-1".toList =
        (.error (Err.cipher_error "Invalid key - must contain only digits"), ⟨7⟩) ∧
      (RouteCipher.mk 7) = ⟨7⟩ :=
  ⟨by decide, (RouteCipher.columns_invariant.1 "12".toList ⟨12⟩ (by decide)).1, by decide,
    RouteCipher.columns_invariant.2.1 ⟨12⟩ "007".toList ⟨7⟩ (by decide), by decide,
    RouteCipher.columns_invariant.2.2.1 ⟨7⟩ "-1".toList
      (Err.cipher_error "Invalid key - must contain only digits") ⟨7⟩ (by decide)⟩

/-- C17. `RouteCipher::getKey` returns the decimal representation of the column count:
after a successful construction, or a successful `setKey`, with the key string `s`,
`getKey()` is the decimal string of the integer `s` denotes, made of digits and without a
leading zero; it equals `s` exactly when `s` has no leading zero (the key `007` yields `7`);
and a cipher constructed from `getKey()` has the same column count. -/
theorem RouteCipher.getKey_decimal :
    (∀ (s : wstring) (c : RouteCipher), RouteCipher.new s = .ok c →
      RouteCipher.getKey c = to_wstring (decimalValue s) ∧
      (∀ ch ∈ RouteCipher.getKey c, iswdigit ch = true) ∧ RouteCipher.getKey c ≠ [] ∧
      (RouteCipher.getKey c).head? ≠ some '0' ∧
      decimalValue (RouteCipher.getKey c) = decimalValue s ∧
      (RouteCipher.getKey c = s ↔ s.head? ≠ some '0') ∧
      RouteCipher.new (RouteCipher.getKey c) = .ok c) ∧
    (∀ (self : RouteCipher) (s : wstring) (c : RouteCipher),
      RouteCipher.setKey self s = (.ok (), c) →
      RouteCipher.getKey c = to_wstring (decimalValue s) ∧
      (∀ ch ∈ RouteCipher.getKey c, iswdigit ch = true) ∧ RouteCipher.getKey c ≠ [] ∧
      (RouteCipher.getKey c).head? ≠ some '0' ∧
      decimalValue (RouteCipher.getKey c) = decimalValue s ∧
      (RouteCipher.getKey c = s ↔ s.head? ≠ some '0') ∧
      RouteCipher.new (RouteCipher.getKey c) = .ok c) ∧
    RouteCipher.new "007".toList = .ok ⟨7⟩ ∧
    RouteCipher.getKey ⟨7⟩ = "7".toList ∧
    RouteCipher.getKey ⟨2147483647⟩ = "2147483647".toList := by
  refine ⟨RouteCipher.getKey_of_new, ?_, by decide, by decide, by decide⟩
  intro self s c h
  exact RouteCipher.getKey_of_new s c ((RouteCipher.setKey_ok_iff self s c).mp h)

/-- Witness of C17: the keys `007` and `120`. -/
theorem RouteCipher.getKey_decimal_witness :
    RouteCipher.new "007".toList = .ok ⟨7⟩ ∧
      RouteCipher.getKey ⟨7⟩ = "7".toList ∧
      ¬ (RouteCipher.getKey ⟨7⟩ = "007".toList) ∧
      RouteCipher.new (RouteCipher.getKey ⟨7⟩) = .ok ⟨7⟩ ∧
      RouteCipher.setKey ⟨7⟩ "120".toList = (.ok (), ⟨120⟩) ∧
      RouteCipher.getKey ⟨120⟩ = "120".toList :=
  ⟨by decide, by decide,
    fun h => (((RouteCipher.getKey_decimal.1 "007".toList ⟨7⟩ (by decide)).2.2.2.2.2.1).mp h)
      (by decide),
    (RouteCipher.getKey_decimal.1 "007".toList ⟨7⟩ (by decide)).2.2.2.2.2.2,
    by decide,
    ((RouteCipher.getKey_decimal.2.1 ⟨7⟩ "120".toList ⟨120⟩ (by decide)).2.2.2.2.2.1).mpr
      (by decide)⟩

/-- C13. Gronsfeld modulus invariant: for a cipher built by the constructor and a text
accepted by `encrypt` (respectively `decrypt`), every number `convert` stores for the input
and every number the loop stores for the output lies in `[0, 33)` and, as an index, is below
the length of `numAlpha`, which is 33; so each lookup `numAlpha[i]` is in range and each
character of the result is one of the 33 letters. -/
theorem modAlphaCipher.modulus_invariant (L : WCType) (skey : wstring)
    (cipher : modAlphaCipher) (hnew : modAlphaCipher.new L skey = .ok cipher) :
    cipher.numAlpha = modAlphaCipher.numAlphaInit ∧ cipher.numAlpha.length = 33 ∧
    (∀ text s : wstring, modAlphaCipher.getValidOpenText L text = .ok s →
      (∀ v ∈ (modAlphaCipher.convert_wstring s cipher.alphaNum []).1, 0 ≤ v ∧ v < 33) ∧
      (∀ v ∈ modAlphaCipher.encryptLoop cipher.key cipher.numAlpha.length 0
          (modAlphaCipher.convert_wstring s cipher.alphaNum []).1,
        0 ≤ v ∧ v < 33 ∧ toSizeT v < cipher.numAlpha.length) ∧
      ∃ out cipher1, modAlphaCipher.encrypt L cipher text = (.ok out, cipher1) ∧
        ∀ ch ∈ out, ch ∈ modAlphaCipher.numAlphaInit) ∧
    (∀ text s : wstring, modAlphaCipher.getValidCipherText L text = .ok s →
      (∀ v ∈ (modAlphaCipher.convert_wstring s cipher.alphaNum []).1, 0 ≤ v ∧ v < 33) ∧
      (∀ v ∈ modAlphaCipher.decryptLoop cipher.key cipher.numAlpha.length 0
          (modAlphaCipher.convert_wstring s cipher.alphaNum []).1,
        0 ≤ v ∧ v < 33 ∧ toSizeT v < cipher.numAlpha.length) ∧
      ∃ out cipher1, modAlphaCipher.decrypt L cipher text = (.ok out, cipher1) ∧
        ∀ ch ∈ out, ch ∈ modAlphaCipher.numAlphaInit) := by
  obtain ⟨⟨h1, h2, h3, h4⟩, -, -⟩ := modAlphaCipher.new_wellFormed L skey cipher hnew
  have h33 : modAlphaCipher.numAlphaInit.length = 33 := by decide
  have hconv : ∀ s : wstring,
      ∀ v ∈ (modAlphaCipher.convert_wstring s cipher.alphaNum []).1, 0 ≤ v ∧ v < 33 := by
    intro s
    rw [modAlphaCipher.convert_wstring_fst_nil]
    exact modAlphaCipher.map_alphaIndex_range cipher.alphaNum h2 s
  refine ⟨h1, by rw [h1, h33], ?_, ?_⟩
  · intro text s hs
    have hr := modAlphaCipher.encryptLoop_range cipher.key 0
      (modAlphaCipher.convert_wstring s cipher.alphaNum []).1
    refine ⟨hconv s, ?_, _, _, modAlphaCipher.encrypt_of_valid L cipher text s hs, ?_⟩
    · intro v hv
      rw [h1, h33] at hv ⊢
      exact ⟨(hr v hv).1, (hr v hv).2, modAlphaCipher.toSizeT_lt v (hr v hv).1 (hr v hv).2⟩
    · rw [h1, h33, ← modAlphaCipher.convert_wstring_fst_nil]
      exact modAlphaCipher.mem_map_numAlpha _ hr
  · intro text s hs
    have hr := modAlphaCipher.decryptLoop_range cipher.key 0
      (modAlphaCipher.convert_wstring s cipher.alphaNum []).1
    refine ⟨hconv s, ?_, _, _, modAlphaCipher.decrypt_of_valid L cipher text s hs, ?_⟩
    · intro v hv
      rw [h1, h33] at hv ⊢
      exact ⟨(hr v hv).1, (hr v hv).2, modAlphaCipher.toSizeT_lt v (hr v hv).1 (hr v hv).2⟩
    · rw [h1, h33, ← modAlphaCipher.convert_wstring_fst_nil]
      exact modAlphaCipher.mem_map_numAlpha _ hr

/-- Witness of C13: the keyword `ЭХО`, an open text with a Latin letter and a cipher text. -/
theorem modAlphaCipher.modulus_invariant_witness :
    modAlphaCipher.new ruLocale "ЭХО".toList =
        .ok ⟨modAlphaCipher.numAlphaInit, modAlphaCipher.alphaNumInit, [30, 22, 15]⟩ ∧
      modAlphaCipher.getValidOpenText ruLocale "Яz".toList = .ok "ЯZ".toList ∧
      (∃ out cipher1,
        modAlphaCipher.encrypt ruLocale
          ⟨modAlphaCipher.numAlphaInit, modAlphaCipher.alphaNumInit, [30, 22, 15]⟩
          "Яz".toList = (.ok out, cipher1) ∧
        ∀ ch ∈ out, ch ∈ modAlphaCipher.numAlphaInit) ∧
      modAlphaCipher.getValidCipherText ruLocale "АЯ".toList = .ok "АЯ".toList ∧
      (∃ out cipher1,
        modAlphaCipher.decrypt ruLocale
          ⟨modAlphaCipher.numAlphaInit, modAlphaCipher.alphaNumInit, [30, 22, 15]⟩
          "АЯ".toList = (.ok out, cipher1) ∧
        ∀ ch ∈ out, ch ∈ modAlphaCipher.numAlphaInit) :=
  ⟨by decide, by decide,
    ((modAlphaCipher.modulus_invariant ruLocale "ЭХО".toList _ (by decide)).2.2.1
      "Яz".toList "ЯZ".toList (by decide)).2.2,
    by decide,
    ((modAlphaCipher.modulus_invariant ruLocale "ЭХО".toList _ (by decide)).2.2.2
      "АЯ".toList "АЯ".toList (by decide)).2.2⟩

/-- C14, counterexample.  Under the sample classification the keyword `Z` is accepted and is
its own uppercase form; the key is the single number `0`, but `Z` is not a letter of the
alphabet and the letter at position `0` is `А`: the element of the key is not the alphabet
position of the keyword letter. -/
theorem modAlphaCipher.key_of_latin_keyword :
    modAlphaCipher.new ruLocale "Z".toList =
        .ok ⟨modAlphaCipher.numAlphaInit, modAlphaCipher.alphaNumInit ++ [('Z', 0)], [0]⟩ ∧
      "Z".toList.map ruLocale.keyUpper = "Z".toList ∧
      'Z' ∉ modAlphaCipher.numAlphaInit ∧
      modAlphaCipher.numAlphaInit.indexOf 'Z' = 33 ∧
      modAlphaCipher.numAlphaInit.take 1 = "А".toList := by
  decide

/-- C14, amended.  Gronsfeld key invariant: after a successful construction from the keyword
`s` the key has length `|s| ≥ 1` and every element lies in `[0, 33)`; the element for a
keyword letter is the alphabet position of the uppercased letter when that letter is one of
the 33 letters of the alphabet, and `0` when it is not.  So `len(key)` is not zero and
`i mod len(key)` is a position of the key for every `i`. -/
theorem modAlphaCipher.key_invariant (L : WCType) (s : wstring) (cipher : modAlphaCipher)
    (hnew : modAlphaCipher.new L s = .ok cipher) :
    cipher.key.length = s.length ∧ 1 ≤ s.length ∧
      (∀ v ∈ cipher.key, 0 ≤ v ∧ v < 33) ∧
      cipher.key = (s.map L.keyUpper).map (fun u =>
        if u ∈ modAlphaCipher.numAlphaInit then
          ((modAlphaCipher.numAlphaInit.indexOf u : Nat) : Int)
        else 0) ∧
      (∀ (i : Nat) (u : Char), (s.map L.keyUpper)[i]? = some u → u ∈ modAlphaCipher.numAlphaInit →
        modAlphaCipher.numAlphaInit[(cipher.key.getD i 0).toNat]? = some u) ∧
      cipher.key.length ≠ 0 ∧
      (∀ i : Nat, i % cipher.key.length < cipher.key.length) := by
  obtain ⟨⟨h1, h2, h3, h4⟩, hlen, hne⟩ := modAlphaCipher.new_wellFormed L s cipher hnew
  obtain ⟨hkey, -⟩ := modAlphaCipher.new_key_eq L s cipher hnew
  have hpos : 0 < s.length := List.length_pos.mpr hne
  have hkey' : cipher.key = (s.map L.keyUpper).map (fun u =>
      if u ∈ modAlphaCipher.numAlphaInit then
        ((modAlphaCipher.numAlphaInit.indexOf u : Nat) : Int)
      else 0) := by
    rw [hkey]
    apply List.map_congr_left
    intro u _
    exact modAlphaCipher.alphaIndex_init_eq u
  refine ⟨hlen, hpos, h4, hkey', ?_, by omega, fun i => Nat.mod_lt _ (by omega)⟩
  intro i u hu hmem
  have hki : cipher.key[i]? = some ((modAlphaCipher.numAlphaInit.indexOf u : Nat) : Int) := by
    rw [hkey', List.getElem?_map, hu]
    simp [hmem]
  have hgd : cipher.key.getD i 0 = ((modAlphaCipher.numAlphaInit.indexOf u : Nat) : Int) := by
    rw [List.getD_eq_getElem?_getD, hki]
    rfl
  rw [hgd, Int.toNat_ofNat]
  have hidx := List.indexOf_lt_length.mpr hmem
  rw [List.getElem?_eq_getElem hidx, List.getElem_indexOf hidx]

/-- Witness of the amended C14: a keyword in lower case with a Latin letter in it. -/
theorem modAlphaCipher.key_invariant_witness :
    modAlphaCipher.new ruLocale "эхоZ".toList =
        .ok ⟨modAlphaCipher.numAlphaInit, modAlphaCipher.alphaNumInit ++ [('Z', 0)],
          [30, 22, 15, 0]⟩ ∧
      [(30 : Int), 22, 15, 0].length = "эхоZ".toList.length ∧
      [(30 : Int), 22, 15, 0] = ("эхоZ".toList.map ruLocale.keyUpper).map (fun u =>
        if u ∈ modAlphaCipher.numAlphaInit then
          ((modAlphaCipher.numAlphaInit.indexOf u : Nat) : Int)
        else 0) :=
  ⟨by decide,
    (modAlphaCipher.key_invariant ruLocale "эхоZ".toList
      ⟨modAlphaCipher.numAlphaInit, modAlphaCipher.alphaNumInit ++ [('Z', 0)],
        [30, 22, 15, 0]⟩ (by decide)).1,
    (modAlphaCipher.key_invariant ruLocale "эхоZ".toList
      ⟨modAlphaCipher.numAlphaInit, modAlphaCipher.alphaNumInit ++ [('Z', 0)],
        [30, 22, 15, 0]⟩ (by decide)).2.2.2.1⟩

/-- C15. Normalization is idempotent: the open-text normalizer of either cipher (the two are
the same function) returns a non-empty string of uppercase letters unchanged; and when
upper-casing a lowercase letter of `t` gives an uppercase letter or leaves the letter alone,
the normalization `n` of a text `t` with at least one letter is returned unchanged by the
normalizer, that is `normalize(normalize(t)) = normalize(t)`. -/
theorem normalization_idempotent :
    (∀ (L : WCType) (s : wstring), s ≠ [] → (∀ c ∈ s, L.isUpperLetter c = true) →
      RouteCipher.getValidOpenText L s = .ok s ∧
        modAlphaCipher.getValidOpenText L s = .ok s) ∧
    (∀ (L : WCType) (t n : wstring),
      (∀ c ∈ t, L.iswalpha c = true → L.iswlower c = true →
        L.isUpperLetter (L.towupper c) = true ∨ L.towupper c = c) →
      (RouteCipher.getValidOpenText L t = .ok n →
        RouteCipher.getValidOpenText L n = .ok n) ∧
      (modAlphaCipher.getValidOpenText L t = .ok n →
        modAlphaCipher.getValidOpenText L n = .ok n)) ∧
    (∀ (L : WCType) (t : wstring),
      RouteCipher.getValidOpenText L t = modAlphaCipher.getValidOpenText L t) := by
  have hsame : ∀ (L : WCType) (t : wstring),
      RouteCipher.getValidOpenText L t = modAlphaCipher.getValidOpenText L t := by
    intro L t
    rw [RouteCipher.getValidOpenText_eq, modAlphaCipher.gronsfeld_getValidOpenText_eq]
  have hidem : ∀ (L : WCType) (t n : wstring),
      (∀ c ∈ t, L.iswalpha c = true → L.iswlower c = true →
        L.isUpperLetter (L.towupper c) = true ∨ L.towupper c = c) →
      RouteCipher.getValidOpenText L t = .ok n →
        RouteCipher.getValidOpenText L n = .ok n := by
    intro L t n hL h
    rw [RouteCipher.getValidOpenText_eq] at h
    split_ifs at h with hnil
    simp only [Except.ok.injEq] at h
    subst h
    rw [RouteCipher.getValidOpenText_eq, filterMap_normChar_idem L t hL, if_neg hnil]
  refine ⟨?_, ?_, hsame⟩
  · intro L s hs hup
    exact ⟨RouteCipher.getValidOpenText_of_upper L s hs hup,
      modAlphaCipher.gronsfeld_getValidOpenText_of_upper L s hs hup⟩
  · intro L t n hL
    refine ⟨hidem L t n hL, ?_⟩
    rw [← hsame, ← hsame]
    exact hidem L t n hL

/-- Witness of C15: an uppercase string, and a mixed text normalized twice. -/
theorem normalization_idempotent_witness :
    ("ПРИВЕТ".toList ≠ [] ∧ ∀ c ∈ "ПРИВЕТ".toList, ruLocale.isUpperLetter c = true) ∧
      RouteCipher.getValidOpenText ruLocale "ПРИВЕТ".toList = .ok "ПРИВЕТ".toList ∧
      (∀ c ∈ "Привет, мир! 123 ёж Zz".toList,
        ruLocale.iswalpha c = true → ruLocale.iswlower c = true →
          ruLocale.isUpperLetter (ruLocale.towupper c) = true ∨ ruLocale.towupper c = c) ∧
      modAlphaCipher.getValidOpenText ruLocale "Привет, мир! 123 ёж Zz".toList =
        .ok "ПРИВЕТМИРЁЖZZ".toList ∧
      modAlphaCipher.getValidOpenText ruLocale "ПРИВЕТМИРЁЖZZ".toList =
        .ok "ПРИВЕТМИРЁЖZZ".toList :=
  ⟨by decide,
    (normalization_idempotent.1 ruLocale "ПРИВЕТ".toList (by decide) (by decide)).1,
    by decide, by decide,
    (normalization_idempotent.2.1 ruLocale "Привет, мир! 123 ёж Zz".toList
      "ПРИВЕТМИРЁЖZZ".toList (by decide)).2 (by decide)⟩

/-- C20, counterexample.  Under the sample classification the Latin letter `Z` is alphabetic
and upper case and is not one of the 33 letters, yet no operation fails on it: the
constructor accepts the keyword `Z` (key `0`), `encrypt` with the keyword `ЭХО` returns `Э`
for the open text `Z`, and `decrypt` returns `Г` for the cipher text `Z`; each time the map
gets the new entry `Z ↦ 0`. -/
theorem modAlphaCipher.latin_lookup_returns_result :
    (ruLocale.iswalpha 'Z' = true ∧ ruLocale.iswupper 'Z' = true ∧
      'Z' ∉ modAlphaCipher.numAlphaInit) ∧
    modAlphaCipher.new ruLocale "Z".toList =
      .ok ⟨modAlphaCipher.numAlphaInit, modAlphaCipher.alphaNumInit ++ [('Z', 0)], [0]⟩ ∧
    modAlphaCipher.encrypt ruLocale
        ⟨modAlphaCipher.numAlphaInit, modAlphaCipher.alphaNumInit, [30, 22, 15]⟩ "Z".toList =
      (.ok "Э".toList,
        ⟨modAlphaCipher.numAlphaInit, modAlphaCipher.alphaNumInit ++ [('Z', 0)],
          [30, 22, 15]⟩) ∧
    modAlphaCipher.decrypt ruLocale
        ⟨modAlphaCipher.numAlphaInit, modAlphaCipher.alphaNumInit, [30, 22, 15]⟩ "Z".toList =
      (.ok "Г".toList,
        ⟨modAlphaCipher.numAlphaInit, modAlphaCipher.alphaNumInit ++ [('Z', 0)],
          [30, 22, 15]⟩) := by
  decide

/-- C20, amended.  Gronsfeld out-of-alphabet lookup: for a cipher built by the constructor,
a keyword, open text or cipher text that passes its validator does not make the operation
fail, whatever its characters: the operation returns a result, and a character that is not
one of the 33 letters is given the index `0` by the lookup `alphaNum[c]`, which leaves the
entry `c ↦ 0` in the map. -/
theorem modAlphaCipher.lookup_outside_alphabet (L : WCType) (skey : wstring)
    (cipher : modAlphaCipher) (hnew : modAlphaCipher.new L skey = .ok cipher) :
    (∀ (i : Nat) (u : Char), (skey.map L.keyUpper)[i]? = some u → u ∉ modAlphaCipher.numAlphaInit →
      cipher.key[i]? = some 0 ∧ cipher.alphaNum.lookup u = some 0) ∧
    (∀ text s : wstring, modAlphaCipher.getValidOpenText L text = .ok s →
      ∃ out cipher1, modAlphaCipher.encrypt L cipher text = (.ok out, cipher1) ∧
        out.length = s.length ∧
        ∀ (i : Nat) (c : Char), s[i]? = some c → c ∉ modAlphaCipher.numAlphaInit →
          ((modAlphaCipher.convert_wstring s cipher.alphaNum []).1)[i]? = some 0 ∧
            cipher1.alphaNum.lookup c = some 0) ∧
    (∀ text s : wstring, modAlphaCipher.getValidCipherText L text = .ok s →
      ∃ out cipher1, modAlphaCipher.decrypt L cipher text = (.ok out, cipher1) ∧
        out.length = s.length ∧
        ∀ (i : Nat) (c : Char), s[i]? = some c → c ∉ modAlphaCipher.numAlphaInit →
          ((modAlphaCipher.convert_wstring s cipher.alphaNum []).1)[i]? = some 0 ∧
            cipher1.alphaNum.lookup c = some 0) := by
  obtain ⟨⟨h1, h2, h3, h4⟩, -, -⟩ := modAlphaCipher.new_wellFormed L skey cipher hnew
  obtain ⟨hkey, hmap⟩ := modAlphaCipher.new_key_eq L skey cipher hnew
  have hconv : ∀ (s : wstring) (i : Nat) (c : Char), s[i]? = some c →
      c ∉ modAlphaCipher.numAlphaInit →
      ((modAlphaCipher.convert_wstring s cipher.alphaNum []).1)[i]? = some 0 ∧
        (modAlphaCipher.convert_wstring s cipher.alphaNum []).2.lookup c = some 0 := by
    intro s i c hc hnot
    have h0 : modAlphaCipher.alphaIndex cipher.alphaNum c = 0 := by
      rw [h2 c]; exact modAlphaCipher.alphaIndex_init_of_not_mem c hnot
    constructor
    · rw [modAlphaCipher.convert_wstring_fst_nil, List.getElem?_map, hc]
      simp [h0]
    · rw [modAlphaCipher.lookup_convert_mem s _ _ c (List.mem_iff_getElem?.mpr ⟨i, hc⟩), h0]
  refine ⟨?_, ?_, ?_⟩
  · intro i u hu hnot
    have h0 := modAlphaCipher.alphaIndex_init_of_not_mem u hnot
    constructor
    · rw [hkey, List.getElem?_map, hu]
      simp [h0]
    · rw [hmap, modAlphaCipher.lookup_convert_mem _ _ _ u
        (List.mem_iff_getElem?.mpr ⟨i, hu⟩), h0]
  · intro text s hs
    refine ⟨_, _, modAlphaCipher.encrypt_of_valid L cipher text s hs, ?_, hconv s⟩
    simp [modAlphaCipher.length_encryptLoop]
  · intro text s hs
    refine ⟨_, _, modAlphaCipher.decrypt_of_valid L cipher text s hs, ?_, hconv s⟩
    simp [modAlphaCipher.length_decryptLoop]

/-- Witness of the amended C20: the keyword `эхоZ` and the open text `Яz`. -/
theorem modAlphaCipher.lookup_outside_alphabet_witness :
    modAlphaCipher.new ruLocale "эхоZ".toList =
        .ok ⟨modAlphaCipher.numAlphaInit, modAlphaCipher.alphaNumInit ++ [('Z', 0)],
          [30, 22, 15, 0]⟩ ∧
      ("эхоZ".toList.map ruLocale.keyUpper)[3]? = some 'Z' ∧
      'Z' ∉ modAlphaCipher.numAlphaInit ∧
      ([(30 : Int), 22, 15, 0][3]? = some 0 ∧
        (modAlphaCipher.alphaNumInit ++ [('Z', 0)]).lookup 'Z' = some 0) ∧
      modAlphaCipher.getValidOpenText ruLocale "Яz".toList = .ok "ЯZ".toList ∧
      ∃ out cipher1,
        modAlphaCipher.encrypt ruLocale
          ⟨modAlphaCipher.numAlphaInit, modAlphaCipher.alphaNumInit ++ [('Z', 0)],
            [30, 22, 15, 0]⟩ "Яz".toList = (.ok out, cipher1) ∧
        out.length = "ЯZ".toList.length :=
  ⟨by decide, by decide, by decide,
    (modAlphaCipher.lookup_outside_alphabet ruLocale "эхоZ".toList
      ⟨modAlphaCipher.numAlphaInit, modAlphaCipher.alphaNumInit ++ [('Z', 0)],
        [30, 22, 15, 0]⟩ (by decide)).1 3 'Z' (by decide) (by decide),
    by decide,
    match (modAlphaCipher.lookup_outside_alphabet ruLocale "эхоZ".toList
      ⟨modAlphaCipher.numAlphaInit, modAlphaCipher.alphaNumInit ++ [('Z', 0)],
        [30, 22, 15, 0]⟩ (by decide)).2.1 "Яz".toList "ЯZ".toList (by decide) with
    | ⟨out, cipher1, h, hl, _⟩ => ⟨out, cipher1, h, hl⟩⟩

/-- C21, counterexample.  The object built from the keyword `ЭХО` has a map of 33 entries,
none for the Latin letter `Z`.  The call `encrypt("ЯZ")` succeeds and returns an object
whose map has 34 entries, the new one being `Z ↦ 0`: the object after the call is not the
object before it.  The same holds for `decrypt("ЯZ")`. -/
theorem modAlphaCipher.encrypt_adds_map_entry :
    modAlphaCipher.new ruLocale "ЭХО".toList =
        .ok ⟨modAlphaCipher.numAlphaInit, modAlphaCipher.alphaNumInit, [30, 22, 15]⟩ ∧
      modAlphaCipher.alphaNumInit.length = 33 ∧
      modAlphaCipher.alphaNumInit.lookup 'Z' = none ∧
      modAlphaCipher.encrypt ruLocale
          ⟨modAlphaCipher.numAlphaInit, modAlphaCipher.alphaNumInit, [30, 22, 15]⟩
          "ЯZ".toList =
        (.ok "ЬХ".toList,
          ⟨modAlphaCipher.numAlphaInit, modAlphaCipher.alphaNumInit ++ [('Z', 0)],
            [30, 22, 15]⟩) ∧
      modAlphaCipher.decrypt ruLocale
          ⟨modAlphaCipher.numAlphaInit, modAlphaCipher.alphaNumInit, [30, 22, 15]⟩
          "ЯZ".toList =
        (.ok "ВК".toList,
          ⟨modAlphaCipher.numAlphaInit, modAlphaCipher.alphaNumInit ++ [('Z', 0)],
            [30, 22, 15]⟩) ∧
      (modAlphaCipher.alphaNumInit ++ [('Z', 0)]).length = 34 ∧
      (modAlphaCipher.alphaNumInit ++ [('Z', 0)]).lookup 'Z' = some 0 ∧
      (⟨modAlphaCipher.numAlphaInit, modAlphaCipher.alphaNumInit ++ [('Z', 0)],
          [30, 22, 15]⟩ : modAlphaCipher) ≠
        ⟨modAlphaCipher.numAlphaInit, modAlphaCipher.alphaNumInit, [30, 22, 15]⟩ := by
  decide

/-- C21, amended.  No call of `encrypt` or `decrypt`, successful or failing, on any text,
changes the alphabet or the numeric key; a failing call changes nothing; a successful call
keeps every entry of the map `alphaNum` and appends exactly one entry `c ↦ 0` for each
character `c` of the validated text that had none (afterwards the map has the entry `0` for
such a character, and still no entry for a character that had none and is not in the text),
so the number `alphaNum[c]` is the same for every character before and after the call; when
every character of the validated text has an entry, as for a cipher built by the constructor
and a text over the 33 letters, the object after the call is the object before it. -/
theorem modAlphaCipher.state_after_call (L : WCType) (self : modAlphaCipher)
    (text : wstring) :
    ((modAlphaCipher.encrypt L self text).2.numAlpha = self.numAlpha ∧
      (modAlphaCipher.encrypt L self text).2.key = self.key ∧
      (∀ c, modAlphaCipher.alphaIndex (modAlphaCipher.encrypt L self text).2.alphaNum c =
        modAlphaCipher.alphaIndex self.alphaNum c) ∧
      (∃ ext : WMap,
        (modAlphaCipher.encrypt L self text).2.alphaNum = self.alphaNum ++ ext ∧
        ∀ e ∈ ext, e.2 = 0 ∧ self.alphaNum.lookup e.1 = none) ∧
      (∀ e, (modAlphaCipher.encrypt L self text).1 = .error e →
        (modAlphaCipher.encrypt L self text).2 = self) ∧
      (∀ s, modAlphaCipher.getValidOpenText L text = .ok s →
        (∀ c ∈ s, (self.alphaNum.lookup c).isSome = true) →
        (modAlphaCipher.encrypt L self text).2 = self) ∧
      (∀ skey s, modAlphaCipher.new L skey = .ok self →
        modAlphaCipher.getValidOpenText L text = .ok s →
        (∀ c ∈ s, c ∈ modAlphaCipher.numAlphaInit) →
        (modAlphaCipher.encrypt L self text).2 = self) ∧
      (∀ s, modAlphaCipher.getValidOpenText L text = .ok s →
        (∀ c ∈ s, self.alphaNum.lookup c = none →
          (modAlphaCipher.encrypt L self text).2.alphaNum.lookup c = some 0) ∧
        (∀ c, (modAlphaCipher.encrypt L self text).2.alphaNum.lookup c =
          match self.alphaNum.lookup c with
          | some v => some v
          | none => if c ∈ s then some 0 else none) ∧
        ∃ ext : WMap,
          (modAlphaCipher.encrypt L self text).2.alphaNum = self.alphaNum ++ ext ∧
          (∀ e ∈ ext, e.2 = 0 ∧ e.1 ∈ s ∧ self.alphaNum.lookup e.1 = none) ∧
          (∀ c ∈ s, self.alphaNum.lookup c = none → (c, (0 : Int)) ∈ ext) ∧
          (ext.map Prod.fst).Nodup)) ∧
    ((modAlphaCipher.decrypt L self text).2.numAlpha = self.numAlpha ∧
      (modAlphaCipher.decrypt L self text).2.key = self.key ∧
      (∀ c, modAlphaCipher.alphaIndex (modAlphaCipher.decrypt L self text).2.alphaNum c =
        modAlphaCipher.alphaIndex self.alphaNum c) ∧
      (∃ ext : WMap,
        (modAlphaCipher.decrypt L self text).2.alphaNum = self.alphaNum ++ ext ∧
        ∀ e ∈ ext, e.2 = 0 ∧ self.alphaNum.lookup e.1 = none) ∧
      (∀ e, (modAlphaCipher.decrypt L self text).1 = .error e →
        (modAlphaCipher.decrypt L self text).2 = self) ∧
      (∀ s, modAlphaCipher.getValidCipherText L text = .ok s →
        (∀ c ∈ s, (self.alphaNum.lookup c).isSome = true) →
        (modAlphaCipher.decrypt L self text).2 = self) ∧
      (∀ skey s, modAlphaCipher.new L skey = .ok self →
        modAlphaCipher.getValidCipherText L text = .ok s →
        (∀ c ∈ s, c ∈ modAlphaCipher.numAlphaInit) →
        (modAlphaCipher.decrypt L self text).2 = self) ∧
      (∀ s, modAlphaCipher.getValidCipherText L text = .ok s →
        (∀ c ∈ s, self.alphaNum.lookup c = none →
          (modAlphaCipher.decrypt L self text).2.alphaNum.lookup c = some 0) ∧
        (∀ c, (modAlphaCipher.decrypt L self text).2.alphaNum.lookup c =
          match self.alphaNum.lookup c with
          | some v => some v
          | none => if c ∈ s then some 0 else none) ∧
        ∃ ext : WMap,
          (modAlphaCipher.decrypt L self text).2.alphaNum = self.alphaNum ++ ext ∧
          (∀ e ∈ ext, e.2 = 0 ∧ e.1 ∈ s ∧ self.alphaNum.lookup e.1 = none) ∧
          (∀ c ∈ s, self.alphaNum.lookup c = none → (c, (0 : Int)) ∈ ext) ∧
          (ext.map Prod.fst).Nodup)) := by
  constructor
  · rw [modAlphaCipher.encrypt_snd]
    cases hv : modAlphaCipher.getValidOpenText L text with
    | error e0 =>
      refine ⟨rfl, rfl, fun _ => rfl, ⟨[], by simp, by simp⟩, fun _ _ => rfl, ?_, ?_, ?_⟩
      · intro s hs; exact absurd hs (by simp)
      · intro skey s _ hs; exact absurd hs (by simp)
      · intro s hs; exact absurd hs (by simp)
    | ok s0 =>
      obtain ⟨f1, f2, f3, -, ext, hext, hprop⟩ := modAlphaCipher.frame_of_convert self s0
      refine ⟨f1, f2, f3, ⟨ext, hext, fun e he => ⟨(hprop e he).1, (hprop e he).2.2⟩⟩,
        ?_, ?_, ?_, ?_⟩
      · intro e he
        simp [modAlphaCipher.encrypt, hv] at he
      · intro s hs hall
        simp only [Except.ok.injEq] at hs
        subst hs
        show ({ self with alphaNum := _ } : modAlphaCipher) = self
        rw [modAlphaCipher.convert_wstring_snd_eq s0 self.alphaNum [] hall]
      · intro skey s hnew hs hall
        simp only [Except.ok.injEq] at hs
        subst hs
        obtain ⟨hwf, -, -⟩ := modAlphaCipher.new_wellFormed L skey self hnew
        exact modAlphaCipher.convert_alphabet_text self hwf s0 hall
      · intro s hs
        simp only [Except.ok.injEq] at hs
        subst hs
        refine ⟨?_, modAlphaCipher.lookup_convert_eq s0 self.alphaNum [],
          modAlphaCipher.convert_wstring_appends s0 self.alphaNum []⟩
        intro c hc hnone
        have := modAlphaCipher.lookup_convert_eq s0 self.alphaNum [] c
        rw [hnone] at this
        simpa [hc] using this
  · rw [modAlphaCipher.decrypt_snd]
    cases hv : modAlphaCipher.getValidCipherText L text with
    | error e0 =>
      refine ⟨rfl, rfl, fun _ => rfl, ⟨[], by simp, by simp⟩, fun _ _ => rfl, ?_, ?_, ?_⟩
      · intro s hs; exact absurd hs (by simp)
      · intro skey s _ hs; exact absurd hs (by simp)
      · intro s hs; exact absurd hs (by simp)
    | ok s0 =>
      obtain ⟨f1, f2, f3, -, ext, hext, hprop⟩ := modAlphaCipher.frame_of_convert self s0
      refine ⟨f1, f2, f3, ⟨ext, hext, fun e he => ⟨(hprop e he).1, (hprop e he).2.2⟩⟩,
        ?_, ?_, ?_, ?_⟩
      · intro e he
        simp [modAlphaCipher.decrypt, hv] at he
      · intro s hs hall
        simp only [Except.ok.injEq] at hs
        subst hs
        show ({ self with alphaNum := _ } : modAlphaCipher) = self
        rw [modAlphaCipher.convert_wstring_snd_eq s0 self.alphaNum [] hall]
      · intro skey s hnew hs hall
        simp only [Except.ok.injEq] at hs
        subst hs
        obtain ⟨hwf, -, -⟩ := modAlphaCipher.new_wellFormed L skey self hnew
        exact modAlphaCipher.convert_alphabet_text self hwf s0 hall
      · intro s hs
        simp only [Except.ok.injEq] at hs
        subst hs
        refine ⟨?_, modAlphaCipher.lookup_convert_eq s0 self.alphaNum [],
          modAlphaCipher.convert_wstring_appends s0 self.alphaNum []⟩
        intro c hc hnone
        have := modAlphaCipher.lookup_convert_eq s0 self.alphaNum [] c
        rw [hnone] at this
        simpa [hc] using this

/-- Witness of the amended C21: the self-test text, a text with a Latin letter, and a text
that is rejected. -/
theorem modAlphaCipher.state_after_call_witness :
    modAlphaCipher.new ruLocale "ЭХО".toList =
        .ok ⟨modAlphaCipher.numAlphaInit, modAlphaCipher.alphaNumInit, [30, 22, 15]⟩ ∧
      modAlphaCipher.getValidOpenText ruLocale "Привет".toList = .ok "ПРИВЕТ".toList ∧
      (∀ c ∈ "ПРИВЕТ".toList, c ∈ modAlphaCipher.numAlphaInit) ∧
      (modAlphaCipher.encrypt ruLocale
          ⟨modAlphaCipher.numAlphaInit, modAlphaCipher.alphaNumInit, [30, 22, 15]⟩
          "Привет".toList).2 =
        ⟨modAlphaCipher.numAlphaInit, modAlphaCipher.alphaNumInit, [30, 22, 15]⟩ ∧
      (modAlphaCipher.getValidOpenText ruLocale "Яz".toList = .ok "ЯZ".toList ∧
        'Z' ∈ "ЯZ".toList ∧ modAlphaCipher.alphaNumInit.lookup 'Z' = none) ∧
      (modAlphaCipher.encrypt ruLocale
          ⟨modAlphaCipher.numAlphaInit, modAlphaCipher.alphaNumInit, [30, 22, 15]⟩
          "Яz".toList).2.alphaNum.lookup 'Z' = some 0 ∧
      (modAlphaCipher.decrypt ruLocale
          ⟨modAlphaCipher.numAlphaInit, modAlphaCipher.alphaNumInit, [30, 22, 15]⟩
          "привет".toList).1 = .error (Err.cipher_error "Invalid cipher text") ∧
      (modAlphaCipher.decrypt ruLocale
          ⟨modAlphaCipher.numAlphaInit, modAlphaCipher.alphaNumInit, [30, 22, 15]⟩
          "привет".toList).2 =
        ⟨modAlphaCipher.numAlphaInit, modAlphaCipher.alphaNumInit, [30, 22, 15]⟩ :=
  ⟨by decide, by decide, by decide,
    (modAlphaCipher.state_after_call ruLocale
      ⟨modAlphaCipher.numAlphaInit, modAlphaCipher.alphaNumInit, [30, 22, 15]⟩
      "Привет".toList).1.2.2.2.2.2.2.1 "ЭХО".toList "ПРИВЕТ".toList (by decide) (by decide)
      (by decide),
    by decide,
    ((modAlphaCipher.state_after_call ruLocale
      ⟨modAlphaCipher.numAlphaInit, modAlphaCipher.alphaNumInit, [30, 22, 15]⟩
      "Яz".toList).1.2.2.2.2.2.2.2 "ЯZ".toList (by decide)).1 'Z' (by decide) (by decide),
    by decide,
    (modAlphaCipher.state_after_call ruLocale
      ⟨modAlphaCipher.numAlphaInit, modAlphaCipher.alphaNumInit, [30, 22, 15]⟩
      "привет".toList).2.2.2.2.2.1 (Err.cipher_error "Invalid cipher text") (by decide)⟩

/-- C22. Route cipher reverse round trip: for every column count `columns > 0` and every
non-empty text `c` of uppercase letters, `decrypt` returns a text `r` (a permutation of `c`
of the same length) and `encrypt` of `r` returns `c`; with the round trip in the other
direction, `encrypt` and `decrypt` are mutually inverse on such texts. -/
theorem RouteCipher.route_reverse_round_trip (L : WCType) (self : RouteCipher) (c : wstring)
    (hkey : 0 < self.columns) (hc : c ≠ [])
    (hup : ∀ ch ∈ c, L.isUpperLetter ch = true) :
    (∃ r, RouteCipher.decrypt L self c = (.ok r, self) ∧
      RouteCipher.encrypt L self r = (.ok c, self) ∧
      r.length = c.length ∧ r.Perm c) ∧
    (∃ ct, RouteCipher.encrypt L self c = (.ok ct, self) ∧
      RouteCipher.decrypt L self ct = (.ok c, self) ∧
      ct.length = c.length ∧ ct.Perm c) := by
  have hupper : ∀ (t : wstring), t.Perm c → ∀ ch ∈ t, L.iswupper ch = true := by
    intro t ht ch hch
    have := hup ch (ht.mem_iff.mp hch)
    simp only [WCType.isUpperLetter, Bool.and_eq_true] at this
    exact this.1.2
  have hne : ∀ (t : wstring), t.length = c.length → t ≠ [] := by
    intro t ht h0
    rw [h0] at ht
    exact hc (List.length_eq_zero.mp ht.symm)
  constructor
  · have hperm := RouteCipher.decryptSpec_perm self.columns hkey c
    have hlen := RouteCipher.length_decryptSpec self.columns c
    refine ⟨RouteCipher.decryptSpec self.columns c, ?_, ?_, hlen, hperm⟩
    · rw [RouteCipher.decrypt_eq L self hkey,
        RouteCipher.getValidCipherText_of_upper L c hc (hupper c (List.Perm.refl c))]
      rfl
    · rw [RouteCipher.encrypt_eq,
        RouteCipher.getValidOpenText_of_upper L _ (hne _ hlen)
          (fun ch hch => hup ch (hperm.mem_iff.mp hch))]
      simp [Except.map, RouteCipher.encryptSpec_decryptSpec self.columns hkey c]
  · have hperm := RouteCipher.encryptSpec_perm self.columns hkey c
    have hlen := RouteCipher.length_encryptSpec self.columns hkey c
    refine ⟨RouteCipher.encryptSpec self.columns c, ?_, ?_, hlen, hperm⟩
    · rw [RouteCipher.encrypt_eq, RouteCipher.getValidOpenText_of_upper L c hc hup]
      rfl
    · rw [RouteCipher.decrypt_eq L self hkey,
        RouteCipher.getValidCipherText_of_upper L _ (hne _ hlen) (hupper _ hperm)]
      simp [Except.map, RouteCipher.decryptSpec_encryptSpec self.columns hkey c]

/-- Witness of C22: five columns and a text of thirteen letters. -/
theorem RouteCipher.route_reverse_round_trip_witness :
    0 < (RouteCipher.mk 5).columns ∧ "ПРИВЕТПРИВЕТЫ".toList ≠ [] ∧
      (∀ ch ∈ "ПРИВЕТПРИВЕТЫ".toList, ruLocale.isUpperLetter ch = true) ∧
      (∃ r, RouteCipher.decrypt ruLocale ⟨5⟩ "ПРИВЕТПРИВЕТЫ".toList = (.ok r, ⟨5⟩) ∧
        RouteCipher.encrypt ruLocale ⟨5⟩ r = (.ok "ПРИВЕТПРИВЕТЫ".toList, ⟨5⟩) ∧
        r.length = "ПРИВЕТПРИВЕТЫ".toList.length ∧ r.Perm "ПРИВЕТПРИВЕТЫ".toList) :=
  ⟨by decide, by decide, by decide,
    (RouteCipher.route_reverse_round_trip ruLocale ⟨5⟩ "ПРИВЕТПРИВЕТЫ".toList (by decide)
      (by decide) (by decide)).1⟩

/-- C23. Gronsfeld keyword case-insensitivity: when the classification makes the 33 letters
uppercase letters, for every non-empty keyword `k` each of whose characters is alphabetic
and has one of the 33 letters as its uppercase form, the constructor succeeds on `k` and on
the uppercased `k` and builds the same object; so the two ciphers have the same numeric key
(the alphabet positions of the uppercased letters) and `encrypt` and `decrypt` return the
same for them on every text. -/
theorem modAlphaCipher.keyword_case_insensitive (L : WCType)
    (hL : ∀ c ∈ modAlphaCipher.numAlphaInit, L.isUpperLetter c = true)
    (k : wstring) (hk : k ≠ [])
    (hka : ∀ c ∈ k, L.iswalpha c = true ∧ L.keyUpper c ∈ modAlphaCipher.numAlphaInit) :
    (∃ cipher, modAlphaCipher.new L k = .ok cipher ∧
      modAlphaCipher.new L (k.map L.keyUpper) = .ok cipher ∧
      cipher.key = (k.map L.keyUpper).map
        (fun u => ((modAlphaCipher.numAlphaInit.indexOf u : Nat) : Int))) ∧
    (∀ c1 c2 : modAlphaCipher, modAlphaCipher.new L k = .ok c1 →
      modAlphaCipher.new L (k.map L.keyUpper) = .ok c2 →
      c1.key = c2.key ∧
      ∀ text : wstring,
        modAlphaCipher.encrypt L c1 text = modAlphaCipher.encrypt L c2 text ∧
        modAlphaCipher.decrypt L c1 text = modAlphaCipher.decrypt L c2 text) ∧
    ((∀ c ∈ k, L.iswlower c = false → L.towupper c = c) →
      k.map L.towupper = k.map L.keyUpper) := by
  have hfix : ∀ u ∈ modAlphaCipher.numAlphaInit,
      L.iswalpha u = true ∧ L.keyUpper u = u := by
    intro u hu
    have := hL u hu
    simp only [WCType.isUpperLetter, Bool.and_eq_true, Bool.not_eq_true'] at this
    exact ⟨this.1.1, by simp [WCType.keyUpper, this.2]⟩
  have hsame : modAlphaCipher.new L (k.map L.keyUpper) = modAlphaCipher.new L k :=
    modAlphaCipher.new_map_keyUpper L k (fun c hc =>
      ⟨(hka c hc).1, (hfix _ (hka c hc).2).1, (hfix _ (hka c hc).2).2⟩)
  have hex : ¬ ∃ c ∈ k, L.iswalpha c = false := by
    rintro ⟨c, hc, hc'⟩
    rw [(hka c hc).1] at hc'
    exact absurd hc' (by decide)
  have hnew : ∃ cipher, modAlphaCipher.new L k = .ok cipher := by
    rw [modAlphaCipher.gronsfeld_new_eq, if_neg hk, if_neg hex]
    exact ⟨_, rfl⟩
  obtain ⟨cipher, hcipher⟩ := hnew
  refine ⟨⟨cipher, hcipher, by rw [hsame, hcipher], ?_⟩, ?_, ?_⟩
  · obtain ⟨hkey, -⟩ := modAlphaCipher.new_key_eq L k cipher hcipher
    rw [hkey]
    apply List.map_congr_left
    intro u hu
    obtain ⟨c, hc, rfl⟩ := List.mem_map.mp hu
    exact modAlphaCipher.alphaIndex_init_of_mem _ (hka c hc).2
  · intro c1 c2 h1 h2
    rw [hsame, h1] at h2
    simp only [Except.ok.injEq] at h2
    subst h2
    exact ⟨rfl, fun _ => ⟨rfl, rfl⟩⟩
  · intro htu
    apply List.map_congr_left
    intro c hc
    by_cases hl : L.iswlower c = true
    · simp [WCType.keyUpper, hl]
    · have hl' : L.iswlower c = false := by simpa using hl
      simp [WCType.keyUpper, hl', htu c hc hl']

/-- Witness of C23: the keyword `эХо` against `ЭХО`. -/
theorem modAlphaCipher.keyword_case_insensitive_witness :
    (∀ c ∈ modAlphaCipher.numAlphaInit, ruLocale.isUpperLetter c = true) ∧
      "эХо".toList ≠ [] ∧
      (∀ c ∈ "эХо".toList,
        ruLocale.iswalpha c = true ∧ ruLocale.keyUpper c ∈ modAlphaCipher.numAlphaInit) ∧
      "эХо".toList.map ruLocale.keyUpper = "ЭХО".toList ∧
      (∃ cipher, modAlphaCipher.new ruLocale "эХо".toList = .ok cipher ∧
        modAlphaCipher.new ruLocale ("эХо".toList.map ruLocale.keyUpper) = .ok cipher ∧
        cipher.key = ("эХо".toList.map ruLocale.keyUpper).map
          (fun u => ((modAlphaCipher.numAlphaInit.indexOf u : Nat) : Int))) :=
  ⟨by decide, by decide, by decide, by decide,
    (modAlphaCipher.keyword_case_insensitive ruLocale (by decide) "эХо".toList (by decide)
      (by decide)).1⟩
